import Mathlib

/-!
Formal model of the cascade multimodal transit-routing core.

The definitions below are a shallow embedding of the Rust sources of the
`cascade-core` crate: the time-dependent cost oracle (`graph.rs`), the
time-dependent Dijkstra engine (`algo/dijkstra.rs`), the one-to-one wrapper
(`algo/path_wrappers.rs`), the itinerary engine (`algo/itinerary/`), the GTFS
loaders (`loaders.rs`), the street-graph builder (`streets.rs`) and the
stop-to-street connectors (`connectors.rs`).

Modelling conventions:
* `u32` times are modelled as `Nat`; `u32` subtraction is modelled by
  `u32_wrapping_sub` (release-profile wrapping semantics; the debug profile
  would panic on underflow).  Additions of times are modelled without the
  `2 ^ 32` wrap: the engine documentation declares `u32` overflow of a time a
  programming error, and a day-long horizon stays far below the bound.
* `f64` scores and weights are modelled as `ℚ`; the `f64::INFINITY` sentinel
  of the cost oracle is modelled by `Option`/`WithTop` (`none`/`⊤`).
  The `as u32` cast of a non-negative travel time is `floor`, saturating at
  zero for negative values, which is `ratAsU32` below.
* Rust `HashMap`/`HashSet` values are modelled as functions `Nat → Option _`
  and insertion-ordered lists; `BinaryHeap` with the `MinScored` wrapper is
  modelled as a list whose pop extracts a minimal-score element (ties in the
  Rust heap are unspecified; the model takes the first minimal element).
* Loops are driven by an explicit fuel argument large enough to cover every
  iteration the Rust loop can perform (each iteration pops one heap element
  and every push is accounted for by an edge relaxation that happens at most
  once per node).
-/

namespace Cascade

/-- Wrapping subtraction on `u32` values modelled as `Nat`
(release-profile semantics of `a - b` on `u32`). -/
def u32_wrapping_sub (a b : Nat) : Nat :=
  (a + (2 ^ 32 - b % 2 ^ 32)) % 2 ^ 32

/-- `graph.rs`: a `Trip` is a single scheduled movement between two adjacent
stops. -/
structure Trip where
  departure_time : Nat
  arrival_time : Nat
  route_id : String
  wheelchair_accessible : Bool
deriving DecidableEq

/-- Placeholder trip used for (unreachable) out-of-bounds indexing in the
model of slice indexing. -/
def defaultTrip : Trip := ⟨0, 0, "", false⟩

/-- `graph.rs`: the edge payload; `Transit` carries the trip list, `Transfer`
and `Walk` carry a constant weight (seconds, an `f64` in the source). -/
inductive GraphEdge where
  | Transit (edge_trips : List Trip)
  | Transfer (edge_weight : ℚ)
  | Walk (edge_weight : ℚ)
deriving DecidableEq

/-- Result of Rust `slice::binary_search_by`: `found i` is `Ok(i)` (an index
whose comparator answers `Equal`), `notFound i` is `Err(i)` (the insertion
point). -/
inductive SearchResult where
  | found (i : Nat)
  | notFound (i : Nat)
deriving DecidableEq

/-- The loop of Rust `slice::binary_search_by` specialised to the comparator
`trip.departure_time.cmp(&current_time)`.  `fuel` dominates the iteration
count (`right - left` shrinks every round). -/
def binary_search_go (trips : List Trip) (t : Nat) :
    Nat → Nat → Nat → SearchResult
  | 0, left, _ => .notFound left
  | fuel + 1, left, right =>
    if left < right then
      let size := right - left
      let mid := left + size / 2
      match compare (trips.getD mid defaultTrip).departure_time t with
      | .lt => binary_search_go trips t fuel (mid + 1) right
      | .gt => binary_search_go trips t fuel left mid
      | .eq => .found mid
    else .notFound left

/-- Rust `trips.binary_search_by(|trip| trip.departure_time.cmp(&current_time))`. -/
def binary_search_by (trips : List Trip) (t : Nat) : SearchResult :=
  binary_search_go trips t (trips.length + 1) 0 trips.length

/-- `graph.rs`, `GraphEdge::calculate_delay`: the time-dependent cost oracle.
`none` models the `f64::INFINITY` no-service sentinel. -/
def calculate_delay (e : GraphEdge) (current_time : Nat) : Option ℚ :=
  match e with
  | .Transit edge_trips =>
    match binary_search_by edge_trips current_time with
    | .found index | .notFound index =>
      if index < edge_trips.length then
        some ((u32_wrapping_sub (edge_trips.getD index defaultTrip).arrival_time
          current_time : Nat) : ℚ)
      else none
  | .Transfer walk_edge | .Walk walk_edge => some walk_edge

/-- The cost oracle viewed with the infinity sentinel as `⊤`, matching the
`f64::INFINITY` arithmetic used in the specification's FIFO statement. -/
def costW (e : GraphEdge) (t : Nat) : WithTop ℚ :=
  match calculate_delay e t with
  | none => ⊤
  | some q => (q : WithTop ℚ)

/-- Rust `travel_time as u32` for a finite `f64` travel time: truncation
toward zero, saturating at `0` for negative inputs. -/
def ratAsU32 (q : ℚ) : Nat := q.floor.toNat

/-- `graph.rs`: graph nodes are transit stops or street (walk) nodes, both
carrying a lon/lat point (modelled as a pair of rationals). -/
inductive GraphNode where
  | Transit (stop_id : String) (geometry : ℚ × ℚ)
  | Walk (id : Nat) (geometry : ℚ × ℚ)
deriving DecidableEq

/-- Geometry accessor of `GraphNode`. -/
def GraphNode.geometry : GraphNode → ℚ × ℚ
  | .Transit _ p => p
  | .Walk _ p => p

/-- Placeholder node for (unreachable) out-of-bounds node lookups. -/
def defaultNode : GraphNode := .Walk 0 (0, 0)

/-- The petgraph-backed `TransitGraph`: nodes are indexed `0, 1, …` in
insertion order and every directed edge is a `(source, target, payload)`
triple. -/
structure TransitGraph where
  nodes : List GraphNode
  edges : List (Nat × Nat × GraphEdge)
deriving DecidableEq

/-- Outgoing edges of a node, as `graph.edges(node)` yields them
(`(target, payload)` pairs; the iteration order of petgraph is refined to
edge-list order, which no proved statement depends on). -/
def out (g : TransitGraph) (u : Nat) : List (Nat × GraphEdge) :=
  g.edges.filterMap fun e => if e.1 = u then some (e.2.1, e.2.2) else none

/-- Search state of `time_dependent_dijkstra` (`algo/dijkstra.rs`): the
`visited` hash set (kept in insertion order), the `scores` hash map, and the
`visit_next` binary heap of `MinScored(score, (node, time_at_node))`
triples. -/
structure DState where
  visited : List Nat
  scores : Nat → Option ℚ
  heap : List (ℚ × Nat × Nat)

/-- One heap entry: `(score, node, time_at_node)`. -/
abbrev HeapEntry := ℚ × Nat × Nat

/-- First minimal-score element of a non-empty heap (the element the Rust
`BinaryHeap` of `MinScored` values pops; ties are unspecified there and are
refined to the first occurrence here). -/
def minEntry (x : HeapEntry) (xs : List HeapEntry) : HeapEntry :=
  xs.foldl (fun b y => if y.1 < b.1 then y else b) x

/-- Pop a minimal-score element from the heap, returning it together with the
remaining heap. -/
def popMin (l : List HeapEntry) : Option (HeapEntry × List HeapEntry) :=
  match l with
  | [] => none
  | x :: xs =>
    let m := minEntry x xs
    some (m, l.erase m)

/-- Update of the `scores` hash map. -/
def scoresInsert (f : Nat → Option ℚ) (k : Nat) (v : ℚ) : Nat → Option ℚ :=
  fun x => if x = k then some v else f x

/-- Relaxation of one outgoing edge in `time_dependent_dijkstra`: skip
finalized heads, skip infinite travel times, and update `scores`/push onto the
heap when the new score improves (strictly) on the best known one. -/
def relaxOne (node_score : ℚ) (current_time : Nat) (st : DState)
    (edge : Nat × GraphEdge) : DState :=
  let next := edge.1
  if st.visited.contains next then st
  else
    match calculate_delay edge.2 current_time with
    | none => st
    | some travel_time =>
      let next_score := node_score + travel_time
      let next_time := current_time + ratAsU32 travel_time
      match st.scores next with
      | some ent =>
        if next_score < ent then
          { st with scores := scoresInsert st.scores next next_score,
                    heap := (next_score, next, next_time) :: st.heap }
        else st
      | none =>
        { st with scores := scoresInsert st.scores next next_score,
                  heap := (next_score, next, next_time) :: st.heap }

/-- The `for edge in graph.edges(node)` relaxation loop. -/
def relaxEdges (g : TransitGraph) (node : Nat) (node_score : ℚ)
    (current_time : Nat) (st : DState) : DState :=
  (out g node).foldl (relaxOne node_score current_time) st

/-- Outcome of one iteration of the engine's `while let` loop: `halt` when
the loop exits (empty heap, or the target popped), `step` otherwise. -/
inductive StepRes (σ : Type) where
  | halt (st : σ)
  | step (st : σ)

/-- One iteration of the `while let Some(MinScored(..)) = visit_next.pop()`
loop of `time_dependent_dijkstra`. -/
def dijkstraStep (g : TransitGraph) (target : Option Nat) (st : DState) :
    StepRes DState :=
  match popMin st.heap with
  | none => .halt st
  | some ((node_score, node, current_time), rest) =>
    let st1 : DState := { st with heap := rest }
    if st.visited.contains node then .step st1
    else if target = some node then .halt st1
    else
      let st2 := relaxEdges g node node_score current_time st1
      .step { st2 with visited := st2.visited ++ [node] }

/-- The engine loop, driven by fuel that dominates the iteration count. -/
def ddLoop (g : TransitGraph) (target : Option Nat) :
    Nat → DState → DState
  | 0, st => st
  | fuel + 1, st =>
    match dijkstraStep g target st with
    | .halt st' => st'
    | .step st' => ddLoop g target fuel st'

/-- The state of the engine before iteration `k`, absorbing at loop exit
(used to reason about every pop event of the run). -/
def dstates (g : TransitGraph) (target : Option Nat) (st0 : DState) :
    Nat → DState
  | 0 => st0
  | k + 1 =>
    match dijkstraStep g target (dstates g target st0 k) with
    | .halt _ => dstates g target st0 k
    | .step st' => st'

/-- Initial state: `scores[start] = 0`, heap `[(0, start, start_time)]`. -/
def initSt (start start_time : Nat) : DState :=
  ⟨[], fun v => if v = start then some 0 else none, [(0, start, start_time)]⟩

/-- Fuel dominating the number of loop iterations: every iteration pops one
element, the initial heap has one element, and each node is relaxed at most
once pushing at most its outdegree. -/
def fuelFor (g : TransitGraph) : Nat := 2 * g.edges.length + 2

/-- `algo/dijkstra.rs`, `time_dependent_dijkstra`: returns the `scores` map. -/
def time_dependent_dijkstra (g : TransitGraph) (start : Nat)
    (target : Option Nat) (start_time : Nat) : Nat → Option ℚ :=
  (ddLoop g target (fuelFor g) (initSt start start_time)).scores

/-- `connectors.rs`: a snapped external point: nearest node index and the
walk time from that node to the point. -/
structure SnappedPoint where
  geometry : ℚ × ℚ
  index : Nat
  distance : ℚ
deriving DecidableEq

/-- `polars::PolarsError`, restricted to the variant the modelled code can
produce: `From<Error> for PolarsError` builds a `ComputeError` from the
crate error's display string. -/
inductive PolarsError where
  | ComputeError (msg : String)
deriving DecidableEq

/-- `lib.rs`: the error enumeration of the crate (the variants the modelled
code can produce); `PolarsError` wraps an error that crossed a polars
closure boundary. -/
inductive Error where
  | InvalidData (msg : String)
  | MissingColumn (msg : String)
  | MissingKey (id : Nat)
  | MissingValue (msg : String)
  | NegativeWeight (msg : String)
  | NodeNotFound (msg : String)
  | PolarsError (e : PolarsError)
  | ThreadPanicError (msg : String)
deriving DecidableEq

/-- The `thiserror` display string of each modelled error variant
(`lib.rs`, the `#[error("…")]` attributes); this is the `err.to_string()`
the polars conversion embeds into `ComputeError`. -/
def errorDisplay : Error → String
  | .InvalidData s => "Invalid data: " ++ s
  | .MissingColumn s => "Missing column: " ++ s
  | .MissingKey id => "Hashmap does not contain key: " ++ toString id
  | .MissingValue s => "Missing value in column: " ++ s
  | .NegativeWeight s => "Negative weight detected: " ++ s
  | .NodeNotFound s => "Node not found for id: " ++ s
  | .PolarsError (.ComputeError s) => "Polars error: " ++ s
  | .ThreadPanicError _ => "Thread panicked"

/-- `lib.rs`, `impl From<Error> for PolarsError`: the `?` operator inside a
polars closure (return type `PolarsResult`) converts a crate error into a
`ComputeError` carrying its display string; an already-wrapped polars error
passes through unchanged. -/
def polarsErrorFrom : Error → PolarsError
  | .PolarsError e => e
  | e => .ComputeError (errorDisplay e)

/-- `algo/path_wrappers.rs`, `shortest_path_weight`: one-to-one weight; the
origin snap walk time is added to the target's score; a missing target score
is a `MissingValue` failure. -/
def shortest_path_weight (g : TransitGraph) (start target : SnappedPoint)
    (start_time : Nat) : Except Error ℚ :=
  let result := time_dependent_dijkstra g start.index (some target.index)
    start_time
  match result target.index with
  | none => .error (.MissingValue ("failed to extract time for node " ++
      toString target.index))
  | some time => .ok (time + start.distance)

/-- A travel state `(node, clock, score)` reachable from the origin at the
start time, following the engine's cost and clock semantics: each edge is
entered at the clock value of its tail, contributes its oracle delay to the
score, and advances the clock by the delay truncated to integer seconds. -/
inductive Reaches (g : TransitGraph) (start t0 : Nat) :
    Nat → Nat → ℚ → Prop where
  | base : Reaches g start t0 start t0 0
  | step {u t c} (v : Nat) (e : GraphEdge) (dt : ℚ) :
      Reaches g start t0 u t c → (v, e) ∈ out g u →
      calculate_delay e t = some dt →
      Reaches g start t0 v (t + ratAsU32 dt) (c + dt)

/-- Trip list sorted by departure time (the assembly invariant established by
`sort_trips`). -/
def DepSorted (trips : List Trip) : Prop :=
  trips.Pairwise fun a b => a.departure_time ≤ b.departure_time

/-- Every trip of the list has `departure ≤ arrival` (the assembly invariant
enforced by the `NegativeWeight` check). -/
def DwellOk (trips : List Trip) : Prop :=
  ∀ tr ∈ trips, tr.departure_time ≤ tr.arrival_time

/-- Arrival times non-decreasing along the trip list (no overtaking: the FIFO
schedule property). -/
def ArrSorted (trips : List Trip) : Prop :=
  trips.Pairwise fun a b => a.arrival_time ≤ b.arrival_time

instance (trips : List Trip) : Decidable (DepSorted trips) := by
  unfold DepSorted
  infer_instance

instance (trips : List Trip) : Decidable (DwellOk trips) := by
  unfold DwellOk
  exact List.decidableBAll _ trips

instance (trips : List Trip) : Decidable (ArrSorted trips) := by
  unfold ArrSorted
  infer_instance

/-- Sortedness of the trip lists, per edge. -/
def EdgeSorted (e : GraphEdge) : Prop :=
  ∀ trips, e = .Transit trips → DepSorted trips

/-- Non-negative dwell, per edge. -/
def EdgeDwellOk (e : GraphEdge) : Prop :=
  ∀ trips, e = .Transit trips → DwellOk trips

/-- Edge costs are non-negative at every query time. -/
def EdgeNonNeg (e : GraphEdge) : Prop :=
  ∀ t dt, calculate_delay e t = some dt → 0 ≤ dt

/-- Edge costs are FIFO-monotone in the query time: a later entry time never
produces an earlier exit time. -/
def EdgeFIFO (e : GraphEdge) : Prop :=
  ∀ t1 t2 : Nat, t1 ≤ t2 → ∀ dt2, calculate_delay e t2 = some dt2 →
    ∃ dt1, calculate_delay e t1 = some dt1 ∧
      (t1 : ℚ) + dt1 ≤ (t2 : ℚ) + dt2

/-- Edge costs are (non-negative) whole seconds at every query time. -/
def EdgeNatCost (e : GraphEdge) : Prop :=
  ∀ t dt, calculate_delay e t = some dt → ∃ n : Nat, dt = (n : ℚ)

/-- The assembly invariants assumed by the engine correctness claim: sorted
trip lists, non-negative dwell, non-negative and FIFO-monotone costs. -/
def GraphAssumptions (g : TransitGraph) : Prop :=
  ∀ ed ∈ g.edges, EdgeSorted ed.2.2 ∧ EdgeDwellOk ed.2.2 ∧
    EdgeNonNeg ed.2.2 ∧ EdgeFIFO ed.2.2

/-- All edge costs of the graph are whole seconds. -/
def IntegralCosts (g : TransitGraph) : Prop :=
  ∀ ed ∈ g.edges, EdgeNatCost ed.2.2

/-- Walk and transfer weights of the graph are non-negative (true of every
graph the assembly produces; transit delays are non-negative by
construction). -/
def NonNegWeights (g : TransitGraph) : Prop :=
  ∀ ed ∈ g.edges, EdgeNonNeg ed.2.2

/-- Heap entries dominate the best-known score of their node. -/
def GInv (st : DState) : Prop :=
  ∀ s v t, (s, v, t) ∈ st.heap → ∃ s', st.scores v = some s' ∧ s' ≤ s

/-- The engine invariant carried through every iteration of the run. -/
structure DInv (g : TransitGraph) (start t0 : Nat) (st : DState) : Prop where
  hA : ∀ s v t, (s, v, t) ∈ st.heap → Reaches g start t0 v t s
  hG : ∀ s v t, (s, v, t) ∈ st.heap →
    ∃ s', st.scores v = some s' ∧ s' ≤ s
  hC : ∀ v s, v ∉ st.visited → st.scores v = some s →
    ∃ t, (s, v, t) ∈ st.heap
  hD : ∀ v ∈ st.visited, ∃ s t, st.scores v = some s ∧
    Reaches g start t0 v t s ∧
    (∀ t' c', Reaches g start t0 v t' c' → s ≤ c') ∧
    (∀ w e, (w, e) ∈ out g v → ∀ dt, calculate_delay e t = some dt →
      ∃ sw, st.scores w = some sw ∧ sw ≤ s + dt)
  hF : start ∉ st.visited → (0, start, t0) ∈ st.heap

/-- Geometry payload of a segment: a polyline as a list of points. -/
abbrev Geo := List (ℚ × ℚ)

/-- `algo/itinerary/segment.rs`: a typed itinerary segment. -/
inductive Segment where
  | Transit (trip : Trip) (weight : ℚ) (geometry : Option Geo)
  | Pedestrian (weight : ℚ) (geometry : Option Geo)
  | NoService
deriving DecidableEq

/-- `Segment::weight`; the `NoService` case is unreachable in the source
(the engine never stores a `NoService` segment) and is mapped to `0`. -/
def Segment.weight : Segment → ℚ
  | .Transit _ w _ => w
  | .Pedestrian w _ => w
  | .NoService => 0

/-- `algo/itinerary/segment.rs`, `GraphEdge::calculate_itinerary`: the cost
oracle of the itinerary engine, also yielding the realized trip; with
`wheelchair` required, a found trip whose flag is unset becomes
`NoService`. -/
def calculate_itinerary (e : GraphEdge) (current_time : Nat)
    (geometry : Option Geo) (wheelchair : Bool) : Segment :=
  match e with
  | .Transit edge_trips =>
    match binary_search_by edge_trips current_time with
    | .found index | .notFound index =>
      if index < edge_trips.length then
        let trip := edge_trips.getD index defaultTrip
        if !trip.wheelchair_accessible && wheelchair then .NoService
        else
          .Transit trip
            ((u32_wrapping_sub trip.arrival_time current_time : Nat) : ℚ)
            geometry
      else .NoService
  | .Transfer walk_edge | .Walk walk_edge =>
      .Pedestrian walk_edge geometry

/-- `algo/itinerary/segment.rs`: an itinerary is an ordered list of
segments. -/
structure Itinerary where
  segments : List Segment
deriving DecidableEq

/-- `Itinerary::duration`: the sum of the segment weights. -/
def Itinerary.duration (it : Itinerary) : ℚ :=
  (it.segments.map Segment.weight).sum

/-- Search state of `detailed_itinerary_internal`: the weight-engine state
plus the `predecessors` map. -/
structure IState where
  visited : List Nat
  scores : Nat → Option ℚ
  heap : List (ℚ × Nat × Nat)
  preds : Nat → Option (Nat × Segment)

/-- Update of the `predecessors` hash map. -/
def predsInsert (f : Nat → Option (Nat × Segment)) (k : Nat)
    (v : Nat × Segment) : Nat → Option (Nat × Segment) :=
  fun x => if x = k then some v else f x

/-- The two-point polyline `line_string![tail, head]` the itinerary engine
attaches to a relaxed edge. -/
def edgeGeometry (g : TransitGraph) (u v : Nat) : Option Geo :=
  some [(g.nodes.getD u defaultNode).geometry,
        (g.nodes.getD v defaultNode).geometry]

/-- Relaxation of one outgoing edge in `detailed_itinerary_internal`: as in
the weight engine, additionally recording the predecessor and realized
segment on every score improvement. -/
def relaxOneIt (g : TransitGraph) (node : Nat) (node_score : ℚ)
    (current_time : Nat) (wheelchair : Bool) (st : IState)
    (edge : Nat × GraphEdge) : IState :=
  let next := edge.1
  if st.visited.contains next then st
  else
    let segment := calculate_itinerary edge.2 current_time
      (edgeGeometry g node next) wheelchair
    match segment with
    | .NoService => st
    | _ =>
      let travel_time := segment.weight
      let next_score := node_score + travel_time
      let next_time := current_time + ratAsU32 travel_time
      match st.scores next with
      | some ent =>
        if next_score < ent then
          { st with scores := scoresInsert st.scores next next_score,
                    heap := (next_score, next, next_time) :: st.heap,
                    preds := predsInsert st.preds next (node, segment) }
        else st
      | none =>
        { st with scores := scoresInsert st.scores next next_score,
                  heap := (next_score, next, next_time) :: st.heap,
                  preds := predsInsert st.preds next (node, segment) }

/-- The relaxation loop of the itinerary engine. -/
def relaxEdgesIt (g : TransitGraph) (node : Nat) (node_score : ℚ)
    (current_time : Nat) (wheelchair : Bool) (st : IState) : IState :=
  (out g node).foldl (relaxOneIt g node node_score current_time wheelchair) st

/-- One iteration of the `while let` loop of `detailed_itinerary_internal`
(the target is mandatory there and its pop breaks the loop). -/
def dijkstraStepIt (g : TransitGraph) (target : Nat) (wheelchair : Bool)
    (st : IState) : StepRes IState :=
  match popMin st.heap with
  | none => .halt st
  | some ((node_score, node, current_time), rest) =>
    let st1 : IState := { st with heap := rest }
    if st.visited.contains node then .step st1
    else if node = target then .halt st1
    else
      let st2 := relaxEdgesIt g node node_score current_time wheelchair st1
      .step { st2 with visited := st2.visited ++ [node] }

/-- The itinerary engine loop. -/
def ddLoopIt (g : TransitGraph) (target : Nat) (wheelchair : Bool) :
    Nat → IState → IState
  | 0, st => st
  | fuel + 1, st =>
    match dijkstraStepIt g target wheelchair st with
    | .halt st' => st'
    | .step st' => ddLoopIt g target wheelchair fuel st'

/-- Initial state of the itinerary engine. -/
def initStIt (start start_time : Nat) : IState :=
  ⟨[], fun v => if v = start then some 0 else none, [(0, start, start_time)],
    fun _ => none⟩

/-- The `while let Some((prev_node, segment)) = predecessors.get(..)`
reconstruction walk; the fuel dominates the chain length (predecessors point
strictly backwards in finalization order). -/
def reconstructGo (preds : Nat → Option (Nat × Segment)) :
    Nat → Nat → List Segment → List Segment
  | 0, _, acc => acc
  | fuel + 1, current, acc =>
    match preds current with
    | some (prev, segment) => reconstructGo preds fuel prev (acc ++ [segment])
    | none => acc

/-- `algo/itinerary/dijkstra_itinerary.rs`, `detailed_itinerary_internal`:
run the engine, then reconstruct the segment list from the predecessors map
(reversed into travel order) when the target acquired a score; otherwise the
itinerary is empty. -/
def detailed_itinerary_internal (g : TransitGraph) (start target : Nat)
    (start_time : Nat) (wheelchair : Bool) : Itinerary :=
  let fin := ddLoopIt g target wheelchair (fuelFor g)
    (initStIt start start_time)
  if (fin.scores target).isSome then
    ⟨(reconstructGo fin.preds (fin.visited.length + 1) target []).reverse⟩
  else ⟨[]⟩

/-- `detailed_itinerary`: the public wrapper over snapped points. -/
def detailed_itinerary (g : TransitGraph) (start target : SnappedPoint)
    (start_time : Nat) (wheelchair : Bool) : Itinerary :=
  detailed_itinerary_internal g start.index target.index start_time wheelchair

/-- `loaders.rs`: a `stop_times` row joined with its `trips` row (the inner
join of `prepare_dataframes` carries `route_id` and `service_id` onto the
stop-time rows).  Times are already converted to seconds since midnight (the
`HH:MM:SS` parsing of `hhmmss_to_sec` is outside the modelled claims). -/
structure JoinedRow where
  trip_id : String
  stop_id : String
  stop_sequence : Nat
  arrival_time : Nat
  departure_time : Nat
  route_id : String
  service_id : String
  wheelchair_accessible : Option Bool
deriving DecidableEq

/-- A raw `stop_times` row. -/
structure StopTimesRow where
  trip_id : String
  stop_id : String
  stop_sequence : Nat
  arrival_time : Nat
  departure_time : Nat
  wheelchair_accessible : Option Bool
deriving DecidableEq

/-- A `trips` row. -/
structure TripsRow where
  trip_id : String
  service_id : String
  route_id : String
deriving DecidableEq

/-- A `calendar` row: the weekday columns are modelled as a lookup from the
column name to its `0/1` flag. -/
structure CalendarRow where
  service_id : String
  day : String → Nat

/-- `loaders.rs`, `filter_by_time`: keep the rows whose departure time is
strictly greater than `departure` and strictly less than
`departure + duration`. -/
def filter_by_time (rows : List JoinedRow) (departure duration : Nat) :
    List JoinedRow :=
  rows.filter fun r =>
    decide (departure < r.departure_time) &&
    decide (r.departure_time < departure + duration)

/-- The inner join `stop_times ⋈ trips` on `trip_id` (one output row per
matching pair, as a relational inner join produces). -/
def joinStopTimesTrips (stop_times : List StopTimesRow)
    (trips : List TripsRow) : List JoinedRow :=
  stop_times.flatMap fun r =>
    (trips.filter fun tr => tr.trip_id == r.trip_id).map fun tr =>
      ⟨r.trip_id, r.stop_id, r.stop_sequence, r.arrival_time,
        r.departure_time, tr.route_id, tr.service_id, r.wheelchair_accessible⟩

/-- `loaders.rs`, `prepare_dataframes` (the frame manipulations after the
files are read): filter the calendar to the requested weekday, join trips
with the active services, join stop-times with the surviving trips, and
filter by time — passing `departure + duration` as the `duration` argument
of `filter_by_time`, exactly as the source does. -/
def prepare_dataframes (stop_times : List StopTimesRow)
    (trips : List TripsRow) (calendar : List CalendarRow)
    (departure duration : Nat) (weekday : String) : List JoinedRow :=
  let service_ids :=
    (calendar.filter fun c => c.day weekday == 1).map fun c => c.service_id
  let trips_joined := trips.flatMap fun tr =>
    (service_ids.filter fun s => s == tr.service_id).map fun _ => tr
  let valid_stop_times := joinStopTimesTrips stop_times trips_joined
  filter_by_time valid_stop_times departure (departure + duration)

/-- The diagnostic string of the `NegativeWeight` error raised inside the
`apply` closure of `add_edges_to_graph` (it already starts with the
`Negative weight detected:` words, which the display string of the variant
prepends once more on conversion). -/
def negMsg (current_stop next_stop : String) (depart arrive : Nat)
    (route : String) : String :=
  "Negative weight detected: " ++ current_stop ++ " -> " ++ next_stop ++
    ",\n                    " ++ toString depart ++ " -> " ++
    toString arrive ++ ", route: " ++ route

/-- Stable insertion into a list sorted by `stop_sequence` (after existing
equal keys). -/
def insertBySeq (r : JoinedRow) : List JoinedRow → List JoinedRow
  | [] => [r]
  | x :: xs =>
    if x.stop_sequence ≤ r.stop_sequence then x :: insertBySeq r xs
    else r :: x :: xs

/-- Stable sort of a trip group by `stop_sequence` (the polars sort leaves
tie order unspecified; this refinement is stable). -/
def sortBySeq (rows : List JoinedRow) : List JoinedRow :=
  rows.foldl (fun acc r => insertBySeq r acc) []

/-- The group keys of `group_by(["trip_id"])` (grouping order is unspecified
in polars; membership is what the claims use). -/
def groupKeys (rows : List JoinedRow) : List String :=
  (rows.map fun r => r.trip_id).dedup

/-- Append a trip to the first existing `source → target` edge when that
edge is a transit edge (a non-transit match is silently left unchanged, as
in the source); `none` when no such edge exists. -/
def pushTripGo (source target : Nat) (trip : Trip) :
    List (Nat × Nat × GraphEdge) → Option (List (Nat × Nat × GraphEdge))
  | [] => none
  | e :: es =>
    if e.1 = source ∧ e.2.1 = target then
      some ((match e.2.2 with
        | .Transit trips => (e.1, e.2.1, GraphEdge.Transit (trips ++ [trip]))
        | _ => e) :: es)
    else (pushTripGo source target trip es).map (e :: ·)

/-- `loaders.rs`, `add_edge_to_graph`: build the trip with the
`wheelchair_accessible` flag hard-coded to `false`, resolve both stops in the
node map, and either append the trip to the existing transit edge or add a
fresh edge. -/
def add_edge_to_graph (node_id_map : String → Option Nat)
    (current_stop next_stop : String)
    (depart_from_current_stop arrive_to_next_stop : Nat)
    (current_route_id : String) (edges : List (Nat × Nat × GraphEdge)) :
    Except Error (List (Nat × Nat × GraphEdge)) :=
  let route : Trip := ⟨depart_from_current_stop, arrive_to_next_stop,
    current_route_id, false⟩
  match node_id_map current_stop with
  | none => .error (.NodeNotFound current_stop)
  | some source =>
    match node_id_map next_stop with
    | none => .error (.NodeNotFound next_stop)
    | some target =>
      match pushTripGo source target route edges with
      | some edges' => .ok edges'
      | none => .ok (edges ++ [(source, target, GraphEdge.Transit [route])])

/-- The adjacent-pair loop over one sorted trip group, running inside the
polars `apply` closure (return type `PolarsResult`): raise `NegativeWeight`
when the tail's departure exceeds the head's arrival, otherwise insert the
trip.  Each `?` inside the closure converts the crate error through
`From<Error> for PolarsError` into a `ComputeError`. -/
def processPairs (node_id_map : String → Option Nat) :
    List JoinedRow → List (Nat × Nat × GraphEdge) →
    Except PolarsError (List (Nat × Nat × GraphEdge))
  | [], edges => .ok edges
  | [_], edges => .ok edges
  | r1 :: r2 :: rest, edges =>
    if r2.arrival_time < r1.departure_time then
      .error (polarsErrorFrom (.NegativeWeight (negMsg r1.stop_id r2.stop_id
        r1.departure_time r2.arrival_time r1.route_id)))
    else
      match add_edge_to_graph node_id_map r1.stop_id r2.stop_id
          r1.departure_time r2.arrival_time r1.route_id edges with
      | .error e => .error (polarsErrorFrom e)
      | .ok edges' => processPairs node_id_map (r2 :: rest) edges'

/-- The loop over the trip groups (inside the polars `apply`); the first
error aborts the build. -/
def addEdgesGo (rows : List JoinedRow) (node_id_map : String → Option Nat) :
    List String → List (Nat × Nat × GraphEdge) →
    Except PolarsError (List (Nat × Nat × GraphEdge))
  | [], edges => .ok edges
  | key :: rest, edges =>
    match processPairs node_id_map
        (sortBySeq (rows.filter fun r => r.trip_id == key)) edges with
    | .error e => .error e
    | .ok edges' => addEdgesGo rows node_id_map rest edges'

/-- `loaders.rs`, `add_edges_to_graph`: group the prepared stop-times by
`trip_id`, sort each group by `stop_sequence`, and run the adjacent-pair
insertion inside `grouped_df.apply(...)`; the first error aborts the build,
and the trailing `?` wraps the closure's polars error back into the crate
error type as the `PolarsError` variant. -/
def add_edges_to_graph (rows : List JoinedRow)
    (node_id_map : String → Option Nat)
    (edges0 : List (Nat × Nat × GraphEdge)) :
    Except Error (List (Nat × Nat × GraphEdge)) :=
  match addEdgesGo rows node_id_map (groupKeys rows) edges0 with
  | .error e => .error (.PolarsError e)
  | .ok edges => .ok edges

/-- `osm4routing` foot accessibility of a way. -/
inductive FootAccessibility where
  | Allowed
  | Denied
  | Unknown
deriving DecidableEq

/-- An OSM node as delivered by the street reader. -/
structure OsmNode where
  id : Nat
  coord : ℚ × ℚ
deriving DecidableEq

/-- An OSM way as delivered by the street reader; `length` is the geodesic
way length in meters (`edge.length()`). -/
structure OsmWay where
  source : Nat
  target : Nat
  length : ℚ
  foot : FootAccessibility
deriving DecidableEq

/-- The node-insertion loop of `streets.rs`: add each OSM node once
(deduplicated by id, first occurrence wins), remembering the assigned dense
index. -/
def buildStreetNodes (nodes : List OsmNode) :
    List GraphNode × List (Nat × Nat) :=
  nodes.foldl
    (fun acc node =>
      if (acc.2.find? fun p => p.1 == node.id).isSome then acc
      else (acc.1 ++ [GraphNode.Walk node.id node.coord],
            acc.2 ++ [(node.id, acc.1.length)]))
    ([], [])

/-- Lookup in the OSM-id-to-index map. -/
def lookupNodeId (m : List (Nat × Nat)) (id : Nat) : Option Nat :=
  (m.find? fun p => p.1 == id).map fun p => p.2

/-- `streets.rs`, `create_graph` up to the edge-insertion loop (the
largest-component pruning and the spatial index build come afterwards and
are outside the modelled claims): filter the ways to foot-permitted or
foot-unknown, then add, for each way, the two opposing `Walk` edges whose
weight is `edge.length()`. -/
def create_graph (nodes : List OsmNode) (ways : List OsmWay) :
    Except Error TransitGraph := do
  let kept := ways.filter fun w =>
    match w.foot with
    | .Allowed => true
    | .Unknown => true
    | .Denied => false
  let built := buildStreetNodes nodes
  let edges ← kept.foldlM
    (fun acc w => do
      let source_index ← match lookupNodeId built.2 w.source with
        | some i => pure i
        | none => throw (Error.MissingKey w.source)
      let target_index ← match lookupNodeId built.2 w.target with
        | some i => pure i
        | none => throw (Error.MissingKey w.target)
      pure (acc ++ [(source_index, target_index, GraphEdge.Walk w.length),
                    (target_index, source_index, GraphEdge.Walk w.length)]))
    []
  pure ⟨built.1, edges⟩

/-- `lib.rs`: the fixed pedestrian speed in meters per second. -/
def WALK_SPEED : ℚ := 139 / 100

/-- `connectors.rs`: an entry of the spatial index over street nodes. -/
structure IndexedPoint where
  index : Option Nat
  geometry : ℚ × ℚ
deriving DecidableEq

/-- Squared euclidean distance on raw lon/lat coordinates (the metric of the
`rstar` nearest-neighbor query). -/
def dist2 (p q : ℚ × ℚ) : ℚ := (p.1 - q.1) ^ 2 + (p.2 - q.2) ^ 2

/-- `rtree.nearest_neighbor`: a point of the index at minimal euclidean
distance (ties unspecified in `rstar`, refined to the first occurrence). -/
def nearest_neighbor (tree : List IndexedPoint) (p : ℚ × ℚ) :
    Option IndexedPoint :=
  match tree with
  | [] => none
  | x :: xs =>
    some (xs.foldl
      (fun b y => if dist2 y.geometry p < dist2 b.geometry p then y else b) x)

/-- `connectors.rs`, `find_nearest_point_and_calculate_distance`: nearest
index entry plus `haversine_distance / WALK_SPEED`.  The haversine distance
is a trigonometric `f64` computation and is passed as a parameter `hav`. -/
def find_nearest_point_and_calculate_distance
    (hav : ℚ × ℚ → ℚ × ℚ → ℚ) (p : ℚ × ℚ) (tree : List IndexedPoint) :
    Except Error (Nat × ℚ) :=
  match nearest_neighbor tree p with
  | some nearest_point =>
    let distance := hav p nearest_point.geometry / WALK_SPEED
    match nearest_point.index with
    | some node => .ok (node, distance)
    | none => .error (.NodeNotFound "Nearest node not found")
  | none => .error (.NodeNotFound "Nearest node not found")

/-- Whether an edge payload is a transfer edge. -/
def isTransfer : GraphEdge → Bool
  | .Transfer _ => true
  | _ => false

/-- One turn of the connector loop of `connect_stops_to_streets`: skip the
node if it already has an outgoing transfer edge, and for a transit node
whose nearest-neighbor lookup succeeds add the bidirectional transfer pair
carrying the identical walk weight; a failed lookup silently skips the stop
(`if let Ok(..)`). -/
def connectStep (hav : ℚ × ℚ → ℚ × ℚ → ℚ) (rtree : List IndexedPoint)
    (acc : TransitGraph) (node : Nat) : TransitGraph :=
  if (out acc node).any fun we => isTransfer we.2 then acc
  else
    match acc.nodes.getD node defaultNode with
    | .Transit _ p =>
      match find_nearest_point_and_calculate_distance hav p rtree with
      | .ok (nearest_point_index, distance) =>
        { acc with edges := acc.edges ++
            [(node, nearest_point_index, .Transfer distance),
             (nearest_point_index, node, .Transfer distance)] }
      | .error _ => acc
    | _ => acc

/-- `connectors.rs`, `connect_stops_to_streets`: run the connector loop over
every node index in order. -/
def connect_stops_to_streets (hav : ℚ × ℚ → ℚ × ℚ → ℚ)
    (g : TransitGraph) (rtree : List IndexedPoint) : TransitGraph :=
  (List.range g.nodes.length).foldl (connectStep hav rtree) g

/-- Every trip stored in an edge list has its wheelchair flag unset. -/
def AllTripsFalse (edges : List (Nat × Nat × GraphEdge)) : Prop :=
  ∀ ed ∈ edges, ∀ trips, ed.2.2 = GraphEdge.Transit trips →
    ∀ tr ∈ trips, tr.wheelchair_accessible = false

/-- Whether a node is a transit stop. -/
def isTransitNode : GraphNode → Bool
  | .Transit _ _ => true
  | .Walk _ _ => false

/-- The outgoing transfer edges of a node. -/
def outTransfers (g : TransitGraph) (v : Nat) :
    List (Nat × Nat × GraphEdge) :=
  g.edges.filter fun ed => decide (ed.1 = v) && isTransfer ed.2.2

/-- The incoming transfer edges of a node. -/
def inTransfers (g : TransitGraph) (v : Nat) :
    List (Nat × Nat × GraphEdge) :=
  g.edges.filter fun ed => decide (ed.2.1 = v) && isTransfer ed.2.2

/-- The transfer pair contributed by one node of the connector loop. -/
def transferPairFor (hav : ℚ × ℚ → ℚ × ℚ → ℚ) (g : TransitGraph)
    (rtree : List IndexedPoint) (v : Nat) : List (Nat × Nat × GraphEdge) :=
  match g.nodes.getD v defaultNode with
  | .Transit _ p =>
    match find_nearest_point_and_calculate_distance hav p rtree with
    | .ok (ni, d) => [(v, ni, .Transfer d), (ni, v, .Transfer d)]
    | .error _ => []
  | _ => []

/-- Departure time at an index of a trip list (out-of-range indices read the
placeholder). -/
def depAt (trips : List Trip) (j : Nat) : Nat :=
  (trips.getD j defaultTrip).departure_time

/-- Arrival time at an index of a trip list. -/
def arrAt (trips : List Trip) (j : Nat) : Nat :=
  (trips.getD j defaultTrip).arrival_time

/-- Example graph: fractional walk weights make the engine's truncated clock
lag differently along different paths, so the score-minimal settled path can
miss an earlier transit departure that a slightly costlier path catches. -/
def truncGraph : TransitGraph :=
  ⟨[.Walk 0 (0, 0), .Walk 1 (0, 0), .Walk 2 (0, 0), .Walk 3 (0, 0)],
   [(0, 2, .Walk (3 / 2)), (0, 1, .Walk (9 / 10)), (1, 2, .Walk (9 / 10)),
    (2, 3, .Transit [⟨0, 10, "r", false⟩, ⟨100, 200, "r", false⟩])]⟩

/-- Example graph: one walk edge of weight `7` between two street nodes. -/
def pairGraph : TransitGraph :=
  ⟨[.Walk 0 (0, 0), .Walk 1 (0, 0)], [(0, 1, .Walk 7)]⟩

/-- Example graph: a single stop and no street nodes (empty spatial index). -/
def lonelyStopGraph : TransitGraph :=
  ⟨[.Transit "s" (0, 0)], []⟩

/-- Projection of the itinerary engine state onto the weight engine state
(the two engines share `visited`, `scores` and the heap verbatim). -/
def projIt (st : IState) : DState :=
  ⟨st.visited, st.scores, st.heap⟩

/-- Projection of an itinerary-engine step outcome. -/
def projStepIt : StepRes IState → StepRes DState
  | .halt st => .halt (projIt st)
  | .step st => .step (projIt st)

/-- The reconstruction-relevant invariant of the itinerary run: the
`predecessors` map is consistent with `scores` (each recorded predecessor
explains the node's score), predecessors are finalized nodes, predecessor
chains strictly descend in finalization order, and the origin keeps score
`0` with no predecessor while every other scored node has one.  None of the
fields mentions the heap, so the invariant survives the early break at the
target's pop. -/
structure ICore (start : Nat) (st : IState) : Prop where
  hS0 : st.scores start = some 0
  hP0 : st.preds start = none
  hPne : ∀ v s, st.scores v = some s → st.preds v = none → v = start
  hPred : ∀ v u seg, st.preds v = some (u, seg) →
    ∃ su, st.scores u = some su ∧ st.scores v = some (su + seg.weight)
  hVis : ∀ v u seg, st.preds v = some (u, seg) → u ∈ st.visited
  hRank : ∀ u u2 seg2, st.preds u = some (u2, seg2) → u ∈ st.visited →
    st.visited.indexOf u2 < st.visited.indexOf u

/-- The full loop invariant of the itinerary run: the reconstruction core,
heap domination of the score map, a heap entry at the exact score of every
unfinalized scored node, and non-negative scores. -/
structure IFull (start : Nat) (st : IState) : Prop where
  core : ICore start st
  hG : GInv (projIt st)
  hC : ∀ v s, st.scores v = some s → st.visited.contains v = false →
    ∃ t, (s, v, t) ∈ st.heap
  hNN : ∀ v s, st.scores v = some s → 0 ≤ s

/-- Invariant of the itinerary engine while the edges of the popped node `u`
(with settled score `s`) are being relaxed: `st0` is the state right after
the pop.  The visited list never changes during the round, finalized nodes
and `u` itself keep their score and predecessor, the origin keeps score `0`
and no predecessor, scores stay non-negative, each recorded predecessor
explains its node's score, and every predecessor is finalized or is `u`. -/
structure RoundInv (start u : Nat) (st0 st : IState) : Prop where
  hV : st.visited = st0.visited
  hFr : ∀ v, st0.visited.contains v = true ∨ v = u →
    st.preds v = st0.preds v ∧ st.scores v = st0.scores v
  hS0 : st.scores start = some 0
  hP0 : st.preds start = none
  hPne : ∀ v s', st.scores v = some s' → st.preds v = none → v = start
  hNN : ∀ v s', st.scores v = some s' → 0 ≤ s'
  hPred : ∀ v u' seg, st.preds v = some (u', seg) →
    ∃ su, st.scores u' = some su ∧ st.scores v = some (su + seg.weight)
  hTgt : ∀ v u' seg, st.preds v = some (u', seg) →
    st0.visited.contains u' = true ∨ u' = u

/-! ### Binary-search and cost-oracle lemmas -/

theorem getD_eq_getElem (l : List Trip) (i : Nat) (h : i < l.length) :
    l.getD i defaultTrip = l[i] := by
  simp [List.getD_eq_getElem?_getD, List.getElem?_eq_getElem h]

theorem depSorted_mono {trips : List Trip} (hs : DepSorted trips)
    {i j : Nat} (hij : i ≤ j) (hj : j < trips.length) :
    depAt trips i ≤ depAt trips j := by
  rcases Nat.eq_or_lt_of_le hij with rfl | hlt
  · exact le_refl _
  · have hi : i < trips.length := lt_trans hlt hj
    have := (List.pairwise_iff_getElem.mp hs) i j hi hj hlt
    unfold depAt
    rw [getD_eq_getElem _ _ hi, getD_eq_getElem _ _ hj]
    exact this

theorem arrSorted_mono {trips : List Trip} (hs : ArrSorted trips)
    {i j : Nat} (hij : i ≤ j) (hj : j < trips.length) :
    arrAt trips i ≤ arrAt trips j := by
  rcases Nat.eq_or_lt_of_le hij with rfl | hlt
  · exact le_refl _
  · have hi : i < trips.length := lt_trans hlt hj
    have := (List.pairwise_iff_getElem.mp hs) i j hi hj hlt
    unfold arrAt
    rw [getD_eq_getElem _ _ hi, getD_eq_getElem _ _ hj]
    exact this

theorem binary_search_go_spec (trips : List Trip) (t : Nat)
    (hs : DepSorted trips) :
    ∀ fuel left right, left ≤ right → right ≤ trips.length →
      right - left ≤ fuel →
      (∀ j, j < left → depAt trips j < t) →
      (∀ j, right ≤ j → j < trips.length → t < depAt trips j) →
      (∀ i, binary_search_go trips t fuel left right = .found i →
        i < trips.length ∧ depAt trips i = t) ∧
      (∀ i, binary_search_go trips t fuel left right = .notFound i →
        i ≤ trips.length ∧ (∀ j, j < i → depAt trips j < t) ∧
        (∀ j, i ≤ j → j < trips.length → t < depAt trips j)) := by
  intro fuel
  induction fuel with
  | zero =>
    intro left right hlr hrl hfuel hlo hhi
    have : left = right := by omega
    subst this
    constructor
    · intro i hi
      simp [binary_search_go] at hi
    · intro i hi
      simp [binary_search_go] at hi
      subst hi
      exact ⟨hrl, hlo, hhi⟩
  | succ fuel ih =>
    intro left right hlr hrl hfuel hlo hhi
    by_cases h : left < right
    · have hmidlt : left + (right - left) / 2 < right := by omega
      have hmidge : left ≤ left + (right - left) / 2 := by omega
      set mid := left + (right - left) / 2 with hmid
      have hmidlen : mid < trips.length := lt_of_lt_of_le hmidlt hrl
      rcases lt_trichotomy (depAt trips mid) t with hc | hc | hc
      · -- comparator answers Less
        have hstep : binary_search_go trips t (fuel + 1) left right =
            binary_search_go trips t fuel (mid + 1) right := by
          simp only [binary_search_go, if_pos h]
          have : compare (trips.getD mid defaultTrip).departure_time t =
              Ordering.lt := by
            rw [Nat.compare_eq_lt]
            exact hc
          rw [← hmid, this]
        rw [hstep]
        refine ih (mid + 1) right (by omega) hrl (by omega) ?_ hhi
        intro j hj
        rcases Nat.lt_succ_iff_lt_or_eq.mp hj with hj' | rfl
        · rcases Nat.lt_or_ge j left with hj'' | hj''
          · exact hlo j hj''
          · exact lt_of_le_of_lt (depSorted_mono hs (by omega) hmidlen) hc
        · exact hc
      · -- comparator answers Equal
        have hstep : binary_search_go trips t (fuel + 1) left right =
            .found mid := by
          simp only [binary_search_go, if_pos h]
          have : compare (trips.getD mid defaultTrip).departure_time t =
              Ordering.eq := by
            rw [Nat.compare_eq_eq]
            exact hc
          rw [← hmid, this]
        rw [hstep]
        constructor
        · intro i hi
          cases hi
          exact ⟨hmidlen, hc⟩
        · intro i hi
          cases hi
      · -- comparator answers Greater
        have hstep : binary_search_go trips t (fuel + 1) left right =
            binary_search_go trips t fuel left mid := by
          simp only [binary_search_go, if_pos h]
          have : compare (trips.getD mid defaultTrip).departure_time t =
              Ordering.gt := by
            rw [Nat.compare_eq_gt]
            exact hc
          rw [← hmid, this]
        rw [hstep]
        refine ih left mid (by omega) (le_of_lt hmidlen) (by omega) hlo ?_
        intro j hj hjlen
        exact lt_of_lt_of_le hc (depSorted_mono hs hj hjlen)
    · have : left = right := by omega
      subst this
      constructor
      · intro i hi
        simp [binary_search_go, h] at hi
      · intro i hi
        simp [binary_search_go, h] at hi
        subst hi
        exact ⟨hrl, hlo, hhi⟩

theorem binary_search_by_spec (trips : List Trip) (t : Nat)
    (hs : DepSorted trips) :
    (∀ i, binary_search_by trips t = .found i →
      i < trips.length ∧ depAt trips i = t) ∧
    (∀ i, binary_search_by trips t = .notFound i →
      i ≤ trips.length ∧ (∀ j, j < i → depAt trips j < t) ∧
      (∀ j, i ≤ j → j < trips.length → t < depAt trips j)) := by
  have := binary_search_go_spec trips t hs (trips.length + 1) 0
    trips.length (Nat.zero_le _) (le_refl _) (by omega)
    (by intro j hj; omega) (by intro j hj hjl; omega)
  exact this

theorem u32_wrapping_sub_eq_sub {a b : Nat} (hba : b ≤ a)
    (ha : a < 2 ^ 32) : u32_wrapping_sub a b = a - b := by
  unfold u32_wrapping_sub
  have hb : b % 2 ^ 32 = b := Nat.mod_eq_of_lt (lt_of_le_of_lt hba ha)
  rw [hb]
  have h1 : a + (2 ^ 32 - b) = (a - b) + 2 ^ 32 := by omega
  rw [h1, Nat.add_mod_right]
  exact Nat.mod_eq_of_lt (by omega)

/-- Case analysis of `calculate_delay` on a sorted transit edge: either some
index at or past the query time realizes the delay, or there is no service. -/
theorem calculate_delay_transit_cases (trips : List Trip) (t : Nat)
    (hs : DepSorted trips) :
    (calculate_delay (.Transit trips) t = none ∧
      ∀ j, j < trips.length → depAt trips j < t) ∨
    (∃ i, i < trips.length ∧ t ≤ depAt trips i ∧
      (∀ j, j < trips.length → t ≤ depAt trips j → depAt trips i ≤ depAt trips j) ∧
      (depAt trips i = t ∨ ∀ j, j < i → depAt trips j < t) ∧
      calculate_delay (.Transit trips) t =
        some ((u32_wrapping_sub (arrAt trips i) t : Nat) : ℚ)) := by
  obtain ⟨hfound, hnot⟩ := binary_search_by_spec trips t hs
  unfold calculate_delay
  cases hbs : binary_search_by trips t with
  | found i =>
    obtain ⟨hi, hdep⟩ := hfound i hbs
    right
    refine ⟨i, hi, le_of_eq hdep.symm, ?_, .inl hdep, ?_⟩
    · intro j _ hj
      rw [hdep]
      exact hj
    · simp [hbs, hi, arrAt]
  | notFound i =>
    obtain ⟨hle, hlo, hhi⟩ := hnot i hbs
    by_cases hi : i < trips.length
    · right
      refine ⟨i, hi, le_of_lt (hhi i (le_refl _) hi), ?_, .inr hlo, ?_⟩
      · intro j hjlen hj
        rcases Nat.lt_or_ge j i with hj' | hj'
        · exact absurd (hlo j hj') (not_lt.mpr hj)
        · exact depSorted_mono hs hj' hjlen
      · simp [hbs, hi, arrAt]
    · left
      have : i = trips.length := by omega
      subst this
      refine ⟨by simp [hbs, hi], ?_⟩
      intro j hj
      exact hlo j hj

/-- Claim C2: on a transit edge with a sorted trip list, `calculate_delay`
returns the delay of a trip whose departure is the smallest departure at or
after `t_now` (in particular a trip departing exactly at `t_now` is taken
with zero wait), the returned value being `arrival - t_now` in `u32`
arithmetic (equal to the exact difference whenever `t_now ≤ arrival`); it
returns the infinity sentinel (`none`) exactly when no trip departs at or
after `t_now`; on walk and transfer edges it always returns the constant
edge weight. -/
theorem calculate_delay_spec (trips : List Trip) (w : ℚ) (t : Nat)
    (hs : DepSorted trips)
    (hb : ∀ tr ∈ trips, tr.arrival_time < 2 ^ 32) :
    (calculate_delay (.Transit trips) t = none ↔
      ∀ tr ∈ trips, tr.departure_time < t) ∧
    (∀ q, calculate_delay (.Transit trips) t = some q →
      ∃ tr ∈ trips, t ≤ tr.departure_time ∧
        (∀ tr' ∈ trips, t ≤ tr'.departure_time →
          tr.departure_time ≤ tr'.departure_time) ∧
        q = ((u32_wrapping_sub tr.arrival_time t : Nat) : ℚ) ∧
        (t ≤ tr.arrival_time → q = (tr.arrival_time : ℚ) - (t : ℚ))) ∧
    calculate_delay (.Walk w) t = some w ∧
    calculate_delay (.Transfer w) t = some w := by
  rcases calculate_delay_transit_cases trips t hs with
    ⟨hnone, hall⟩ | ⟨i, hi, hti, hmin, _, hsome⟩
  · refine ⟨⟨fun _ tr htr => ?_, fun _ => hnone⟩, fun q hq => ?_, rfl, rfl⟩
    · obtain ⟨j, hj, rfl⟩ := List.getElem_of_mem htr
      have := hall j hj
      rwa [depAt, getD_eq_getElem _ _ hj] at this
    · rw [hnone] at hq
      cases hq
  · constructor
    · constructor
      · intro hq
        rw [hsome] at hq
        cases hq
      · intro hall
        have := hall (trips[i]) (List.getElem_mem hi)
        rw [depAt, getD_eq_getElem _ _ hi] at hti
        omega
    refine ⟨fun q hq => ?_, rfl, rfl⟩
    rw [hsome] at hq
    cases hq
    have harr : arrAt trips i = trips[i].arrival_time := by
      rw [arrAt, getD_eq_getElem _ _ hi]
    have hdep : depAt trips i = trips[i].departure_time := by
      rw [depAt, getD_eq_getElem _ _ hi]
    refine ⟨trips[i], List.getElem_mem hi, by rw [← hdep]; exact hti,
      ?_, by rw [harr], ?_⟩
    · intro tr' htr' ht'
      obtain ⟨j, hj, rfl⟩ := List.getElem_of_mem htr'
      have := hmin j hj (by rwa [depAt, getD_eq_getElem _ _ hj])
      rw [hdep, depAt, getD_eq_getElem _ _ hj] at this
      exact this
    · intro hta
      have hlt : trips[i].arrival_time < 2 ^ 32 :=
        hb _ (List.getElem_mem hi)
      rw [harr, u32_wrapping_sub_eq_sub (by rwa [← harr] at hta ⊢) hlt]
      have : (t : ℚ) ≤ (trips[i].arrival_time : ℚ) := by
        exact_mod_cast hta
      push_cast [Nat.cast_sub hta]
      ring

/-- Witness for C2 at a concrete sorted trip list and walk weight. -/
theorem calculate_delay_spec_witness :
    (DepSorted [⟨10, 20, "r", false⟩] ∧
      ∀ tr ∈ [(⟨10, 20, "r", false⟩ : Trip)], tr.arrival_time < 2 ^ 32) ∧
    ((calculate_delay (.Transit [⟨10, 20, "r", false⟩]) 10 = none ↔
      ∀ tr ∈ [(⟨10, 20, "r", false⟩ : Trip)], tr.departure_time < 10) ∧
    (∀ q, calculate_delay (.Transit [⟨10, 20, "r", false⟩]) 10 = some q →
      ∃ tr ∈ [(⟨10, 20, "r", false⟩ : Trip)], 10 ≤ tr.departure_time ∧
        (∀ tr' ∈ [(⟨10, 20, "r", false⟩ : Trip)], 10 ≤ tr'.departure_time →
          tr.departure_time ≤ tr'.departure_time) ∧
        q = ((u32_wrapping_sub tr.arrival_time 10 : Nat) : ℚ) ∧
        (10 ≤ tr.arrival_time → q = (tr.arrival_time : ℚ) - (10 : ℚ))) ∧
    calculate_delay (.Walk (5 / 2)) 10 = some (5 / 2) ∧
    calculate_delay (.Transfer (5 / 2)) 10 = some (5 / 2)) :=
  ⟨⟨by decide, by decide⟩,
    calculate_delay_spec [⟨10, 20, "r", false⟩] (5 / 2) 10 (by decide)
      (by decide)⟩

/-- Non-negative dwell transported to the indexed accessors. -/
theorem dwellOk_at {trips : List Trip} (hd : DwellOk trips) {i : Nat}
    (hi : i < trips.length) : depAt trips i ≤ arrAt trips i := by
  have := hd (trips[i]) (List.getElem_mem hi)
  rw [depAt, arrAt, getD_eq_getElem _ _ hi]
  exact this

/-- Core monotonicity of the transit cost oracle on a FIFO schedule (sorted
departures, non-negative dwell, non-decreasing arrivals). -/
theorem calculate_delay_transit_mono (trips : List Trip)
    (hs : DepSorted trips) (hd : DwellOk trips) (ha : ArrSorted trips)
    (hb : ∀ tr ∈ trips, tr.arrival_time < 2 ^ 32)
    {t1 t2 : Nat} (h12 : t1 ≤ t2) {q2 : ℚ}
    (hq2 : calculate_delay (.Transit trips) t2 = some q2) :
    ∃ q1, calculate_delay (.Transit trips) t1 = some q1 ∧
      (t1 : ℚ) + q1 ≤ (t2 : ℚ) + q2 := by
  rcases Nat.eq_or_lt_of_le h12 with rfl | hlt
  · exact ⟨q2, hq2, le_refl _⟩
  rcases calculate_delay_transit_cases trips t2 hs with
    ⟨hnone, _⟩ | ⟨i2, hi2, hti2, _, _, hsome2⟩
  · rw [hnone] at hq2
    cases hq2
  rcases calculate_delay_transit_cases trips t1 hs with
    ⟨_, hall⟩ | ⟨i1, hi1, hti1, _, hpos1, hsome1⟩
  · exact absurd (hall i2 hi2) (not_lt.mpr (le_trans h12 hti2))
  have harrb : ∀ j, j < trips.length → arrAt trips j < 2 ^ 32 := by
    intro j hj
    have := hb (trips[j]) (List.getElem_mem hj)
    rw [arrAt, getD_eq_getElem _ _ hj]
    exact this
  -- the index found at the earlier time is not past the one found later
  have hidx : i1 ≤ i2 := by
    by_contra hcon
    push_neg at hcon
    rcases hpos1 with hdep1 | hlo1
    · have := depSorted_mono hs (le_of_lt hcon) hi1
      omega
    · have := hlo1 i2 hcon
      omega
  have harr : arrAt trips i1 ≤ arrAt trips i2 := arrSorted_mono ha hidx hi2
  have hta1 : t1 ≤ arrAt trips i1 := le_trans hti1 (dwellOk_at hd hi1)
  have hta2 : t2 ≤ arrAt trips i2 := le_trans hti2 (dwellOk_at hd hi2)
  rw [hsome2] at hq2
  cases hq2
  refine ⟨_, hsome1, ?_⟩
  rw [u32_wrapping_sub_eq_sub hta1 (harrb i1 hi1),
    u32_wrapping_sub_eq_sub hta2 (harrb i2 hi2)]
  push_cast [Nat.cast_sub hta1, Nat.cast_sub hta2]
  have : (arrAt trips i1 : ℚ) ≤ (arrAt trips i2 : ℚ) := by exact_mod_cast harr
  linarith

/-- Walk edges are trivially FIFO-monotone. -/
theorem edgeFIFO_walk (w : ℚ) : EdgeFIFO (.Walk w) := by
  intro t1 t2 h12 dt2 h
  cases h
  refine ⟨w, rfl, ?_⟩
  have : (t1 : ℚ) ≤ (t2 : ℚ) := by exact_mod_cast h12
  linarith

/-- Transfer edges are trivially FIFO-monotone. -/
theorem edgeFIFO_transfer (w : ℚ) : EdgeFIFO (.Transfer w) := by
  intro t1 t2 h12 dt2 h
  cases h
  refine ⟨w, rfl, ?_⟩
  have : (t1 : ℚ) ≤ (t2 : ℚ) := by exact_mod_cast h12
  linarith

/-- Transit edges with a FIFO schedule are FIFO-monotone. -/
theorem edgeFIFO_transit (trips : List Trip) (hs : DepSorted trips)
    (hd : DwellOk trips) (ha : ArrSorted trips)
    (hb : ∀ tr ∈ trips, tr.arrival_time < 2 ^ 32) :
    EdgeFIFO (.Transit trips) := by
  intro t1 t2 h12 dt2 h
  exact calculate_delay_transit_mono trips hs hd ha hb h12 h

/-- Walk edges have non-negative cost when the stored weight is
non-negative. -/
theorem edgeNonNeg_walk {w : ℚ} (hw : 0 ≤ w) : EdgeNonNeg (.Walk w) := by
  intro t dt h
  cases h
  exact hw

/-- Transfer edges have non-negative cost when the stored weight is
non-negative. -/
theorem edgeNonNeg_transfer {w : ℚ} (hw : 0 ≤ w) :
    EdgeNonNeg (.Transfer w) := by
  intro t dt h
  cases h
  exact hw

/-- Transit edge costs are always whole non-negative seconds (the `u32`
subtraction result cast to `f64`). -/
theorem edgeNatCost_transit (trips : List Trip) :
    EdgeNatCost (.Transit trips) := by
  intro t dt h
  simp only [calculate_delay] at h
  cases hbs : binary_search_by trips t with
  | found i =>
    simp only [hbs] at h
    by_cases hi : i < trips.length
    · rw [if_pos hi] at h
      exact ⟨_, (Option.some_inj.mp h).symm⟩
    · rw [if_neg hi] at h
      cases h
  | notFound i =>
    simp only [hbs] at h
    by_cases hi : i < trips.length
    · rw [if_pos hi] at h
      exact ⟨_, (Option.some_inj.mp h).symm⟩
    · rw [if_neg hi] at h
      cases h

/-- Transit edge costs are non-negative. -/
theorem edgeNonNeg_transit (trips : List Trip) :
    EdgeNonNeg (.Transit trips) := by
  intro t dt h
  obtain ⟨n, rfl⟩ := edgeNatCost_transit trips t dt h
  exact_mod_cast Nat.zero_le n

/-- Claim C3 (counterexample): a transit edge satisfying the claim's stated
hypotheses (trips sorted by departure, arrival at or after departure) whose
second trip overtakes the first violates the claimed FIFO inequality at
`t1 = 5 ≤ 15 = t2`: the cost at `5` boards the slow first trip (exit time
`100`) while the cost at `15` boards the overtaking second trip (exit time
`30`). -/
theorem fifo_monotonicity_cex :
    DepSorted [⟨10, 100, "r", false⟩, ⟨20, 30, "r", false⟩] ∧
    DwellOk [⟨10, 100, "r", false⟩, ⟨20, 30, "r", false⟩] ∧
    ¬(((5 : ℚ) : WithTop ℚ) +
        costW (.Transit [⟨10, 100, "r", false⟩, ⟨20, 30, "r", false⟩]) 5 ≤
      ((15 : ℚ) : WithTop ℚ) +
        costW (.Transit [⟨10, 100, "r", false⟩, ⟨20, 30, "r", false⟩]) 15) := by
  refine ⟨by decide, by decide, ?_⟩
  have h5 : costW (.Transit [⟨10, 100, "r", false⟩, ⟨20, 30, "r", false⟩]) 5 =
      ((95 : ℚ) : WithTop ℚ) := by decide
  have h15 : costW (.Transit [⟨10, 100, "r", false⟩, ⟨20, 30, "r", false⟩]) 15 =
      ((15 : ℚ) : WithTop ℚ) := by decide
  rw [h5, h15]
  rw [← WithTop.coe_add, ← WithTop.coe_add, WithTop.coe_le_coe]
  norm_num

/-- Claim C3 (amended): the FIFO inequality
`t1 + cost(e, t1) ≤ t2 + cost(e, t2)` holds for walk and transfer edges
unconditionally, and for transit edges whose sorted trip list additionally
has non-decreasing arrivals (no overtaking — the FIFO schedule property the
specification assumes); infinite costs are the `⊤` of `WithTop`. -/
theorem fifo_monotonicity (e : GraphEdge)
    (hs : EdgeSorted e) (hd : EdgeDwellOk e)
    (ha : ∀ trips, e = .Transit trips → ArrSorted trips)
    (hb : ∀ trips, e = .Transit trips → ∀ tr ∈ trips,
      tr.arrival_time < 2 ^ 32)
    (t1 t2 : Nat) (h12 : t1 ≤ t2) :
    ((t1 : ℚ) : WithTop ℚ) + costW e t1 ≤
      ((t2 : ℚ) : WithTop ℚ) + costW e t2 := by
  cases e with
  | Transit trips =>
    unfold costW
    cases hq2 : calculate_delay (.Transit trips) t2 with
    | none => simp
    | some q2 =>
      obtain ⟨q1, hq1, hle⟩ := calculate_delay_transit_mono trips
        (hs trips rfl) (hd trips rfl) (ha trips rfl) (hb trips rfl) h12 hq2
      rw [hq1]
      rw [← WithTop.coe_add, ← WithTop.coe_add, WithTop.coe_le_coe]
      exact hle
  | Transfer w =>
    unfold costW calculate_delay
    rw [← WithTop.coe_add, ← WithTop.coe_add, WithTop.coe_le_coe]
    have : (t1 : ℚ) ≤ (t2 : ℚ) := by exact_mod_cast h12
    linarith
  | Walk w =>
    unfold costW calculate_delay
    rw [← WithTop.coe_add, ← WithTop.coe_add, WithTop.coe_le_coe]
    have : (t1 : ℚ) ≤ (t2 : ℚ) := by exact_mod_cast h12
    linarith

/-- Witness for the amended C3 at a concrete FIFO transit edge. -/
theorem fifo_monotonicity_witness :
    (EdgeSorted (.Transit [⟨10, 20, "r", false⟩, ⟨30, 40, "r", false⟩]) ∧
      EdgeDwellOk (.Transit [⟨10, 20, "r", false⟩, ⟨30, 40, "r", false⟩])) ∧
    ((5 : ℚ) : WithTop ℚ) +
        costW (.Transit [⟨10, 20, "r", false⟩, ⟨30, 40, "r", false⟩]) 5 ≤
      ((15 : ℚ) : WithTop ℚ) +
        costW (.Transit [⟨10, 20, "r", false⟩, ⟨30, 40, "r", false⟩]) 15 := by
  constructor
  · constructor
    · intro trips h
      cases h
      decide
    · intro trips h
      cases h
      decide
  · exact fifo_monotonicity _ (fun trips h => by cases h; decide)
      (fun trips h => by cases h; decide) (fun trips h => by cases h; decide)
      (fun trips h => by cases h; decide) 5 15 (by decide)

/-! ### Street-graph construction (C6) and feed preparation (C5) -/

/-- Claim C6 (code evaluation at the failing input): ingesting one
foot-allowed way of length `139` meters adds the two opposing `Walk` edges,
but each carries weight `139` — the raw `edge.length()` in meters — whereas
the claimed weight is `length / 1.39 = 100` seconds; the two values
differ. -/
theorem create_graph_weight_cex :
    create_graph [⟨1, (0, 0)⟩, ⟨2, (1, 0)⟩] [⟨1, 2, 139, .Allowed⟩] =
      .ok ⟨[.Walk 1 (0, 0), .Walk 2 (1, 0)],
           [(0, 1, .Walk 139), (1, 0, .Walk 139)]⟩ ∧
    (139 : ℚ) / WALK_SPEED = 100 ∧ (139 : ℚ) ≠ 100 := by
  refine ⟨rfl, ?_, by norm_num⟩
  norm_num [WALK_SPEED]

/-- Claim C5 (code evaluation at the failing input): with `departure = 100`
and `duration = 200` (claimed window `[100, 300)`), a weekday-active row
departing exactly at `100` is dropped (the filter is strict) while a row
departing at `350` — outside the claimed window — is retained, because the
caller passes `departure + duration` as the `duration` argument and the
effective window is `(100, 400)`. -/
theorem prepare_dataframes_window_cex :
    prepare_dataframes
      [⟨"T1", "A", 1, 100, 100, none⟩, ⟨"T1", "B", 2, 350, 350, none⟩]
      [⟨"T1", "S1", "R1"⟩]
      [⟨"S1", fun d => if d = "monday" then 1 else 0⟩]
      100 200 "monday" =
      [⟨"T1", "B", 2, 350, 350, "R1", "S1", none⟩] ∧
    (100 ≤ 100 ∧ 100 < 100 + 200) ∧ ¬(350 < 100 + 200) := by
  exact ⟨rfl, by omega, by omega⟩

/-! ### Wheelchair flag of loaded trips (C10) -/

theorem pushTripGo_allFalse {source target : Nat} {trip : Trip}
    (htr : trip.wheelchair_accessible = false) :
    ∀ {es es'}, AllTripsFalse es →
      pushTripGo source target trip es = some es' → AllTripsFalse es' := by
  intro es
  induction es with
  | nil =>
    intro es' _ h
    cases h
  | cons e rest ih =>
    intro es' hall h
    unfold pushTripGo at h
    by_cases hcond : e.1 = source ∧ e.2.1 = target
    · rw [if_pos hcond] at h
      cases h
      intro ed hed trips htrips tr htr'
      rcases List.mem_cons.mp hed with rfl | hed'
      · cases e with
        | mk s rest' =>
          cases rest' with
          | mk t payload =>
            cases payload with
            | Transit trips0 =>
              simp only at htrips
              cases htrips
              rcases List.mem_append.mp htr' with hmem | hmem
              · exact hall _ (List.mem_cons_self _ _) _ rfl _ hmem
              · rw [List.mem_singleton.mp hmem]
                exact htr
            | Transfer w =>
              simp only at htrips
              exact hall _ (List.mem_cons_self _ _) _ htrips _ htr'
            | Walk w =>
              simp only at htrips
              exact hall _ (List.mem_cons_self _ _) _ htrips _ htr'
      · exact hall _ (List.mem_cons_of_mem _ hed') _ htrips _ htr'
    · rw [if_neg hcond] at h
      cases hrec : pushTripGo source target trip rest with
      | none =>
        rw [hrec] at h
        cases h
      | some es'' =>
        rw [hrec] at h
        cases h
        have hall' : AllTripsFalse rest := fun ed hed =>
          hall ed (List.mem_cons_of_mem _ hed)
        have := ih hall' hrec
        intro ed hed
        rcases List.mem_cons.mp hed with rfl | hed'
        · exact hall _ (List.mem_cons_self _ _)
        · exact this _ hed'

theorem add_edge_to_graph_allFalse {m : String → Option Nat}
    {s1 s2 : String} {dep arr : Nat} {route : String} {es es'}
    (hall : AllTripsFalse es)
    (h : add_edge_to_graph m s1 s2 dep arr route es = .ok es') :
    AllTripsFalse es' := by
  unfold add_edge_to_graph at h
  cases hm1 : m s1 with
  | none =>
    simp only [hm1] at h
    cases h
  | some source =>
    simp only [hm1] at h
    cases hm2 : m s2 with
    | none =>
      simp only [hm2] at h
      cases h
    | some target =>
      simp only [hm2] at h
      cases hp : pushTripGo source target ⟨dep, arr, route, false⟩ es with
      | none =>
        simp only [hp, Except.ok.injEq] at h
        subst h
        intro ed hed
        rcases List.mem_append.mp hed with hmem | hmem
        · exact hall _ hmem
        · rw [List.mem_singleton.mp hmem]
          intro trips htrips tr htr
          cases htrips
          rw [List.mem_singleton.mp htr]
      | some es'' =>
        simp only [hp, Except.ok.injEq] at h
        subst h
        exact pushTripGo_allFalse rfl hall hp

theorem processPairs_allFalse {m : String → Option Nat} :
    ∀ {group : List JoinedRow} {es es'}, AllTripsFalse es →
      processPairs m group es = .ok es' → AllTripsFalse es' := by
  intro group
  induction group with
  | nil =>
    intro es es' hall h
    cases h
    exact hall
  | cons r1 rest ih =>
    intro es es' hall h
    cases rest with
    | nil =>
      cases h
      exact hall
    | cons r2 rest' =>
      unfold processPairs at h
      by_cases hneg : r2.arrival_time < r1.departure_time
      · rw [if_pos hneg] at h
        cases h
      · rw [if_neg hneg] at h
        cases hadd : add_edge_to_graph m r1.stop_id r2.stop_id
            r1.departure_time r2.arrival_time r1.route_id es with
        | error e =>
          simp only [hadd] at h
          cases h
        | ok es'' =>
          simp only [hadd] at h
          exact ih (add_edge_to_graph_allFalse hall hadd) h

theorem addEdgesGo_allFalse {m : String → Option Nat}
    {rows : List JoinedRow} :
    ∀ {keys : List String} {es es'}, AllTripsFalse es →
      addEdgesGo rows m keys es = .ok es' → AllTripsFalse es' := by
  intro keys
  induction keys with
  | nil =>
    intro es es' hall h
    cases h
    exact hall
  | cons key rest ih =>
    intro es es' hall h
    unfold addEdgesGo at h
    cases hp : processPairs m
        (sortBySeq (rows.filter fun r => r.trip_id == key)) es with
    | error e =>
      simp only [hp] at h
      cases h
    | ok es'' =>
      simp only [hp] at h
      exact ih (processPairs_allFalse hall hp) h

/-- On a trip list whose wheelchair flags are all unset, the itinerary cost
oracle with `wheelchair` required returns `NoService` at every time. -/
theorem calculate_itinerary_noservice (trips : List Trip)
    (hfl : ∀ tr ∈ trips, tr.wheelchair_accessible = false)
    (t : Nat) (geo : Option Geo) :
    calculate_itinerary (.Transit trips) t geo true = .NoService := by
  simp only [calculate_itinerary]
  cases hbs : binary_search_by trips t with
  | found i =>
    by_cases hi : i < trips.length
    · have hflag : trips[i].wheelchair_accessible = false :=
        hfl _ (List.getElem_mem hi)
      simp [hi, getD_eq_getElem _ _ hi, hflag]
    · simp [hi]
  | notFound i =>
    by_cases hi : i < trips.length
    · have hflag : trips[i].wheelchair_accessible = false :=
        hfl _ (List.getElem_mem hi)
      simp [hi, getD_eq_getElem _ _ hi, hflag]
    · simp [hi]

/-- Claim C10: every trip the feed loader inserts into the graph has its
wheelchair flag hard-coded to `false` (whatever the feed's
`wheelchair_accessible` column said), and consequently the itinerary cost
oracle with `wheelchair` required answers `NoService` on every transit edge
of such a graph at every time. -/
theorem loaded_trips_wheelchair_false (rows : List JoinedRow)
    (node_id_map : String → Option Nat) (g : List (Nat × Nat × GraphEdge))
    (h : add_edges_to_graph rows node_id_map [] = .ok g) :
    AllTripsFalse g ∧
    (∀ ed ∈ g, ∀ trips, ed.2.2 = GraphEdge.Transit trips →
      ∀ t geo, calculate_itinerary ed.2.2 t geo true = .NoService) := by
  have hall : AllTripsFalse g := by
    unfold add_edges_to_graph at h
    cases hgo : addEdgesGo rows node_id_map (groupKeys rows) [] with
    | error e =>
      simp only [hgo] at h
      cases h
    | ok es =>
      simp only [hgo] at h
      cases h
      exact addEdgesGo_allFalse (by intro ed hed; cases hed) hgo
  refine ⟨hall, ?_⟩
  intro ed hed trips htrips t geo
  rw [htrips]
  exact calculate_itinerary_noservice trips (hall ed hed trips htrips) t geo

/-- Witness for C10 at a one-row feed whose wheelchair column is set. -/
theorem loaded_trips_wheelchair_false_witness :
    add_edges_to_graph
      [⟨"T1", "A", 1, 50, 40, "R1", "S1", some true⟩,
       ⟨"T1", "B", 2, 90, 95, "R1", "S1", some true⟩]
      (fun s => if s = "A" then some 0 else
        if s = "B" then some 1 else none) [] =
      .ok [(0, 1, .Transit [⟨40, 90, "R1", false⟩])] ∧
    (AllTripsFalse [(0, 1, .Transit [⟨40, 90, "R1", false⟩])] ∧
      (∀ ed ∈ [((0 : Nat), (1 : Nat),
          GraphEdge.Transit [⟨40, 90, "R1", false⟩])],
        ∀ trips, ed.2.2 = GraphEdge.Transit trips →
        ∀ t geo, calculate_itinerary ed.2.2 t geo true = .NoService)) :=
  ⟨by rfl,
    loaded_trips_wheelchair_false
      [⟨"T1", "A", 1, 50, 40, "R1", "S1", some true⟩,
       ⟨"T1", "B", 2, 90, 95, "R1", "S1", some true⟩]
      (fun s => if s = "A" then some 0 else
        if s = "B" then some 1 else none)
      [(0, 1, .Transit [⟨40, 90, "R1", false⟩])] (by rfl)⟩

/-! ### Negative-weight rejection during edge insertion (C9) -/

/-- Membership in the stable insertion. -/
theorem mem_insertBySeq {x r : JoinedRow} :
    ∀ {l : List JoinedRow}, x ∈ insertBySeq r l ↔ x = r ∨ x ∈ l := by
  intro l
  induction l with
  | nil => simp [insertBySeq]
  | cons y ys ih =>
    by_cases hc : y.stop_sequence ≤ r.stop_sequence
    · simp only [insertBySeq, if_pos hc, List.mem_cons, ih]
      tauto
    · simp only [insertBySeq, if_neg hc, List.mem_cons]

/-- Membership is preserved by the stable sort. -/
theorem mem_sortBySeq {x : JoinedRow} {l : List JoinedRow} :
    x ∈ sortBySeq l ↔ x ∈ l := by
  suffices h : ∀ (ys acc : List JoinedRow),
      x ∈ ys.foldl (fun acc r => insertBySeq r acc) acc ↔
        x ∈ acc ∨ x ∈ ys by
    simpa [sortBySeq] using h l []
  intro ys
  induction ys with
  | nil => simp
  | cons y ys ih =>
    intro acc
    rw [List.foldl_cons, ih, mem_insertBySeq]
    simp only [List.mem_cons]
    tauto

/-- Under a total node map, `add_edge_to_graph` always succeeds. -/
theorem add_edge_to_graph_ok {m : String → Option Nat} {s1 s2 : String}
    (h1 : (m s1).isSome) (h2 : (m s2).isSome) (dep arr : Nat) (route : String)
    (es : List (Nat × Nat × GraphEdge)) :
    ∃ es', add_edge_to_graph m s1 s2 dep arr route es = .ok es' := by
  unfold add_edge_to_graph
  cases hm1 : m s1 with
  | none => rw [hm1] at h1; cases h1
  | some source =>
    cases hm2 : m s2 with
    | none => rw [hm2] at h2; cases h2
    | some target =>
      cases hp : pushTripGo source target ⟨dep, arr, route, false⟩ es with
      | none =>
        exact ⟨es ++ [(source, target,
          GraphEdge.Transit [⟨dep, arr, route, false⟩])], by simp [hp]⟩
      | some es'' => exact ⟨es'', by simp [hp]⟩

/-- The pair relation the `NegativeWeight` check enforces. -/
def pairOk (r1 r2 : JoinedRow) : Prop :=
  r1.departure_time ≤ r2.arrival_time

/-- A chain-respecting group is inserted without error. -/
theorem processPairs_ok_of_chain {m : String → Option Nat} :
    ∀ {group : List JoinedRow}, List.Chain' pairOk group →
      (∀ r ∈ group, (m r.stop_id).isSome) →
      ∀ es, ∃ g, processPairs m group es = .ok g := by
  intro group
  induction group with
  | nil => exact fun _ _ es => ⟨es, rfl⟩
  | cons r1 rest ih =>
    intro hch hmap es
    cases rest with
    | nil => exact ⟨es, rfl⟩
    | cons r2 rest' =>
      rw [List.chain'_cons] at hch
      have hneg : ¬ r2.arrival_time < r1.departure_time :=
        not_lt.mpr hch.1
      obtain ⟨es', hadd⟩ := add_edge_to_graph_ok
        (hmap r1 (List.mem_cons_self _ _))
        (hmap r2 (List.mem_cons_of_mem _ (List.mem_cons_self _ _)))
        r1.departure_time r2.arrival_time r1.route_id es
      obtain ⟨g, hg⟩ := ih hch.2
        (fun r hr => hmap r (List.mem_cons_of_mem _ hr)) es'
      refine ⟨g, ?_⟩
      unfold processPairs
      rw [if_neg hneg, hadd]
      exact hg

/-- A group violating the chain stops the build; the `NegativeWeight` raise
naming the first offending adjacent pair leaves the closure converted into a
`ComputeError` whose message prepends the variant's display prefix to the
diagnostic (which already starts with the same words). -/
theorem processPairs_error_of_not_chain {m : String → Option Nat} :
    ∀ {group : List JoinedRow}, ¬ List.Chain' pairOk group →
      (∀ r ∈ group, (m r.stop_id).isSome) →
      ∃ r1 r2, [r1, r2] <:+: group ∧
        r2.arrival_time < r1.departure_time ∧
        ∀ es, processPairs m group es = .error (.ComputeError
          ("Negative weight detected: " ++ negMsg r1.stop_id r2.stop_id
            r1.departure_time r2.arrival_time r1.route_id)) := by
  intro group
  induction group with
  | nil => exact fun hch => absurd List.chain'_nil hch
  | cons r1 rest ih =>
    intro hch hmap
    cases rest with
    | nil => exact absurd (List.chain'_singleton r1) hch
    | cons r2 rest' =>
      rw [List.chain'_cons] at hch
      by_cases hpair : pairOk r1 r2
      · have hch' : ¬ List.Chain' pairOk (r2 :: rest') := fun h =>
          hch ⟨hpair, h⟩
        obtain ⟨a, b, hinf, hab, hrun⟩ := ih hch'
          (fun r hr => hmap r (List.mem_cons_of_mem _ hr))
        refine ⟨a, b, List.infix_cons hinf, hab, ?_⟩
        intro es
        have hneg : ¬ r2.arrival_time < r1.departure_time :=
          not_lt.mpr hpair
        obtain ⟨es', hadd⟩ := add_edge_to_graph_ok
          (hmap r1 (List.mem_cons_self _ _))
          (hmap r2 (List.mem_cons_of_mem _ (List.mem_cons_self _ _)))
          r1.departure_time r2.arrival_time r1.route_id es
        unfold processPairs
        rw [if_neg hneg, hadd]
        exact hrun es'
      · have hneg : r2.arrival_time < r1.departure_time :=
          lt_of_not_le hpair
        refine ⟨r1, r2, ⟨[], rest', rfl⟩, hneg, ?_⟩
        intro es
        unfold processPairs
        rw [if_pos hneg]
        rfl

/-- The group loop succeeds exactly when every group respects the chain, and
a failure is the converted `ComputeError` carrying the `NegativeWeight`
diagnostic of an offending pair. -/
theorem addEdgesGo_spec {rows : List JoinedRow} {m : String → Option Nat}
    (hmap : ∀ r ∈ rows, (m r.stop_id).isSome) :
    ∀ (keys : List String), (∀ k ∈ keys, ∃ r ∈ rows, r.trip_id == k) →
    ∀ es,
      ((∀ key ∈ keys, List.Chain' pairOk
          (sortBySeq (rows.filter fun r => r.trip_id == key))) →
        ∃ g, addEdgesGo rows m keys es = .ok g) ∧
      (∀ er, addEdgesGo rows m keys es = .error er →
        ∃ key ∈ keys, ∃ r1 r2,
          [r1, r2] <:+: sortBySeq (rows.filter fun r => r.trip_id == key) ∧
          r2.arrival_time < r1.departure_time ∧
          er = .ComputeError ("Negative weight detected: " ++
            negMsg r1.stop_id r2.stop_id
              r1.departure_time r2.arrival_time r1.route_id)) ∧
      ((∃ key ∈ keys, ¬ List.Chain' pairOk
          (sortBySeq (rows.filter fun r => r.trip_id == key))) →
        ∃ er, addEdgesGo rows m keys es = .error er) := by
  intro keys
  induction keys with
  | nil =>
    intro _ es
    refine ⟨fun _ => ⟨es, rfl⟩, ?_, ?_⟩
    · intro er h
      cases h
    · rintro ⟨key, hk, _⟩
      cases hk
  | cons key rest ih =>
    intro hkeys es
    have hmapgrp : ∀ r ∈ sortBySeq (rows.filter fun r => r.trip_id == key),
        (m r.stop_id).isSome := by
      intro r hr
      have := mem_sortBySeq.mp hr
      exact hmap r (List.mem_filter.mp this).1
    have ihrest := ih (fun k hk => hkeys k (List.mem_cons_of_mem _ hk))
    by_cases hch : List.Chain' pairOk
        (sortBySeq (rows.filter fun r => r.trip_id == key))
    · obtain ⟨es', hok⟩ := processPairs_ok_of_chain hch hmapgrp es
      have hstep : addEdgesGo rows m (key :: rest) es =
          addEdgesGo rows m rest es' := by
        have hrw : addEdgesGo rows m (key :: rest) es =
            match processPairs m
              (sortBySeq (rows.filter fun r => r.trip_id == key)) es with
            | .error e => .error e
            | .ok edges' => addEdgesGo rows m rest edges' := rfl
        rw [hrw, hok]
      refine ⟨?_, ?_, ?_⟩
      · intro hall
        obtain ⟨g, hg⟩ := (ihrest es').1
          (fun k hk => hall k (List.mem_cons_of_mem _ hk))
        exact ⟨g, by rw [hstep]; exact hg⟩
      · intro er her
        rw [hstep] at her
        obtain ⟨k, hk, r1, r2, hinf, hlt, hm'⟩ := (ihrest es').2.1 er her
        exact ⟨k, List.mem_cons_of_mem _ hk, r1, r2, hinf, hlt, hm'⟩
      · rintro ⟨k, hk, hnk⟩
        rcases List.mem_cons.mp hk with rfl | hk'
        · exact absurd hch hnk
        · obtain ⟨er, her⟩ := (ihrest es').2.2 ⟨k, hk', hnk⟩
          exact ⟨er, by rw [hstep]; exact her⟩
    · obtain ⟨r1, r2, hinf, hlt, hrun⟩ :=
        processPairs_error_of_not_chain hch hmapgrp
      have hstep : addEdgesGo rows m (key :: rest) es =
          .error (.ComputeError ("Negative weight detected: " ++
            negMsg r1.stop_id r2.stop_id
              r1.departure_time r2.arrival_time r1.route_id)) := by
        have hrw : addEdgesGo rows m (key :: rest) es =
            match processPairs m
              (sortBySeq (rows.filter fun r => r.trip_id == key)) es with
            | .error e => .error e
            | .ok edges' => addEdgesGo rows m rest edges' := rfl
        rw [hrw, hrun es]
      refine ⟨?_, ?_, ?_⟩
      · intro hall
        exact absurd (hall key (List.mem_cons_self _ _)) hch
      · intro er her
        rw [hstep] at her
        cases her
        exact ⟨key, List.mem_cons_self _ _, r1, r2, hinf, hlt, rfl⟩
      · intro _
        exact ⟨_, hstep⟩

/-- Claim C9 (amended): with every referenced stop present in the node map,
edge insertion fails — returning an error and no graph — if and only if
some adjacent pair of some trip's stop sequence has the tail's departure
after the head's arrival.  The surfaced error, however, is never the
`NegativeWeight` variant the claim names: the raise happens inside the
polars `apply` closure, whose `?` converts it through
`From<Error> for PolarsError` into a `ComputeError` carrying the display
string (prepending `Negative weight detected:` a second time, since the
diagnostic already starts with those words), and the trailing `?` of
`apply` wraps that back as the crate's `PolarsError` variant; the embedded
diagnostic still names both stops and the route of an offending pair. -/
theorem add_edges_to_graph_negative_weight (rows : List JoinedRow)
    (node_id_map : String → Option Nat)
    (hmap : ∀ r ∈ rows, (node_id_map r.stop_id).isSome) :
    ((∃ er, add_edges_to_graph rows node_id_map [] = .error er) ↔
      ∃ key ∈ groupKeys rows, ∃ r1 r2,
        [r1, r2] <:+: sortBySeq (rows.filter fun r => r.trip_id == key) ∧
        r2.arrival_time < r1.departure_time) ∧
    (∀ er, add_edges_to_graph rows node_id_map [] = .error er →
      (∃ key ∈ groupKeys rows, ∃ r1 r2,
        [r1, r2] <:+: sortBySeq (rows.filter fun r => r.trip_id == key) ∧
        r2.arrival_time < r1.departure_time ∧
        er = .PolarsError (.ComputeError ("Negative weight detected: " ++
          negMsg r1.stop_id r2.stop_id
            r1.departure_time r2.arrival_time r1.route_id))) ∧
      ∀ msg, er ≠ .NegativeWeight msg) := by
  have hkeys : ∀ k ∈ groupKeys rows, ∃ r ∈ rows, r.trip_id == k := by
    intro k hk
    unfold groupKeys at hk
    obtain ⟨r, hr, hrk⟩ := List.exists_of_mem_map (List.mem_dedup.mp hk)
    exact ⟨r, hr, by simp [hrk]⟩
  have hspec := addEdgesGo_spec hmap (groupKeys rows) hkeys []
  have hwrap : ∀ er, add_edges_to_graph rows node_id_map [] = .error er ↔
      ∃ pe, addEdgesGo rows node_id_map (groupKeys rows) [] = .error pe ∧
        er = Error.PolarsError pe := by
    intro er
    unfold add_edges_to_graph
    cases hgo : addEdgesGo rows node_id_map (groupKeys rows) [] with
    | error pe =>
      dsimp only
      constructor
      · intro h
        cases h
        exact ⟨pe, rfl, rfl⟩
      · rintro ⟨pe', hpe', her⟩
        cases hpe'
        rw [her]
    | ok es =>
      dsimp only
      constructor
      · intro h
        cases h
      · rintro ⟨pe', hpe', _⟩
        cases hpe'
  have herr : ∀ key ∈ groupKeys rows,
      (¬ List.Chain' pairOk
        (sortBySeq (rows.filter fun r => r.trip_id == key)) ↔
      ∃ r1 r2,
        [r1, r2] <:+: sortBySeq (rows.filter fun r => r.trip_id == key) ∧
        r2.arrival_time < r1.departure_time) := by
    intro key _
    constructor
    · intro hnc
      have hmapgrp : ∀ r ∈ sortBySeq (rows.filter fun r => r.trip_id == key),
          (node_id_map r.stop_id).isSome := by
        intro r hr
        exact hmap r (List.mem_filter.mp (mem_sortBySeq.mp hr)).1
      obtain ⟨r1, r2, hinf, hlt, _⟩ :=
        processPairs_error_of_not_chain hnc hmapgrp
      exact ⟨r1, r2, hinf, hlt⟩
    · rintro ⟨r1, r2, hinf, hlt⟩ hch
      obtain ⟨l1, l2, hsplit⟩ := hinf
      rw [← hsplit] at hch
      have hinfx : [r1, r2] <:+: l1 ++ [r1, r2] ++ l2 := ⟨l1, l2, rfl⟩
      have := List.Chain'.infix hch hinfx
      rw [List.chain'_cons] at this
      exact absurd this.1 (not_le.mpr hlt)
  constructor
  · constructor
    · rintro ⟨er, her⟩
      obtain ⟨pe, hpe, _⟩ := (hwrap er).mp her
      obtain ⟨key, hk, r1, r2, hinf, hlt, _⟩ := hspec.2.1 pe hpe
      exact ⟨key, hk, r1, r2, hinf, hlt⟩
    · rintro ⟨key, hk, r1, r2, hinf, hlt⟩
      obtain ⟨pe, hpe⟩ :=
        hspec.2.2 ⟨key, hk, (herr key hk).mpr ⟨r1, r2, hinf, hlt⟩⟩
      exact ⟨Error.PolarsError pe, (hwrap _).mpr ⟨pe, hpe, rfl⟩⟩
  · intro er her
    obtain ⟨pe, hpe, hereq⟩ := (hwrap er).mp her
    obtain ⟨key, hk, r1, r2, hinf, hlt, hpeeq⟩ := hspec.2.1 pe hpe
    refine ⟨⟨key, hk, r1, r2, hinf, hlt, ?_⟩, ?_⟩
    · rw [hereq, hpeeq]
    · intro msg hcontra
      rw [hereq] at hcontra
      cases hcontra

/-- Witness for C9 at a two-row offending trip. -/
theorem add_edges_to_graph_negative_weight_witness :
    (∀ r ∈ [(⟨"T1", "A", 1, 50, 60, "R1", "S1", none⟩ : JoinedRow),
            ⟨"T1", "B", 2, 40, 45, "R1", "S1", none⟩],
      ((fun s => if s = "A" then some 0 else
        if s = "B" then some 1 else (none : Option Nat)) r.stop_id).isSome) ∧
    ((∃ er, add_edges_to_graph
        [⟨"T1", "A", 1, 50, 60, "R1", "S1", none⟩,
         ⟨"T1", "B", 2, 40, 45, "R1", "S1", none⟩]
        (fun s => if s = "A" then some 0 else
          if s = "B" then some 1 else none) [] = .error er) ↔
      ∃ key ∈ groupKeys [(⟨"T1", "A", 1, 50, 60, "R1", "S1", none⟩ : JoinedRow),
          ⟨"T1", "B", 2, 40, 45, "R1", "S1", none⟩], ∃ r1 r2,
        [r1, r2] <:+: sortBySeq
          (List.filter (fun r => r.trip_id == key)
            [⟨"T1", "A", 1, 50, 60, "R1", "S1", none⟩,
             ⟨"T1", "B", 2, 40, 45, "R1", "S1", none⟩]) ∧
        r2.arrival_time < r1.departure_time) :=
  ⟨by decide,
    (add_edges_to_graph_negative_weight
      [⟨"T1", "A", 1, 50, 60, "R1", "S1", none⟩,
       ⟨"T1", "B", 2, 40, 45, "R1", "S1", none⟩]
      (fun s => if s = "A" then some 0 else
        if s = "B" then some 1 else none) (by decide)).1⟩

/-- Counterexample to claim C9 as stated: on a concrete two-row trip whose
second stop arrives before the first departs, the build fails with the
`PolarsError (ComputeError ...)` variant carrying the doubled
`Negative weight detected:` prefix, and never with `NegativeWeight`. -/
theorem add_edges_to_graph_negative_weight_cex :
    add_edges_to_graph
        [⟨"T2", "A", 1, 50, 60, "R1", "S1", none⟩,
         ⟨"T2", "B", 2, 40, 45, "R1", "S1", none⟩]
        (fun s => if s = "A" then some 0 else
          if s = "B" then some 1 else none) [] =
      .error (.PolarsError (.ComputeError
        ("Negative weight detected: " ++ negMsg "A" "B" 60 40 "R1"))) ∧
    ∀ msg, add_edges_to_graph
        [⟨"T2", "A", 1, 50, 60, "R1", "S1", none⟩,
         ⟨"T2", "B", 2, 40, 45, "R1", "S1", none⟩]
        (fun s => if s = "A" then some 0 else
          if s = "B" then some 1 else none) [] ≠
      .error (.NegativeWeight msg) := by
  have h1 : add_edges_to_graph
      [(⟨"T2", "A", 1, 50, 60, "R1", "S1", none⟩ : JoinedRow),
       ⟨"T2", "B", 2, 40, 45, "R1", "S1", none⟩]
      (fun s => if s = "A" then some 0 else
        if s = "B" then some 1 else none) [] =
      .error (.PolarsError (.ComputeError
        ("Negative weight detected: " ++ negMsg "A" "B" 60 40 "R1"))) := by
    rfl
  refine ⟨h1, ?_⟩
  intro msg h
  rw [h1] at h
  injection h with h2
  cases h2

/-! ### Stop-to-street transfer pairs (C7) -/

theorem getD_nodes_mk (nodes : List GraphNode)
    (edges : List (Nat × Nat × GraphEdge)) (v : Nat) :
    (⟨nodes, edges⟩ : TransitGraph).nodes.getD v defaultNode =
      nodes.getD v defaultNode := rfl

theorem mem_out {g : TransitGraph} {v w : Nat} {e : GraphEdge} :
    (w, e) ∈ out g v ↔ (v, w, e) ∈ g.edges := by
  unfold out
  rw [List.mem_filterMap]
  constructor
  · rintro ⟨ed, hed, hfe⟩
    by_cases h1 : ed.1 = v
    · rw [if_pos h1] at hfe
      cases hfe
      have : ed = (v, ed.2.1, ed.2.2) := by
        rw [← h1]
      rw [← this]
      exact hed
    · rw [if_neg h1] at hfe
      cases hfe
  · intro hmem
    exact ⟨(v, w, e), hmem, by simp⟩

theorem out_any_transfer {g : TransitGraph} {v : Nat} :
    ((out g v).any fun we => isTransfer we.2) = true ↔
      ∃ w e, (v, w, e) ∈ g.edges ∧ isTransfer e = true := by
  rw [List.any_eq_true]
  constructor
  · rintro ⟨⟨w, e⟩, hmem, htr⟩
    exact ⟨w, e, mem_out.mp hmem, htr⟩
  · rintro ⟨w, e, hmem, htr⟩
    exact ⟨(w, e), mem_out.mpr hmem, htr⟩

theorem nearest_neighbor_mem {tree : List IndexedPoint} {p : ℚ × ℚ}
    {np : IndexedPoint} (h : nearest_neighbor tree p = some np) :
    np ∈ tree := by
  cases tree with
  | nil => cases h
  | cons x xs =>
    unfold nearest_neighbor at h
    cases h
    suffices haux : ∀ (ys : List IndexedPoint) (b : IndexedPoint),
        ys.foldl (fun b y =>
          if dist2 y.geometry p < dist2 b.geometry p then y else b) b ∈
          b :: ys by
      rcases List.mem_cons.mp (haux xs x) with h | h
      · rw [h]
        exact List.mem_cons_self _ _
      · exact List.mem_cons_of_mem _ h
    intro ys
    induction ys with
    | nil => intro b; exact List.mem_cons_self _ _
    | cons y ys ih =>
      intro b
      rw [List.foldl_cons]
      by_cases hc : dist2 y.geometry p < dist2 b.geometry p
      · rw [if_pos hc]
        rcases List.mem_cons.mp (ih y) with h | h
        · rw [h]
          exact List.mem_cons_of_mem _ (List.mem_cons_self _ _)
        · exact List.mem_cons_of_mem _ (List.mem_cons_of_mem _ h)
      · rw [if_neg hc]
        rcases List.mem_cons.mp (ih b) with h | h
        · rw [h]
          exact List.mem_cons_self _ _
        · exact List.mem_cons_of_mem _ (List.mem_cons_of_mem _ h)

/-- A successful nearest lookup yields an index of some index entry and the
haversine walk weight. -/
theorem find_nearest_ok_shape {hav : ℚ × ℚ → ℚ × ℚ → ℚ} {p : ℚ × ℚ}
    {rtree : List IndexedPoint} {ni : Nat} {d : ℚ}
    (h : find_nearest_point_and_calculate_distance hav p rtree =
      .ok (ni, d)) :
    ∃ np ∈ rtree, np.index = some ni ∧ d = hav p np.geometry / WALK_SPEED := by
  unfold find_nearest_point_and_calculate_distance at h
  cases hnn : nearest_neighbor rtree p with
  | none =>
    rw [hnn] at h
    cases h
  | some np =>
    simp only [hnn] at h
    cases hidx : np.index with
    | none =>
      simp only [hidx] at h
      cases h
    | some i =>
      simp only [hidx] at h
      cases h
      exact ⟨np, nearest_neighbor_mem hnn, hidx, rfl⟩

/-- On a non-empty index of street nodes, the nearest lookup of any point
succeeds. -/
theorem find_nearest_ok {hav : ℚ × ℚ → ℚ × ℚ → ℚ} {g : TransitGraph}
    {rtree : List IndexedPoint}
    (h2 : ∀ ip ∈ rtree, ∃ i, ip.index = some i ∧
      isTransitNode (g.nodes.getD i defaultNode) = false)
    (h3 : rtree ≠ []) (p : ℚ × ℚ) :
    ∃ np ni, nearest_neighbor rtree p = some np ∧ np.index = some ni ∧
      isTransitNode (g.nodes.getD ni defaultNode) = false ∧
      find_nearest_point_and_calculate_distance hav p rtree =
        .ok (ni, hav p np.geometry / WALK_SPEED) := by
  cases htree : rtree with
  | nil => exact absurd htree h3
  | cons x xs =>
    subst htree
    cases hnn : nearest_neighbor (x :: xs) p with
    | none => cases hnn
    | some np =>
      obtain ⟨i, hidx, hwalk⟩ := h2 np (nearest_neighbor_mem hnn)
      refine ⟨np, i, rfl, hidx, hwalk, ?_⟩
      unfold find_nearest_point_and_calculate_distance
      simp only [hnn, hidx]

/-- Closed form of the connector loop: under the fresh-assembly and
street-only-index hypotheses, the loop appends exactly the transfer pairs of
the transit nodes it visits. -/
theorem connect_fold_char (hav : ℚ × ℚ → ℚ × ℚ → ℚ) (g : TransitGraph)
    (rtree : List IndexedPoint)
    (h1 : ∀ ed ∈ g.edges, isTransfer ed.2.2 = false)
    (h2 : ∀ ip ∈ rtree, ∃ i, ip.index = some i ∧
      isTransitNode (g.nodes.getD i defaultNode) = false) :
    ∀ (l : List Nat) (A : List (Nat × Nat × GraphEdge)), l.Nodup →
      (∀ ed ∈ A, isTransfer ed.2.2 = true →
        isTransitNode (g.nodes.getD ed.1 defaultNode) = true → ed.1 ∉ l) →
      l.foldl (connectStep hav rtree) ⟨g.nodes, g.edges ++ A⟩ =
        ⟨g.nodes, g.edges ++ A ++ l.flatMap (transferPairFor hav g rtree)⟩ := by
  intro l
  induction l with
  | nil =>
    intro A _ _
    simp
  | cons v rest ih =>
    intro A hnd hA
    rw [List.foldl_cons]
    have hnodes : (⟨g.nodes, g.edges ++ A⟩ : TransitGraph).nodes = g.nodes :=
      rfl
    by_cases htrans : isTransitNode (g.nodes.getD v defaultNode) = true
    · -- v is a transit node without any outgoing transfer edge: the guard
      -- is false and the node contributes its transfer pair
      have hguard : ¬ (((out ⟨g.nodes, g.edges ++ A⟩ v).any
          fun we => isTransfer we.2) = true) := by
        rw [out_any_transfer]
        rintro ⟨w, e, hmem, htr⟩
        rcases List.mem_append.mp hmem with hge | hA'
        · have := h1 _ hge
          simp only at this
          rw [this] at htr
          cases htr
        · have := hA _ hA' htr htrans
          exact this (List.mem_cons_self _ _)
      cases hnode : g.nodes.getD v defaultNode with
      | Walk id pt =>
        rw [hnode] at htrans
        cases htrans
      | Transit sid pt =>
        have hpair : transferPairFor hav g rtree v =
            match find_nearest_point_and_calculate_distance hav pt rtree with
            | .ok (ni, d) => [(v, ni, .Transfer d), (ni, v, .Transfer d)]
            | .error _ => [] := by
          unfold transferPairFor
          rw [hnode]
        cases hfn : find_nearest_point_and_calculate_distance hav pt rtree with
        | ok nid =>
          cases nid with
          | mk ni d =>
            have hstep : connectStep hav rtree ⟨g.nodes, g.edges ++ A⟩ v =
                ⟨g.nodes, (g.edges ++ A) ++
                  [(v, ni, .Transfer d), (ni, v, .Transfer d)]⟩ := by
              unfold connectStep
              rw [if_neg hguard]
              simp only [getD_nodes_mk, hnode, hfn]
            rw [hstep]
            have hni : isTransitNode (g.nodes.getD ni defaultNode) = false := by
              obtain ⟨np, hnp, hidx, hd⟩ := find_nearest_ok_shape hfn
              obtain ⟨i, hidx', hwalk⟩ := h2 np hnp
              rw [hidx] at hidx'
              cases hidx'
              exact hwalk
            have happ : (g.edges ++ A) ++
                [(v, ni, GraphEdge.Transfer d), (ni, v, .Transfer d)] =
                g.edges ++ (A ++
                  [(v, ni, .Transfer d), (ni, v, .Transfer d)]) := by
              rw [List.append_assoc]
            rw [happ, ih _ (List.nodup_cons.mp hnd).2 ?_]
            · rw [List.flatMap_cons, hpair]
              simp only [hfn]
              simp [List.append_assoc]
            · intro ed hed htr htrans'
              rcases List.mem_append.mp hed with hA' | hnew
              · intro hrest
                exact hA ed hA' htr htrans'
                  (List.mem_cons_of_mem _ hrest)
              · rcases List.mem_cons.mp hnew with rfl | hnew'
                · intro hrest
                  exact (List.nodup_cons.mp hnd).1 hrest
                · have hed' := List.mem_singleton.mp hnew'
                  subst hed'
                  intro _
                  have hcontra : isTransitNode (g.nodes.getD ni defaultNode) =
                      true := htrans'
                  rw [hni] at hcontra
                  cases hcontra
        | error er =>
          have hstep : connectStep hav rtree ⟨g.nodes, g.edges ++ A⟩ v =
              ⟨g.nodes, g.edges ++ A⟩ := by
            unfold connectStep
            rw [if_neg hguard]
            simp only [getD_nodes_mk, hnode, hfn]
          rw [hstep, ih _ (List.nodup_cons.mp hnd).2 ?_]
          · rw [List.flatMap_cons, hpair]
            simp only [hfn]
            simp
          · intro ed hed htr htrans'
            intro hrest
            exact hA ed hed htr htrans' (List.mem_cons_of_mem _ hrest)
    · -- a street node contributes nothing, whether the guard fires or not
      have hpair : transferPairFor hav g rtree v = [] := by
        unfold transferPairFor
        cases hnode : g.nodes.getD v defaultNode with
        | Walk id pt => rfl
        | Transit sid pt =>
          rw [hnode] at htrans
          exact absurd rfl htrans
      have hstep : connectStep hav rtree ⟨g.nodes, g.edges ++ A⟩ v =
          ⟨g.nodes, g.edges ++ A⟩ := by
        unfold connectStep
        by_cases hguard : ((out ⟨g.nodes, g.edges ++ A⟩ v).any
            fun we => isTransfer we.2) = true
        · rw [if_pos hguard]
        · rw [if_neg hguard]
          cases hnode : g.nodes.getD v defaultNode with
          | Walk id pt => simp [getD_nodes_mk, hnode]
          | Transit sid pt =>
            rw [hnode] at htrans
            exact absurd rfl htrans
      rw [hstep, ih _ (List.nodup_cons.mp hnd).2 ?_]
      · rw [List.flatMap_cons, hpair]
        simp
      · intro ed hed htr htrans' hrest
        exact hA ed hed htr htrans' (List.mem_cons_of_mem _ hrest)

/-- The connector's final edge list in closed form. -/
theorem connect_stops_to_streets_char (hav : ℚ × ℚ → ℚ × ℚ → ℚ)
    (g : TransitGraph) (rtree : List IndexedPoint)
    (h1 : ∀ ed ∈ g.edges, isTransfer ed.2.2 = false)
    (h2 : ∀ ip ∈ rtree, ∃ i, ip.index = some i ∧
      isTransitNode (g.nodes.getD i defaultNode) = false) :
    connect_stops_to_streets hav g rtree =
      ⟨g.nodes, g.edges ++
        (List.range g.nodes.length).flatMap (transferPairFor hav g rtree)⟩ := by
  unfold connect_stops_to_streets
  have h0 : (⟨g.nodes, g.edges ++ []⟩ : TransitGraph) = g := by
    simp
  rw [← h0]
  rw [connect_fold_char hav g rtree h1 h2 _ [] (List.nodup_range _)
    (by intro ed hed; cases hed)]
  simp

theorem filter_flatMap_empty {α : Type} {f : Nat → List α} {p : α → Bool} :
    ∀ {l : List Nat}, (∀ w ∈ l, (f w).filter p = []) →
      ((l.flatMap f).filter p) = [] := by
  intro l
  induction l with
  | nil => intro _; rfl
  | cons w rest ih =>
    intro hall
    rw [List.flatMap_cons, List.filter_append,
      hall w (List.mem_cons_self _ _), ih
        (fun w' hw' => hall w' (List.mem_cons_of_mem _ hw'))]
    rfl

theorem filter_flatMap_single {α : Type} {f : Nat → List α} {p : α → Bool}
    {v : Nat} {e : α} :
    ∀ {l : List Nat}, l.Nodup → v ∈ l → (f v).filter p = [e] →
      (∀ w ∈ l, w ≠ v → (f w).filter p = []) →
      ((l.flatMap f).filter p) = [e] := by
  intro l
  induction l with
  | nil =>
    intro _ hv
    cases hv
  | cons w rest ih =>
    intro hnd hv hfv hother
    rw [List.flatMap_cons, List.filter_append]
    rcases List.mem_cons.mp hv with rfl | hv'
    · rw [hfv, filter_flatMap_empty (fun w' hw' =>
        hother w' (List.mem_cons_of_mem _ hw')
          (fun hh => (List.nodup_cons.mp hnd).1 (hh ▸ hw')))]
      rfl
    · rw [hother w (List.mem_cons_self _ _)
        (fun hh => (List.nodup_cons.mp hnd).1 (hh ▸ hv')),
        ih (List.nodup_cons.mp hnd).2 hv' hfv
          (fun w' hw' => hother w' (List.mem_cons_of_mem _ hw'))]
      rfl

/-- Claim C7 (counterexample): with an empty spatial index the
nearest-neighbor lookup of the only stop fails and the connector silently
skips it, so the stop ends with zero transfer edges rather than the claimed
exactly-one pair. -/
theorem connect_stops_to_streets_cex :
    connect_stops_to_streets (fun _ _ => 0) lonelyStopGraph [] =
      lonelyStopGraph ∧
    isTransitNode (lonelyStopGraph.nodes.getD 0 defaultNode) = true ∧
    outTransfers (connect_stops_to_streets (fun _ _ => 0)
      lonelyStopGraph []) 0 = [] ∧
    inTransfers (connect_stops_to_streets (fun _ _ => 0)
      lonelyStopGraph []) 0 = [] :=
  ⟨rfl, rfl, rfl, rfl⟩

/-- Claim C7 (amended): after connecting a freshly assembled graph (no
pre-existing transfer edges) against a non-empty spatial index containing
only street nodes, every Stop node has exactly one outgoing and exactly one
incoming TransferEdge, the two carrying the identical weight
`haversine / 1.39` to the nearest street node; a stop whose lookup fails —
possible only when the index is empty — is silently skipped and keeps no
transfer edges. -/
theorem connect_stops_to_streets_pairs (hav : ℚ × ℚ → ℚ × ℚ → ℚ)
    (g : TransitGraph) (rtree : List IndexedPoint)
    (h1 : ∀ ed ∈ g.edges, isTransfer ed.2.2 = false)
    (h2 : ∀ ip ∈ rtree, ∃ i, ip.index = some i ∧
      isTransitNode (g.nodes.getD i defaultNode) = false)
    (h3 : rtree ≠ []) :
    ∀ v, v < g.nodes.length → ∀ sid p,
      g.nodes.getD v defaultNode = .Transit sid p →
      ∃ np ni, nearest_neighbor rtree p = some np ∧ np.index = some ni ∧
        outTransfers (connect_stops_to_streets hav g rtree) v =
          [(v, ni, .Transfer (hav p np.geometry / WALK_SPEED))] ∧
        inTransfers (connect_stops_to_streets hav g rtree) v =
          [(ni, v, .Transfer (hav p np.geometry / WALK_SPEED))] := by
  intro v hv sid p hnode
  obtain ⟨np, ni, hnn, hidx, hniwalk, hfn⟩ := @find_nearest_ok hav g rtree h2 h3 p
  have hvtrans : isTransitNode (g.nodes.getD v defaultNode) = true := by
    rw [hnode]
    rfl
  have hvni : ni ≠ v := by
    intro hh
    rw [hh, hvtrans] at hniwalk
    cases hniwalk
  refine ⟨np, ni, hnn, hidx, ?_, ?_⟩
  · unfold outTransfers
    rw [connect_stops_to_streets_char hav g rtree h1 h2]
    simp only [List.filter_append]
    have hge : g.edges.filter
        (fun ed => decide (ed.1 = v) && isTransfer ed.2.2) = [] := by
      rw [List.filter_eq_nil_iff]
      intro ed hed
      rw [h1 ed hed]
      simp
    rw [hge]
    rw [filter_flatMap_single (v := v)
      (e := (v, ni, GraphEdge.Transfer (hav p np.geometry / WALK_SPEED)))
      (List.nodup_range _) (List.mem_range.mpr hv) ?_ ?_]
    · rfl
    · simp only [transferPairFor, hnode, hfn]
      simp [List.filter, hvni, isTransfer]
    · intro w hw hwv
      cases hnodew : g.nodes.getD w defaultNode with
      | Walk id pt =>
        simp only [transferPairFor, hnodew]
        rfl
      | Transit sid' pt =>
        cases hfw : find_nearest_point_and_calculate_distance hav pt rtree with
        | error er =>
          simp only [transferPairFor, hnodew, hfw]
          rfl
        | ok nid =>
          cases nid with
          | mk niw dw =>
            have hniw : isTransitNode (g.nodes.getD niw defaultNode) = false := by
              obtain ⟨np', hnp', hidx', hd'⟩ := find_nearest_ok_shape hfw
              obtain ⟨i, hidx'', hwalk⟩ := h2 np' hnp'
              rw [hidx'] at hidx''
              cases hidx''
              exact hwalk
            have hniwv : niw ≠ v := by
              intro hh
              rw [hh, hvtrans] at hniw
              cases hniw
            simp only [transferPairFor, hnodew, hfw]
            simp [List.filter, hwv, hniwv, isTransfer]
  · unfold inTransfers
    rw [connect_stops_to_streets_char hav g rtree h1 h2]
    simp only [List.filter_append]
    have hge : g.edges.filter
        (fun ed => decide (ed.2.1 = v) && isTransfer ed.2.2) = [] := by
      rw [List.filter_eq_nil_iff]
      intro ed hed
      rw [h1 ed hed]
      simp
    rw [hge]
    rw [filter_flatMap_single (v := v)
      (e := (ni, v, GraphEdge.Transfer (hav p np.geometry / WALK_SPEED)))
      (List.nodup_range _) (List.mem_range.mpr hv) ?_ ?_]
    · rfl
    · simp only [transferPairFor, hnode, hfn]
      simp [List.filter, hvni, isTransfer]
    · intro w hw hwv
      cases hnodew : g.nodes.getD w defaultNode with
      | Walk id pt =>
        simp only [transferPairFor, hnodew]
        rfl
      | Transit sid' pt =>
        cases hfw : find_nearest_point_and_calculate_distance hav pt rtree with
        | error er =>
          simp only [transferPairFor, hnodew, hfw]
          rfl
        | ok nid =>
          cases nid with
          | mk niw dw =>
            have hniw : isTransitNode (g.nodes.getD niw defaultNode) = false := by
              obtain ⟨np', hnp', hidx', hd'⟩ := find_nearest_ok_shape hfw
              obtain ⟨i, hidx'', hwalk⟩ := h2 np' hnp'
              rw [hidx'] at hidx''
              cases hidx''
              exact hwalk
            have hniwv : niw ≠ v := by
              intro hh
              rw [hh, hvtrans] at hniw
              cases hniw
            simp only [transferPairFor, hnodew, hfw]
            simp [List.filter, hwv, hniwv, isTransfer]

/-- Witness for the amended C7 at a one-stop, one-street-node graph. -/
theorem connect_stops_to_streets_pairs_witness :
    ((∀ ed ∈ (⟨[.Transit "s" (0, 0), .Walk 7 (1, 1)], []⟩ :
        TransitGraph).edges, isTransfer ed.2.2 = false) ∧
      ([⟨some 1, (1, 1)⟩] : List IndexedPoint) ≠ []) ∧
    (∃ np ni, nearest_neighbor [⟨some 1, (1, 1)⟩] (0, 0) = some np ∧
      np.index = some ni ∧
      outTransfers (connect_stops_to_streets (fun _ _ => 10)
        ⟨[.Transit "s" (0, 0), .Walk 7 (1, 1)], []⟩ [⟨some 1, (1, 1)⟩]) 0 =
        [(0, ni, .Transfer ((fun _ _ => (10 : ℚ)) ((0 : ℚ), (0 : ℚ))
          np.geometry / WALK_SPEED))] ∧
      inTransfers (connect_stops_to_streets (fun _ _ => 10)
        ⟨[.Transit "s" (0, 0), .Walk 7 (1, 1)], []⟩ [⟨some 1, (1, 1)⟩]) 0 =
        [(ni, 0, .Transfer ((fun _ _ => (10 : ℚ)) ((0 : ℚ), (0 : ℚ))
          np.geometry / WALK_SPEED))]) :=
  ⟨⟨(by intro ed hed; cases hed), (by decide)⟩,
    connect_stops_to_streets_pairs (fun _ _ => 10)
      ⟨[.Transit "s" (0, 0), .Walk 7 (1, 1)], []⟩ [⟨some 1, (1, 1)⟩]
      (by intro ed hed; cases hed)
      (by
        intro ip hip
        rw [List.mem_singleton] at hip
        subst hip
        exact ⟨1, rfl, rfl⟩)
      (by decide) 0 (by decide) "s" (0, 0) rfl⟩

/-! ### Engine basics: heap pops and relaxation -/

theorem minEntry_mem (x : HeapEntry) (xs : List HeapEntry) :
    minEntry x xs ∈ x :: xs := by
  unfold minEntry
  induction xs generalizing x with
  | nil => exact List.mem_cons_self _ _
  | cons y ys ih =>
    rw [List.foldl_cons]
    by_cases hc : y.1 < x.1
    · rw [if_pos hc]
      exact List.mem_cons_of_mem _ (ih y)
    · rw [if_neg hc]
      rcases List.mem_cons.mp (ih x) with h | h
      · rw [h]
        exact List.mem_cons_self _ _
      · exact List.mem_cons_of_mem _ (List.mem_cons_of_mem _ h)

theorem minEntry_le (x : HeapEntry) (xs : List HeapEntry) :
    ∀ y ∈ x :: xs, (minEntry x xs).1 ≤ y.1 := by
  induction xs generalizing x with
  | nil =>
    intro y hy
    rcases List.mem_cons.mp hy with rfl | h
    · exact le_refl _
    · cases h
  | cons z zs ih =>
    intro y hy
    have hme : minEntry x (z :: zs) =
        minEntry (if z.1 < x.1 then z else x) zs := by
      unfold minEntry
      rw [List.foldl_cons]
    have hbx : (if z.1 < x.1 then z else x).1 ≤ x.1 := by
      by_cases hc : z.1 < x.1
      · rw [if_pos hc]
        exact le_of_lt hc
      · rw [if_neg hc]
    have hbz : (if z.1 < x.1 then z else x).1 ≤ z.1 := by
      by_cases hc : z.1 < x.1
      · rw [if_pos hc]
      · rw [if_neg hc]
        exact not_lt.mp hc
    rw [hme]
    rcases List.mem_cons.mp hy with rfl | h
    · exact le_trans (ih _ _ (List.mem_cons_self _ _)) hbx
    · rcases List.mem_cons.mp h with rfl | h'
      · exact le_trans (ih _ _ (List.mem_cons_self _ _)) hbz
      · exact ih _ _ (List.mem_cons.mpr (Or.inr h'))

theorem popMin_mem {l : List HeapEntry} {x : HeapEntry}
    {r : List HeapEntry} (h : popMin l = some (x, r)) : x ∈ l := by
  cases l with
  | nil => cases h
  | cons a as =>
    unfold popMin at h
    cases h
    exact minEntry_mem a as

theorem popMin_le {l : List HeapEntry} {x : HeapEntry}
    {r : List HeapEntry} (h : popMin l = some (x, r)) :
    ∀ y ∈ l, x.1 ≤ y.1 := by
  cases l with
  | nil => cases h
  | cons a as =>
    unfold popMin at h
    cases h
    exact minEntry_le a as

theorem popMin_rest {l : List HeapEntry} {x : HeapEntry}
    {r : List HeapEntry} (h : popMin l = some (x, r)) : r = l.erase x := by
  cases l with
  | nil => cases h
  | cons a as =>
    unfold popMin at h
    cases h
    rfl

theorem popMin_rest_subset {l : List HeapEntry} {x : HeapEntry}
    {r : List HeapEntry} (h : popMin l = some (x, r)) :
    ∀ y ∈ r, y ∈ l := by
  intro y hy
  rw [popMin_rest h] at hy
  exact List.mem_of_mem_erase hy

theorem popMin_rest_of_ne {l : List HeapEntry} {x : HeapEntry}
    {r : List HeapEntry} (h : popMin l = some (x, r)) :
    ∀ y ∈ l, y ≠ x → y ∈ r := by
  intro y hy hne
  rw [popMin_rest h]
  exact (List.mem_erase_of_ne hne).mpr hy

theorem contains_iff_mem {l : List Nat} {v : Nat} :
    l.contains v = true ↔ v ∈ l := by
  simp

theorem relaxOne_visited (ns : ℚ) (ct : Nat) (st : DState)
    (e : Nat × GraphEdge) : (relaxOne ns ct st e).visited = st.visited := by
  unfold relaxOne
  by_cases h : st.visited.contains e.1
  · rw [if_pos h]
  · rw [if_neg h]
    cases calculate_delay e.2 ct with
    | none => rfl
    | some dt =>
      cases st.scores e.1 with
      | some ent =>
        by_cases hlt : ns + dt < ent
        · simp [hlt]
        · simp [hlt]
      | none => rfl

theorem relaxEdges_visited (g : TransitGraph) (node : Nat) (ns : ℚ)
    (ct : Nat) (st : DState) :
    (relaxEdges g node ns ct st).visited = st.visited := by
  unfold relaxEdges
  generalize out g node = L
  induction L generalizing st with
  | nil => rfl
  | cons e es ih =>
    rw [List.foldl_cons, ih, relaxOne_visited]

/-- Relaxation never touches the score of a finalized node. -/
theorem relaxOne_scores_visited {ns : ℚ} {ct : Nat} {st : DState}
    {e : Nat × GraphEdge} {w : Nat} (hw : st.visited.contains w = true) :
    (relaxOne ns ct st e).scores w = st.scores w := by
  unfold relaxOne
  by_cases h : st.visited.contains e.1
  · rw [if_pos h]
  · rw [if_neg h]
    have hne : w ≠ e.1 := by
      intro hh
      rw [hh] at hw
      rw [hw] at h
      exact h rfl
    cases calculate_delay e.2 ct with
    | none => rfl
    | some dt =>
      cases st.scores e.1 with
      | some ent =>
        by_cases hlt : ns + dt < ent
        · simp [hlt, scoresInsert, hne]
        · simp [hlt]
      | none => simp [scoresInsert, hne]

theorem relaxEdges_scores_visited {g : TransitGraph} {node : Nat} {ns : ℚ}
    {ct : Nat} {st : DState} {w : Nat}
    (hw : st.visited.contains w = true) :
    (relaxEdges g node ns ct st).scores w = st.scores w := by
  unfold relaxEdges
  generalize out g node = L
  induction L generalizing st with
  | nil => rfl
  | cons e es ih =>
    rw [List.foldl_cons]
    have hw' : ((relaxOne ns ct st e).visited).contains w = true := by
      rw [relaxOne_visited]
      exact hw
    rw [ih hw', relaxOne_scores_visited hw]

/-- Relaxation can only lower a known score. -/
theorem relaxOne_scores_mono {ns : ℚ} {ct : Nat} {st : DState}
    {e : Nat × GraphEdge} {w : Nat} {s : ℚ} (hs : st.scores w = some s) :
    ∃ s' ≤ s, (relaxOne ns ct st e).scores w = some s' := by
  unfold relaxOne
  by_cases h : st.visited.contains e.1
  · rw [if_pos h]
    exact ⟨s, le_refl _, hs⟩
  · rw [if_neg h]
    cases calculate_delay e.2 ct with
    | none => exact ⟨s, le_refl _, hs⟩
    | some dt =>
      by_cases hne : w = e.1
      · subst hne
        rw [hs]
        by_cases hlt : ns + dt < s
        · refine ⟨ns + dt, le_of_lt hlt, ?_⟩
          simp [hlt, scoresInsert]
        · refine ⟨s, le_refl _, ?_⟩
          simp [hlt, hs]
      · cases hsc : st.scores e.1 with
        | some ent =>
          by_cases hlt : ns + dt < ent
          · refine ⟨s, le_refl _, ?_⟩
            simp [hsc, hlt, scoresInsert, hne, hs]
          · refine ⟨s, le_refl _, ?_⟩
            simp [hsc, hlt, hs]
        | none =>
          refine ⟨s, le_refl _, ?_⟩
          simp [hsc, scoresInsert, hne, hs]

theorem relaxEdges_scores_mono {g : TransitGraph} {node : Nat} {ns : ℚ}
    {ct : Nat} {st : DState} {w : Nat} {s : ℚ} (hs : st.scores w = some s) :
    ∃ s' ≤ s, (relaxEdges g node ns ct st).scores w = some s' := by
  unfold relaxEdges
  generalize out g node = L
  induction L generalizing st s with
  | nil => exact ⟨s, le_refl _, hs⟩
  | cons e es ih =>
    rw [List.foldl_cons]
    obtain ⟨s1, hs1, hsc1⟩ := @relaxOne_scores_mono ns ct st e w s hs
    obtain ⟨s2, hs2, hsc2⟩ := ih hsc1
    exact ⟨s2, le_trans hs2 hs1, hsc2⟩

/-- A node whose known score does not exceed the relaxation source score
keeps its score unchanged under non-negative delays. -/
theorem relaxOne_scores_stable {ns : ℚ} {ct : Nat} {st : DState}
    {e : Nat × GraphEdge} {w : Nat} {s : ℚ} (hs : st.scores w = some s)
    (hle : s ≤ ns) (hnn : ∀ dt, calculate_delay e.2 ct = some dt → 0 ≤ dt) :
    (relaxOne ns ct st e).scores w = st.scores w := by
  unfold relaxOne
  by_cases h : st.visited.contains e.1
  · rw [if_pos h]
  · rw [if_neg h]
    cases hcd : calculate_delay e.2 ct with
    | none => rfl
    | some dt =>
      have hdt := hnn dt hcd
      by_cases hne : w = e.1
      · subst hne
        have hnlt : ¬ ns + dt < s := by
          push_neg
          linarith
        simp [hs, hnlt]
      · cases hsc : st.scores e.1 with
        | some ent =>
          by_cases hlt : ns + dt < ent
          · simp [hsc, hlt, scoresInsert, hne]
          · simp [hsc, hlt]
        | none => simp [hsc, scoresInsert, hne]

/-- Non-negative outgoing delays, derived from the graph hypothesis. -/
theorem out_nonneg {g : TransitGraph} (hnn : NonNegWeights g) {v : Nat}
    {e : Nat × GraphEdge} (he : e ∈ out g v) :
    ∀ dt t, calculate_delay e.2 t = some dt → 0 ≤ dt := by
  intro dt t hcd
  have hmem : (v, e.1, e.2) ∈ g.edges := mem_out.mp (by
    cases e with
    | mk w pe => exact he)
  exact hnn _ hmem t dt hcd

/-- Known scores survive a whole relaxation round untouched when they do not
exceed the source score (non-negative delays can only offer worse scores). -/
theorem relaxEdges_scores_stable {g : TransitGraph} {node : Nat} {ns : ℚ}
    {ct : Nat} {st : DState} {w : Nat} {s : ℚ}
    (hnn : ∀ e ∈ out g node, ∀ dt t, calculate_delay e.2 t = some dt → 0 ≤ dt)
    (hs : st.scores w = some s) (hle : s ≤ ns) :
    (relaxEdges g node ns ct st).scores w = st.scores w := by
  unfold relaxEdges
  have haux : ∀ (L : List (Nat × GraphEdge)) (st' : DState),
      (∀ e ∈ L, ∀ dt t, calculate_delay e.2 t = some dt → 0 ≤ dt) →
      st'.scores w = some s →
      (L.foldl (relaxOne ns ct) st').scores w = st'.scores w := by
    intro L
    induction L with
    | nil => intro st' _ _; rfl
    | cons e es ih =>
      intro st' hL hs'
      rw [List.foldl_cons]
      have h1 : (relaxOne ns ct st' e).scores w = st'.scores w :=
        relaxOne_scores_stable hs' hle
          (fun dt hdt => hL e (List.mem_cons_self _ _) dt ct hdt)
      rw [ih _ (fun e' he' => hL e' (List.mem_cons_of_mem _ he')) (by
        rw [h1]; exact hs'), h1]
  exact haux (out g node) st hnn hs

theorem relaxOne_GInv {ns : ℚ} {ct : Nat} {st : DState}
    {e : Nat × GraphEdge} (hG : GInv st) : GInv (relaxOne ns ct st e) := by
  unfold relaxOne
  by_cases h : st.visited.contains e.1
  · rw [if_pos h]
    exact hG
  · rw [if_neg h]
    cases hcd : calculate_delay e.2 ct with
    | none => exact hG
    | some dt =>
      dsimp only
      cases hsc : st.scores e.1 with
      | some ent =>
        dsimp only
        by_cases hlt : ns + dt < ent
        · rw [if_pos hlt]
          intro s v t hmem
          rcases List.mem_cons.mp hmem with heq | hmem'
          · cases heq
            exact ⟨ns + dt, by simp [scoresInsert], le_refl _⟩
          · obtain ⟨s', hs', hle⟩ := hG s v t hmem'
            by_cases hv : v = e.1
            · subst hv
              rw [hsc] at hs'
              cases hs'
              exact ⟨ns + dt, by simp [scoresInsert],
                le_trans (le_of_lt hlt) hle⟩
            · exact ⟨s', by simp [scoresInsert, hv, hs'], hle⟩
        · rw [if_neg hlt]
          exact hG
      | none =>
        dsimp only
        intro s v t hmem
        rcases List.mem_cons.mp hmem with heq | hmem'
        · cases heq
          exact ⟨ns + dt, by simp [scoresInsert], le_refl _⟩
        · obtain ⟨s', hs', hle⟩ := hG s v t hmem'
          by_cases hv : v = e.1
          · subst hv
            rw [hsc] at hs'
            cases hs'
          · exact ⟨s', by simp [scoresInsert, hv, hs'], hle⟩

theorem relaxEdges_GInv {g : TransitGraph} {node : Nat} {ns : ℚ} {ct : Nat}
    {st : DState} (hG : GInv st) : GInv (relaxEdges g node ns ct st) := by
  unfold relaxEdges
  generalize out g node = L
  induction L generalizing st with
  | nil => exact hG
  | cons e es ih =>
    rw [List.foldl_cons]
    exact ih (relaxOne_GInv hG)

theorem GInv_subheap {st : DState} {h' : List HeapEntry} (hG : GInv st)
    (hsub : ∀ y ∈ h', y ∈ st.heap) : GInv { st with heap := h' } := by
  intro s v t hmem
  exact hG s v t (hsub _ hmem)

/-- Scores and membership of finalized nodes survive the rest of the run. -/
theorem ddLoop_scores_visited (g : TransitGraph) (target : Option Nat) :
    ∀ (fuel : Nat) (st : DState) (w : Nat),
      st.visited.contains w = true →
      (ddLoop g target fuel st).scores w = st.scores w := by
  intro fuel
  induction fuel with
  | zero =>
    intro st w hw
    rfl
  | succ fuel ih =>
    intro st w hw
    have hdd : ddLoop g target (fuel + 1) st =
        match dijkstraStep g target st with
        | .halt st' => st'
        | .step st' => ddLoop g target fuel st' := rfl
    rw [hdd]
    unfold dijkstraStep
    cases hpop : popMin st.heap with
    | none => rfl
    | some pr =>
      obtain ⟨⟨s, v, t⟩, rest⟩ := pr
      dsimp only
      by_cases hv : st.visited.contains v = true
      · rw [if_pos hv]
        exact ih { st with heap := rest } w hw
      · rw [if_neg hv]
        by_cases htgt : target = some v
        · rw [if_pos htgt]
        · rw [if_neg htgt]
          dsimp only
          have hvis : (relaxEdges g v s t { st with heap := rest }).visited =
              st.visited := relaxEdges_visited _ _ _ _ _
          have hw2 : ((relaxEdges g v s t { st with heap := rest }).visited ++
              [v]).contains w = true := by
            rw [hvis]
            rw [contains_iff_mem] at hw ⊢
            exact List.mem_append.mpr (Or.inl hw)
          have := ih { relaxEdges g v s t { st with heap := rest } with
            visited := (relaxEdges g v s t { st with heap := rest }).visited
              ++ [v] } w hw2
          rw [this]
          exact relaxEdges_scores_visited hw

/-- The early exit at the target's pop does not change the target's final
score: at that pop the target's score is already settled (the heap dominates
the score map and delays are non-negative), it is finalized right after, and
finalized scores never change. -/
theorem ddLoop_target_irrelevant (g : TransitGraph) (tgt : Nat)
    (hnn : NonNegWeights g) :
    ∀ (fuel : Nat) (st : DState), GInv st →
      (ddLoop g (some tgt) fuel st).scores tgt =
      (ddLoop g none fuel st).scores tgt := by
  intro fuel
  induction fuel with
  | zero =>
    intro st _
    rfl
  | succ fuel ih =>
    intro st hG
    have hddT : ddLoop g (some tgt) (fuel + 1) st =
        match dijkstraStep g (some tgt) st with
        | .halt st' => st'
        | .step st' => ddLoop g (some tgt) fuel st' := rfl
    have hddN : ddLoop g none (fuel + 1) st =
        match dijkstraStep g none st with
        | .halt st' => st'
        | .step st' => ddLoop g none fuel st' := rfl
    rw [hddT, hddN]
    unfold dijkstraStep
    cases hpop : popMin st.heap with
    | none => rfl
    | some pr =>
      obtain ⟨⟨s, v, t⟩, rest⟩ := pr
      have hrest : ∀ y ∈ rest, y ∈ st.heap := popMin_rest_subset hpop
      dsimp only
      by_cases hv : st.visited.contains v = true
      · simp only [if_pos hv]
        exact ih _ (GInv_subheap hG hrest)
      · simp only [if_neg hv]
        by_cases hveq : v = tgt
        · subst hveq
          have hnone : ¬ ((none : Option Nat) = some v) := by simp
          simp only [if_pos rfl, if_neg hnone]
          -- the none-run relaxes and finalizes the popped target; its score
          -- is already the settled one and never changes afterwards
          obtain ⟨s', hs', hle⟩ := hG s v t (popMin_mem hpop)
          have hstable : (relaxEdges g v s t
              { visited := st.visited, scores := st.scores,
                heap := rest }).scores v =
              (DState.mk st.visited st.scores rest).scores v := by
            refine relaxEdges_scores_stable ?_ hs' hle
            intro e he dt t' hcd
            exact out_nonneg hnn he dt t' hcd
          have hw2 : ((relaxEdges g v s t
              { visited := st.visited, scores := st.scores,
                heap := rest }).visited ++ [v]).contains v = true := by
            rw [contains_iff_mem]
            exact List.mem_append.mpr (Or.inr (List.mem_singleton.mpr rfl))
          have hfin := ddLoop_scores_visited g none fuel
            { visited := (relaxEdges g v s t
                { visited := st.visited, scores := st.scores,
                  heap := rest }).visited ++ [v],
              scores := (relaxEdges g v s t
                { visited := st.visited, scores := st.scores,
                  heap := rest }).scores,
              heap := (relaxEdges g v s t
                { visited := st.visited, scores := st.scores,
                  heap := rest }).heap } v hw2
          rw [hfin]
          exact hstable.symm
        · have hne1 : ¬ (some tgt = some v) := by
            simp [Ne.symm hveq]
          have hne2 : ¬ ((none : Option Nat) = some v) := by simp
          simp only [if_neg hne1, if_neg hne2]
          refine ih _ ?_
          have hG2 : GInv (relaxEdges g v s t { st with heap := rest }) :=
            relaxEdges_GInv (GInv_subheap hG hrest)
          intro s'' v'' t'' hmem
          exact hG2 s'' v'' t'' hmem

/-- Claim C8: `shortest_path_weight` fails with `MissingValue` exactly when
the target is absent from the computed score map; otherwise it returns the
target's score plus the origin snap walk time; and (for graphs with
non-negative costs, as assembly produces) the early exit at the target's pop
leaves the returned target score identical to the no-target run's. -/
theorem shortest_path_weight_spec (g : TransitGraph)
    (start target : SnappedPoint) (start_time : Nat)
    (hnn : NonNegWeights g) :
    ((∃ msg, shortest_path_weight g start target start_time =
        .error (.MissingValue msg)) ↔
      time_dependent_dijkstra g start.index (some target.index) start_time
        target.index = none) ∧
    (∀ w, time_dependent_dijkstra g start.index (some target.index)
        start_time target.index = some w →
      shortest_path_weight g start target start_time =
        .ok (w + start.distance)) ∧
    time_dependent_dijkstra g start.index (some target.index) start_time
        target.index =
      time_dependent_dijkstra g start.index none start_time target.index := by
  have hinit : GInv (initSt start.index start_time) := by
    intro s v t hmem
    rcases List.mem_singleton.mp hmem with heq
    cases heq
    exact ⟨0, by simp [initSt], le_refl _⟩
  refine ⟨?_, ?_, ?_⟩
  · constructor
    · rintro ⟨msg, hmsg⟩
      unfold shortest_path_weight at hmsg
      cases hres : time_dependent_dijkstra g start.index (some target.index)
          start_time target.index with
      | none => rfl
      | some w =>
        simp only [hres] at hmsg
        cases hmsg
    · intro hres
      unfold shortest_path_weight
      simp only [hres]
      exact ⟨_, rfl⟩
  · intro w hres
    unfold shortest_path_weight
    simp only [hres]
  · exact ddLoop_target_irrelevant g target.index hnn (fuelFor g)
      (initSt start.index start_time) hinit

/-- Witness for C8 on the two-node walk graph. -/
theorem shortest_path_weight_spec_witness :
    NonNegWeights pairGraph ∧
    (((∃ msg, shortest_path_weight pairGraph ⟨(0, 0), 0, 3⟩ ⟨(0, 0), 1, 5⟩
        43200 = .error (.MissingValue msg)) ↔
      time_dependent_dijkstra pairGraph 0 (some 1) 43200 1 = none) ∧
    (∀ w, time_dependent_dijkstra pairGraph 0 (some 1) 43200 1 = some w →
      shortest_path_weight pairGraph ⟨(0, 0), 0, 3⟩ ⟨(0, 0), 1, 5⟩ 43200 =
        .ok (w + 3)) ∧
    time_dependent_dijkstra pairGraph 0 (some 1) 43200 1 =
      time_dependent_dijkstra pairGraph 0 none 43200 1) :=
  ⟨by
    intro ed hed
    rcases List.mem_singleton.mp hed with rfl
    exact edgeNonNeg_walk (by norm_num),
   shortest_path_weight_spec pairGraph ⟨(0, 0), 0, 3⟩ ⟨(0, 0), 1, 5⟩ 43200
     (by
      intro ed hed
      rcases List.mem_singleton.mp hed with rfl
      exact edgeNonNeg_walk (by norm_num))⟩

/-! ### Itinerary engine: correspondence with the weight engine -/

/-- The itinerary cost oracle without the wheelchair requirement agrees with
the weight oracle: the segment is `NoService` exactly when the delay is the
infinity sentinel, and otherwise carries the delay as its weight. -/
theorem calc_it_cases (e : GraphEdge) (t : Nat) (geo : Option Geo) :
    (calculate_delay e t = none ∧
      calculate_itinerary e t geo false = .NoService) ∨
    (∃ dt seg, calculate_delay e t = some dt ∧
      calculate_itinerary e t geo false = seg ∧
      seg.weight = dt ∧ seg ≠ .NoService) := by
  cases e with
  | Transit trips =>
    unfold calculate_delay calculate_itinerary
    cases hbs : binary_search_by trips t with
    | found i =>
      simp only [hbs]
      by_cases hi : i < trips.length
      · right
        rw [if_pos hi, if_pos hi]
        refine ⟨((u32_wrapping_sub (trips.getD i defaultTrip).arrival_time t :
            Nat) : ℚ),
          .Transit (trips.getD i defaultTrip)
            ((u32_wrapping_sub (trips.getD i defaultTrip).arrival_time t :
              Nat) : ℚ) geo, rfl, by simp, rfl, by simp⟩
      · left
        rw [if_neg hi, if_neg hi]
        exact ⟨rfl, rfl⟩
    | notFound i =>
      simp only [hbs]
      by_cases hi : i < trips.length
      · right
        rw [if_pos hi, if_pos hi]
        refine ⟨((u32_wrapping_sub (trips.getD i defaultTrip).arrival_time t :
            Nat) : ℚ),
          .Transit (trips.getD i defaultTrip)
            ((u32_wrapping_sub (trips.getD i defaultTrip).arrival_time t :
              Nat) : ℚ) geo, rfl, by simp, rfl, by simp⟩
      · left
        rw [if_neg hi, if_neg hi]
        exact ⟨rfl, rfl⟩
  | Walk w =>
    right
    exact ⟨w, .Pedestrian w geo, rfl, rfl, rfl, by simp⟩
  | Transfer w =>
    right
    exact ⟨w, .Pedestrian w geo, rfl, rfl, rfl, by simp⟩

/-- One relaxation of the itinerary engine either leaves the state unchanged
or performs the score/heap/predecessor update with the delay of the realized
segment. -/
theorem relaxOneIt_cases (g : TransitGraph) (node : Nat) (ns : ℚ) (ct : Nat)
    (st : IState) (e : Nat × GraphEdge) :
    relaxOneIt g node ns ct false st e = st ∨
    (∃ dt seg, calculate_delay e.2 ct = some dt ∧
      calculate_itinerary e.2 ct (edgeGeometry g node e.1) false = seg ∧
      seg.weight = dt ∧ seg ≠ .NoService ∧
      st.visited.contains e.1 = false ∧
      (∀ ent, st.scores e.1 = some ent → ns + dt < ent) ∧
      relaxOneIt g node ns ct false st e =
        { visited := st.visited,
          scores := scoresInsert st.scores e.1 (ns + dt),
          heap := (ns + dt, e.1, ct + ratAsU32 dt) :: st.heap,
          preds := predsInsert st.preds e.1 (node, seg) }) := by
  unfold relaxOneIt
  by_cases hv : st.visited.contains e.1
  · left
    rw [if_pos hv]
  · rw [if_neg hv]
    have hvf : st.visited.contains e.1 = false := by
      revert hv
      cases st.visited.contains e.1 <;> simp
    rcases calc_it_cases e.2 ct (edgeGeometry g node e.1) with
      ⟨hd, hseg⟩ | ⟨dt, seg, hd, hseg, hwseg, hne⟩
    · left
      dsimp only
      rw [hseg]
    · dsimp only
      rw [hseg]
      cases seg with
      | NoService => exact absurd rfl hne
      | Transit tr w' geo' =>
        have hw' : w' = dt := hwseg
        subst hw'
        simp only [Segment.weight]
        cases hsc : st.scores e.1 with
        | some ent =>
          dsimp only
          by_cases hlt : ns + w' < ent
          · right
            rw [if_pos hlt]
            refine ⟨w', _, hd, rfl, rfl, hne, hvf, ?_, rfl⟩
            intro ent' hent'
            cases hent'
            exact hlt
          · left
            rw [if_neg hlt]
        | none =>
          right
          refine ⟨w', _, hd, rfl, rfl, hne, hvf, ?_, rfl⟩
          intro ent' hent'
          cases hent'
      | Pedestrian w' geo' =>
        have hw' : w' = dt := hwseg
        subst hw'
        simp only [Segment.weight]
        cases hsc : st.scores e.1 with
        | some ent =>
          dsimp only
          by_cases hlt : ns + w' < ent
          · right
            rw [if_pos hlt]
            refine ⟨w', _, hd, rfl, rfl, hne, hvf, ?_, rfl⟩
            intro ent' hent'
            cases hent'
            exact hlt
          · left
            rw [if_neg hlt]
        | none =>
          right
          refine ⟨w', _, hd, rfl, rfl, hne, hvf, ?_, rfl⟩
          intro ent' hent'
          cases hent'

/-- The itinerary relaxation projects onto the weight relaxation. -/
theorem projIt_relaxOneIt (g : TransitGraph) (node : Nat) (ns : ℚ) (ct : Nat)
    (st : IState) (e : Nat × GraphEdge) :
    projIt (relaxOneIt g node ns ct false st e) =
      relaxOne ns ct (projIt st) e := by
  unfold relaxOneIt relaxOne
  by_cases hv : st.visited.contains e.1
  · have hv2 : (projIt st).visited.contains e.1 = true := hv
    rw [if_pos hv, if_pos hv2]
  · have hv2 : ¬ (projIt st).visited.contains e.1 = true := hv
    rw [if_neg hv, if_neg hv2]
    rcases calc_it_cases e.2 ct (edgeGeometry g node e.1) with
      ⟨hd, hseg⟩ | ⟨dt, seg, hd, hseg, hwseg, hne⟩
    · dsimp only
      rw [hseg]
      have hd2 : calculate_delay e.2 ct = none := hd
      rw [hd2]
    · dsimp only
      rw [hseg, hd]
      cases seg with
      | NoService => exact absurd rfl hne
      | Transit tr w' geo' =>
        have hw' : w' = dt := hwseg
        subst hw'
        have hsc2 : (projIt st).scores = st.scores := rfl
        rw [hsc2]
        simp only [Segment.weight]
        cases hsc : st.scores e.1 with
        | some ent =>
          dsimp only
          by_cases hlt : ns + w' < ent
          · rw [if_pos hlt, if_pos hlt]
            rfl
          · rw [if_neg hlt, if_neg hlt]
        | none => rfl
      | Pedestrian w' geo' =>
        have hw' : w' = dt := hwseg
        subst hw'
        have hsc2 : (projIt st).scores = st.scores := rfl
        rw [hsc2]
        simp only [Segment.weight]
        cases hsc : st.scores e.1 with
        | some ent =>
          dsimp only
          by_cases hlt : ns + w' < ent
          · rw [if_pos hlt, if_pos hlt]
            rfl
          · rw [if_neg hlt, if_neg hlt]
        | none => rfl

/-- The itinerary relaxation round projects onto the weight round. -/
theorem projIt_relaxEdgesIt (g : TransitGraph) (node : Nat) (ns : ℚ)
    (ct : Nat) (st : IState) :
    projIt (relaxEdgesIt g node ns ct false st) =
      relaxEdges g node ns ct (projIt st) := by
  unfold relaxEdgesIt relaxEdges
  generalize out g node = L
  induction L generalizing st with
  | nil => rfl
  | cons e es ih =>
    rw [List.foldl_cons, List.foldl_cons,
      ← projIt_relaxOneIt g node ns ct st e]
    exact ih (relaxOneIt g node ns ct false st e)

/-- One loop iteration of the itinerary engine projects onto one iteration
of the weight engine with the mandatory target. -/
theorem projIt_step (g : TransitGraph) (tgt : Nat) (st : IState) :
    projStepIt (dijkstraStepIt g tgt false st) =
      dijkstraStep g (some tgt) (projIt st) := by
  unfold dijkstraStepIt dijkstraStep
  have hh : (projIt st).heap = st.heap := rfl
  rw [hh]
  cases hpop : popMin st.heap with
  | none => rfl
  | some pr =>
    obtain ⟨⟨s, v, t⟩, rest⟩ := pr
    dsimp only
    by_cases hv : st.visited.contains v
    · have hv2 : (projIt st).visited.contains v = true := hv
      rw [if_pos hv, if_pos hv2]
      rfl
    · have hv2 : ¬ (projIt st).visited.contains v = true := hv
      rw [if_neg hv, if_neg hv2]
      by_cases hveq : v = tgt
      · subst hveq
        rw [if_pos rfl, if_pos rfl]
        rfl
      · have h2 : ¬ ((some tgt : Option Nat) = some v) := by
          simp [Ne.symm hveq]
        rw [if_neg hveq, if_neg h2]
        have hcorr : projIt (relaxEdgesIt g v s t false { st with heap := rest }) =
            relaxEdges g v s t { projIt st with heap := rest } :=
          projIt_relaxEdgesIt g v s t { st with heap := rest }
        rw [← hcorr]
        rfl

/-- The itinerary engine loop projects onto the weight engine loop. -/
theorem projIt_ddLoopIt (g : TransitGraph) (tgt : Nat) :
    ∀ (fuel : Nat) (st : IState),
      projIt (ddLoopIt g tgt false fuel st) =
        ddLoop g (some tgt) fuel (projIt st) := by
  intro fuel
  induction fuel with
  | zero => intro st; rfl
  | succ fuel ih =>
    intro st
    have hIt : ddLoopIt g tgt false (fuel + 1) st =
        match dijkstraStepIt g tgt false st with
        | .halt st' => st'
        | .step st' => ddLoopIt g tgt false fuel st' := rfl
    have hD : ddLoop g (some tgt) (fuel + 1) (projIt st) =
        match dijkstraStep g (some tgt) (projIt st) with
        | .halt st' => st'
        | .step st' => ddLoop g (some tgt) fuel st' := rfl
    rw [hIt, hD, ← projIt_step g tgt st]
    cases dijkstraStepIt g tgt false st with
    | halt st' => rfl
    | step st' =>
      simp only [projStepIt]
      exact ih st'

/-- Relaxation keeps a heap entry at the exact score of every node that is
unfinalized and distinct from the popped node. -/
theorem relaxOne_keepC {ns : ℚ} {ct : Nat} {st : DState}
    {e : Nat × GraphEdge} {u : Nat}
    (h : ∀ v s, st.scores v = some s → st.visited.contains v = false →
      v ≠ u → ∃ t, (s, v, t) ∈ st.heap) :
    ∀ v s, (relaxOne ns ct st e).scores v = some s →
      (relaxOne ns ct st e).visited.contains v = false → v ≠ u →
      ∃ t, (s, v, t) ∈ (relaxOne ns ct st e).heap := by
  unfold relaxOne
  by_cases hv : st.visited.contains e.1
  · rw [if_pos hv]
    exact h
  · rw [if_neg hv]
    cases hcd : calculate_delay e.2 ct with
    | none => exact h
    | some dt =>
      dsimp only
      cases hsc : st.scores e.1 with
      | some ent =>
        dsimp only
        by_cases hlt : ns + dt < ent
        · rw [if_pos hlt]
          intro v s hvs hvis hvu
          by_cases hve : v = e.1
          · subst hve
            have hs : s = ns + dt := by
              simp [scoresInsert] at hvs
              exact hvs.symm
            subst hs
            exact ⟨ct + ratAsU32 dt, List.mem_cons_self _ _⟩
          · have hvs' : st.scores v = some s := by
              simpa [scoresInsert, hve] using hvs
            obtain ⟨t, ht⟩ := h v s hvs' hvis hvu
            exact ⟨t, List.mem_cons_of_mem _ ht⟩
        · rw [if_neg hlt]
          exact h
      | none =>
        dsimp only
        intro v s hvs hvis hvu
        by_cases hve : v = e.1
        · subst hve
          have hs : s = ns + dt := by
            simp [scoresInsert] at hvs
            exact hvs.symm
          subst hs
          exact ⟨ct + ratAsU32 dt, List.mem_cons_self _ _⟩
        · have hvs' : st.scores v = some s := by
            simpa [scoresInsert, hve] using hvs
          obtain ⟨t, ht⟩ := h v s hvs' hvis hvu
          exact ⟨t, List.mem_cons_of_mem _ ht⟩

theorem relaxEdges_keepC {g : TransitGraph} {node : Nat} {ns : ℚ} {ct : Nat}
    {st : DState} {u : Nat}
    (h : ∀ v s, st.scores v = some s → st.visited.contains v = false →
      v ≠ u → ∃ t, (s, v, t) ∈ st.heap) :
    ∀ v s, (relaxEdges g node ns ct st).scores v = some s →
      (relaxEdges g node ns ct st).visited.contains v = false → v ≠ u →
      ∃ t, (s, v, t) ∈ (relaxEdges g node ns ct st).heap := by
  unfold relaxEdges
  generalize out g node = L
  induction L generalizing st with
  | nil => exact h
  | cons e es ih =>
    rw [List.foldl_cons]
    exact ih (relaxOne_keepC h)

/-- One itinerary relaxation preserves the round invariant. -/
theorem roundInv_relaxOneIt (g : TransitGraph) (start u : Nat) (s : ℚ)
    (ct : Nat) (st0 st : IState) (e : Nat × GraphEdge)
    (hnnE : ∀ dt, calculate_delay e.2 ct = some dt → 0 ≤ dt)
    (hsu : st0.scores u = some s) (hs0 : 0 ≤ s)
    (H : RoundInv start u st0 st) :
    RoundInv start u st0 (relaxOneIt g u s ct false st e) := by
  rcases relaxOneIt_cases g u s ct st e with heq |
    ⟨dt, seg, hd, hseg, hwseg, hnsv, hvf, himp, heq⟩
  · rw [heq]
    exact H
  · rw [heq]
    have hdt : 0 ≤ dt := hnnE dt hd
    have hV1 : st0.visited.contains e.1 = false := by
      rw [← H.hV]
      exact hvf
    have hne1 : e.1 ≠ u := by
      intro hh
      have hsc : st.scores e.1 = some s := by
        rw [hh]
        exact (H.hFr u (Or.inr rfl)).2.trans hsu
      have := himp s hsc
      linarith
    have hs0ne : e.1 ≠ start := by
      intro hh
      have hsc : st.scores e.1 = some 0 := by
        rw [hh]
        exact H.hS0
      have := himp 0 hsc
      linarith
    refine ⟨H.hV, ?_, ?_, ?_, ?_, ?_, ?_, ?_⟩
    · intro v hv
      have hvne : ¬ (v = e.1) := by
        intro hh
        subst hh
        rcases hv with hv | hv
        · rw [hv] at hV1
          cases hV1
        · exact hne1 hv
      constructor
      · show predsInsert st.preds e.1 (u, seg) v = st0.preds v
        simp only [predsInsert, if_neg hvne]
        exact (H.hFr v hv).1
      · show scoresInsert st.scores e.1 (s + dt) v = st0.scores v
        simp only [scoresInsert, if_neg hvne]
        exact (H.hFr v hv).2
    · show scoresInsert st.scores e.1 (s + dt) start = some 0
      have hne2 : ¬ (start = e.1) := fun hh => hs0ne hh.symm
      simp only [scoresInsert, if_neg hne2]
      exact H.hS0
    · show predsInsert st.preds e.1 (u, seg) start = none
      have hne2 : ¬ (start = e.1) := fun hh => hs0ne hh.symm
      simp only [predsInsert, if_neg hne2]
      exact H.hP0
    · intro v s' hsv hpv
      by_cases hvq : v = e.1
      · subst hvq
        simp only [predsInsert, if_pos rfl] at hpv
        cases hpv
      · simp only [scoresInsert, if_neg hvq] at hsv
        simp only [predsInsert, if_neg hvq] at hpv
        exact H.hPne v s' hsv hpv
    · intro v s' hsv
      by_cases hvq : v = e.1
      · subst hvq
        simp only [scoresInsert, if_pos rfl] at hsv
        cases hsv
        linarith
      · simp only [scoresInsert, if_neg hvq] at hsv
        exact H.hNN v s' hsv
    · intro v u' seg' hp
      by_cases hvq : v = e.1
      · subst hvq
        simp only [predsInsert, if_pos rfl] at hp
        cases hp
        refine ⟨s, ?_, ?_⟩
        · have hne2 : ¬ (u = e.1) := fun hh => hne1 hh.symm
          show scoresInsert st.scores e.1 (s + dt) u = some s
          simp only [scoresInsert, if_neg hne2]
          exact (H.hFr u (Or.inr rfl)).2.trans hsu
        · show scoresInsert st.scores e.1 (s + dt) e.1 = some (s + seg.weight)
          simp [scoresInsert, hwseg]
      · have hp' : st.preds v = some (u', seg') := by
          simpa [predsInsert, hvq] using hp
        obtain ⟨su, hsu', hsv'⟩ := H.hPred v u' seg' hp'
        have hu'ne : ¬ (u' = e.1) := by
          intro hh
          rcases H.hTgt v u' seg' hp' with ht | ht
          · rw [hh] at ht
            rw [ht] at hV1
            cases hV1
          · rw [hh] at ht
            exact hne1 ht
        refine ⟨su, ?_, ?_⟩
        · show scoresInsert st.scores e.1 (s + dt) u' = some su
          simp only [scoresInsert, if_neg hu'ne]
          exact hsu'
        · show scoresInsert st.scores e.1 (s + dt) v = some (su + seg'.weight)
          simp only [scoresInsert, if_neg hvq]
          exact hsv'
    · intro v u' seg' hp
      by_cases hvq : v = e.1
      · subst hvq
        simp only [predsInsert, if_pos rfl] at hp
        cases hp
        exact Or.inr rfl
      · have hp' : st.preds v = some (u', seg') := by
          simpa [predsInsert, hvq] using hp
        exact H.hTgt v u' seg' hp'

/-- The whole itinerary relaxation round preserves the round invariant. -/
theorem roundInv_relaxEdgesIt (g : TransitGraph) (start u : Nat) (s : ℚ)
    (ct : Nat) (st0 : IState) (hnn : NonNegWeights g)
    (hsu : st0.scores u = some s) (hs0 : 0 ≤ s)
    (H0 : RoundInv start u st0 st0) :
    RoundInv start u st0 (relaxEdgesIt g u s ct false st0) := by
  unfold relaxEdgesIt
  have haux : ∀ (L : List (Nat × GraphEdge)), (∀ e ∈ L, e ∈ out g u) →
      ∀ st, RoundInv start u st0 st →
      RoundInv start u st0 (L.foldl (relaxOneIt g u s ct false) st) := by
    intro L
    induction L with
    | nil =>
      intro _ st H
      exact H
    | cons e es ih =>
      intro hL st H
      rw [List.foldl_cons]
      refine ih (fun e' he' => hL e' (List.mem_cons_of_mem _ he')) _ ?_
      refine roundInv_relaxOneIt g start u s ct st0 st e ?_ hsu hs0 H
      intro dt hdt
      exact out_nonneg hnn (hL e (List.mem_cons_self _ _)) dt ct hdt
  exact haux (out g u) (fun e he => he) st0 H0

theorem contains_eq_false_iff {l : List Nat} {v : Nat} :
    l.contains v = false ↔ v ∉ l := by
  rw [Bool.eq_false_iff]
  constructor
  · intro h hm
    exact h (contains_iff_mem.mpr hm)
  · intro h hc
    exact h (contains_iff_mem.mp hc)

/-- One loop iteration of the itinerary engine preserves the full invariant;
at loop exit the reconstruction core still holds (the exit only drops the
popped heap entry, which no core field mentions). -/
theorem stepIt_inv (g : TransitGraph) (tgt start : Nat)
    (hnn : NonNegWeights g) (st : IState) (H : IFull start st) :
    (∀ st', dijkstraStepIt g tgt false st = .halt st' → ICore start st') ∧
    (∀ st', dijkstraStepIt g tgt false st = .step st' → IFull start st') := by
  unfold dijkstraStepIt
  cases hpop : popMin st.heap with
  | none =>
    constructor
    · intro st' hst'
      cases hst'
      exact H.core
    · intro st' hst'
      cases hst'
  | some pr =>
    obtain ⟨⟨s, u, t⟩, rest⟩ := pr
    dsimp only
    have hrest : ∀ y ∈ rest, y ∈ st.heap := popMin_rest_subset hpop
    by_cases hv : st.visited.contains u
    · rw [if_pos hv]
      constructor
      · intro st' hst'
        cases hst'
      · intro st' hst'
        cases hst'
        refine ⟨⟨H.core.hS0, H.core.hP0, H.core.hPne, H.core.hPred,
          H.core.hVis, H.core.hRank⟩, ?_, ?_, H.hNN⟩
        · intro s' v' t' hmem
          exact H.hG s' v' t' (hrest _ hmem)
        · intro v' s' hs' hvis'
          obtain ⟨t', ht'⟩ := H.hC v' s' hs' hvis'
          refine ⟨t', popMin_rest_of_ne hpop _ ht' ?_⟩
          intro hh
          have hvu : v' = u := congrArg (fun p : ℚ × Nat × Nat => p.2.1) hh
          rw [hvu, hv] at hvis'
          exact Bool.noConfusion hvis'
    · rw [if_neg hv]
      have hvf : st.visited.contains u = false := by
        revert hv
        cases st.visited.contains u <;> simp
      by_cases hveq : u = tgt
      · rw [if_pos hveq]
        constructor
        · intro st' hst'
          cases hst'
          exact ⟨H.core.hS0, H.core.hP0, H.core.hPne, H.core.hPred,
            H.core.hVis, H.core.hRank⟩
        · intro st' hst'
          cases hst'
      · rw [if_neg hveq]
        obtain ⟨s', hs', hle⟩ := H.hG s u t (popMin_mem hpop)
        obtain ⟨t', ht'⟩ := H.hC u s' hs' hvf
        have hge : s ≤ s' := popMin_le hpop (s', u, t') ht'
        have hseq : s' = s := le_antisymm hle hge
        rw [hseq] at hs'
        set st1 : IState := { st with heap := rest } with hst1
        have hsu1 : st1.scores u = some s := hs'
        have hs0nn : 0 ≤ s := H.hNN u s hs'
        have huV : u ∉ st.visited := by
          intro hh
          have := contains_iff_mem.mpr hh
          rw [hvf] at this
          exact Bool.noConfusion this
        have H0 : RoundInv start u st1 st1 := by
          refine ⟨rfl, fun v _ => ⟨rfl, rfl⟩, H.core.hS0, H.core.hP0,
            H.core.hPne, H.hNN, H.core.hPred, ?_⟩
          intro v u' seg hp
          exact Or.inl (contains_iff_mem.mpr (H.core.hVis v u' seg hp))
        have Hr : RoundInv start u st1 (relaxEdgesIt g u s t false st1) :=
          roundInv_relaxEdgesIt g start u s t st1 hnn hsu1 hs0nn H0
        set st2 : IState := relaxEdgesIt g u s t false st1 with hst2
        have hVeq : st2.visited = st.visited := Hr.hV
        constructor
        · intro st' hst'
          cases hst'
        · intro st' hst'
          cases hst'
          have hcorr : projIt st2 = relaxEdges g u s t (projIt st1) :=
            projIt_relaxEdgesIt g u s t st1
          refine ⟨⟨Hr.hS0, Hr.hP0, Hr.hPne, Hr.hPred, ?_, ?_⟩, ?_, ?_, Hr.hNN⟩
          · -- hVis for the appended visited list
            intro v u' seg hp
            rcases Hr.hTgt v u' seg hp with ht | ht
            · refine List.mem_append.mpr (Or.inl ?_)
              rw [hVeq]
              exact contains_iff_mem.mp ht
            · exact List.mem_append.mpr (Or.inr (List.mem_singleton.mpr ht))
          · -- hRank for the appended visited list
            intro u' u2 seg2 hp hu'
            by_cases hq : u' = u
            · subst hq
              have hfr := (Hr.hFr u' (Or.inr rfl)).1
              rw [hfr] at hp
              have hu2 : u2 ∈ st.visited := H.core.hVis u' u2 seg2 hp
              rw [hVeq, List.indexOf_append_of_mem hu2,
                List.indexOf_append_of_not_mem huV]
              have hlt2 : st.visited.indexOf u2 < st.visited.length :=
                List.indexOf_lt_length.mpr hu2
              simpa using hlt2
            · have hu'V : u' ∈ st.visited := by
                rcases List.mem_append.mp hu' with h1 | h1
                · exact hVeq ▸ h1
                · exact absurd (List.mem_singleton.mp h1) hq
              have hfr := (Hr.hFr u'
                (Or.inl (contains_iff_mem.mpr hu'V))).1
              rw [hfr] at hp
              have hu2 : u2 ∈ st.visited := H.core.hVis u' u2 seg2 hp
              rw [hVeq, List.indexOf_append_of_mem hu2,
                List.indexOf_append_of_mem hu'V]
              exact H.core.hRank u' u2 seg2 hp hu'V
          · -- heap domination
            have hG1 : GInv (projIt st1) := by
              intro s'' v'' t'' hmem
              exact H.hG s'' v'' t'' (hrest _ hmem)
            have hG2 : GInv (projIt st2) := by
              rw [hcorr]
              exact relaxEdges_GInv hG1
            intro s'' v'' t'' hmem
            exact hG2 s'' v'' t'' hmem
          · -- exact heap entries for unfinalized scored nodes
            intro v s'' hs'' hvis''
            have hnm : v ∉ st2.visited ++ [u] := contains_eq_false_iff.mp hvis''
            have hnm1 : v ∉ st2.visited := fun hh =>
              hnm (List.mem_append.mpr (Or.inl hh))
            have hnm2 : v ≠ u := fun hh =>
              hnm (List.mem_append.mpr (Or.inr (List.mem_singleton.mpr hh)))
            have hpre : ∀ v' s', (projIt st1).scores v' = some s' →
                (projIt st1).visited.contains v' = false → v' ≠ u →
                ∃ t'', (s', v', t'') ∈ (projIt st1).heap := by
              intro v' s' hsv hvv hvu
              obtain ⟨t'', ht''⟩ := H.hC v' s' hsv hvv
              refine ⟨t'', popMin_rest_of_ne hpop _ ht'' ?_⟩
              intro hh
              exact hvu (congrArg (fun p : ℚ × Nat × Nat => p.2.1) hh)
            have hs2 : (relaxEdges g u s t (projIt st1)).scores v = some s'' := by
              rw [← hcorr]
              exact hs''
            have hv2 : (relaxEdges g u s t (projIt st1)).visited.contains v =
                false := by
              rw [← hcorr]
              exact contains_eq_false_iff.mpr hnm1
            obtain ⟨t'', ht''⟩ :=
              @relaxEdges_keepC g u s t (projIt st1) u hpre v s'' hs2 hv2 hnm2
            refine ⟨t'', ?_⟩
            rw [← hcorr] at ht''
            exact ht''

/-- The itinerary engine loop carries the reconstruction core to its final
state. -/
theorem ddLoopIt_inv (g : TransitGraph) (tgt start : Nat)
    (hnn : NonNegWeights g) :
    ∀ (fuel : Nat) (st : IState), IFull start st →
      ICore start (ddLoopIt g tgt false fuel st) := by
  intro fuel
  induction fuel with
  | zero =>
    intro st H
    exact H.core
  | succ fuel ih =>
    intro st H
    have hrw : ddLoopIt g tgt false (fuel + 1) st =
        match dijkstraStepIt g tgt false st with
        | .halt st' => st'
        | .step st' => ddLoopIt g tgt false fuel st' := rfl
    rw [hrw]
    cases hstep : dijkstraStepIt g tgt false st with
    | halt st' =>
      exact (stepIt_inv g tgt start hnn st H).1 st' hstep
    | step st' =>
      exact ih st' ((stepIt_inv g tgt start hnn st H).2 st' hstep)

/-- The initial itinerary state satisfies the full invariant. -/
theorem initStIt_inv (start t0 : Nat) : IFull start (initStIt start t0) := by
  refine ⟨⟨?_, ?_, ?_, ?_, ?_, ?_⟩, ?_, ?_, ?_⟩
  · simp [initStIt]
  · rfl
  · intro v s hs _
    by_cases hv : v = start
    · exact hv
    · simp [initStIt, hv] at hs
  · intro v u seg hp
    simp [initStIt] at hp
  · intro v u seg hp
    simp [initStIt] at hp
  · intro u u2 seg2 hp _
    simp [initStIt] at hp
  · intro s v t hmem
    have hmem' : (s, v, t) ∈ [((0 : ℚ), start, t0)] := hmem
    have h := List.mem_singleton.mp hmem'
    have hs : s = 0 := congrArg (fun p : ℚ × Nat × Nat => p.1) h
    have hv : v = start := congrArg (fun p : ℚ × Nat × Nat => p.2.1) h
    subst hs
    subst hv
    refine ⟨0, by simp [initStIt, projIt], le_refl _⟩
  · intro v s hs hvis
    by_cases hv : v = start
    · subst hv
      have hs0 : s = 0 := by
        simp [initStIt] at hs
        exact hs.symm
      subst hs0
      exact ⟨t0, by simp [initStIt]⟩
    · simp [initStIt, hv] at hs
  · intro v s hs
    by_cases hv : v = start
    · subst hv
      simp [initStIt] at hs
      linarith
    · simp [initStIt, hv] at hs

/-- Walking the predecessor chain accumulates exactly the score of the node
the walk starts from (the chain telescopes, ends at the origin with score
`0`, and its length is bounded through the strictly decreasing finalization
ranks). -/
theorem reconstruct_sum (start : Nat) (fin : IState)
    (HC : ICore start fin) :
    ∀ (fuel : Nat) (v : Nat) (s : ℚ) (acc : List Segment),
      fin.scores v = some s →
      (match fin.preds v with
       | none => 0
       | some pr => fin.visited.indexOf pr.1 + 1) < fuel →
      ((reconstructGo fin.preds fuel v acc).map Segment.weight).sum =
        ((acc.map Segment.weight)).sum + s := by
  intro fuel
  induction fuel with
  | zero =>
    intro v s acc _ hm
    exact absurd hm (Nat.not_lt_zero _)
  | succ fuel ih =>
    intro v s acc hs hm
    cases hp : fin.preds v with
    | none =>
      have hv : v = start := HC.hPne v s hs hp
      subst hv
      rw [HC.hS0] at hs
      have hs0 : (0 : ℚ) = s := Option.some.inj hs
      rw [← hs0]
      simp only [reconstructGo, hp]
      simp
    | some pr =>
      obtain ⟨u, seg⟩ := pr
      have hp' : fin.preds v = some (u, seg) := hp
      obtain ⟨su, hsu, hsv⟩ := HC.hPred v u seg hp'
      rw [hs] at hsv
      have hse : s = su + seg.weight := Option.some.inj hsv
      have hu : u ∈ fin.visited := HC.hVis v u seg hp'
      have hiu : fin.visited.indexOf u < fuel := by
        rw [hp] at hm
        exact Nat.lt_of_succ_lt_succ hm
      have hm2 : (match fin.preds u with
          | none => 0
          | some pr2 => fin.visited.indexOf pr2.1 + 1) < fuel := by
        cases hp2 : fin.preds u with
        | none =>
          show 0 < fuel
          exact Nat.lt_of_le_of_lt (Nat.zero_le _) hiu
        | some pr2 =>
          show fin.visited.indexOf pr2.1 + 1 < fuel
          have hrank := HC.hRank u pr2.1 pr2.2 (by rw [hp2]) hu
          omega
      have hrec := ih u su (acc ++ [seg]) hsu hm2
      have hstep : reconstructGo fin.preds (fuel + 1) v acc =
          reconstructGo fin.preds fuel u (acc ++ [seg]) := by
        simp only [reconstructGo, hp]
      rw [hstep, hrec, hse]
      simp [List.map_append, List.sum_append]
      ring

/-- Claim C4 (amended): for non-negative edge costs (true of every assembled
graph) and a reachable target, the duration of the detailed itinerary (the
sum of its segment weights, computed without the wheelchair requirement)
equals the one-to-one weight returned by `shortest_path_weight` minus the
origin snap walk time only.  The original claim also subtracts the target
snap walk time, but `shortest_path_weight` never adds it: the one-to-one
weight is the target's raw score plus the origin snap walk alone. -/
theorem detailed_itinerary_duration (g : TransitGraph)
    (start target : SnappedPoint) (start_time : Nat)
    (hnn : NonNegWeights g) (w : ℚ)
    (hw : shortest_path_weight g start target start_time = .ok w) :
    (detailed_itinerary g start target start_time false).duration =
      w - start.distance := by
  unfold shortest_path_weight at hw
  cases hres : time_dependent_dijkstra g start.index (some target.index)
      start_time target.index with
  | none =>
    simp only [hres] at hw
    cases hw
  | some sc =>
    simp only [hres] at hw
    cases hw
    set fin : IState := ddLoopIt g target.index false (fuelFor g)
      (initStIt start.index start_time) with hfin
    have hproj : projIt fin = ddLoop g (some target.index) (fuelFor g)
        (initSt start.index start_time) := by
      rw [hfin, projIt_ddLoopIt]
      rfl
    have hscore : fin.scores target.index = some sc := by
      have h1 : (ddLoop g (some target.index) (fuelFor g)
          (initSt start.index start_time)).scores target.index = some sc :=
        hres
      rw [← hproj] at h1
      exact h1
    have hcore : ICore start.index fin := by
      rw [hfin]
      exact ddLoopIt_inv g target.index start.index hnn (fuelFor g) _
        (initStIt_inv start.index start_time)
    unfold detailed_itinerary detailed_itinerary_internal
    dsimp only
    rw [← hfin, hscore]
    simp only [Option.isSome_some, if_true]
    unfold Itinerary.duration
    dsimp only
    rw [List.map_reverse, List.sum_reverse]
    have hm : (match fin.preds target.index with
        | none => 0
        | some pr => fin.visited.indexOf pr.1 + 1) <
        fin.visited.length + 1 := by
      cases hp : fin.preds target.index with
      | none =>
        show 0 < fin.visited.length + 1
        exact Nat.succ_pos _
      | some pr =>
        show fin.visited.indexOf pr.1 + 1 < fin.visited.length + 1
        have hu : pr.1 ∈ fin.visited :=
          hcore.hVis target.index pr.1 pr.2 (by rw [hp])
        have := List.indexOf_lt_length.mpr hu
        omega
    have hsum := reconstruct_sum start.index fin hcore
      (fin.visited.length + 1) target.index sc [] hscore hm
    rw [hsum]
    simp

/-- Counterexample to claim C4 as stated: on the one-edge walk graph with
origin snap walk `3` and target snap walk `5`, the one-to-one weight is
`10 = 7 + 3`, the itinerary duration is `7`, and the claim's
`weight − origin_snap − target_snap = 2` does not match: the target snap
walk is never part of the one-to-one weight. -/
theorem detailed_itinerary_duration_cex :
    shortest_path_weight pairGraph ⟨(0, 0), 0, 3⟩ ⟨(0, 0), 1, 5⟩ 0 =
      .ok 10 ∧
    (detailed_itinerary pairGraph ⟨(0, 0), 0, 3⟩ ⟨(0, 0), 1, 5⟩ 0
      false).duration = 7 ∧
    (7 : ℚ) ≠ 10 - 3 - 5 := by
  have h1 : shortest_path_weight pairGraph ⟨(0, 0), 0, 3⟩ ⟨(0, 0), 1, 5⟩ 0 =
      .ok ((0 : ℚ) + 7 + 3) := rfl
  have h2 : ((0 : ℚ) + 7 + 3) = 10 := by norm_num
  rw [h2] at h1
  have h3 : (detailed_itinerary pairGraph ⟨(0, 0), 0, 3⟩ ⟨(0, 0), 1, 5⟩ 0
      false).duration = (7 : ℚ) + 0 := rfl
  have h4 : (7 : ℚ) + 0 = 7 := by norm_num
  rw [h4] at h3
  refine ⟨h1, h3, by norm_num⟩

/-- Witness for the amended C4 on the one-edge walk graph: weight `10`,
origin snap `3`, duration `10 − 3 = 7`. -/
theorem detailed_itinerary_duration_witness :
    NonNegWeights pairGraph ∧
    shortest_path_weight pairGraph ⟨(0, 0), 0, 3⟩ ⟨(0, 0), 1, 5⟩ 0 =
      .ok 10 ∧
    (detailed_itinerary pairGraph ⟨(0, 0), 0, 3⟩ ⟨(0, 0), 1, 5⟩ 0
      false).duration = 10 - 3 := by
  have hnn : NonNegWeights pairGraph := by
    intro ed hed
    rcases List.mem_singleton.mp hed with rfl
    exact edgeNonNeg_walk (by norm_num)
  have h1 : shortest_path_weight pairGraph ⟨(0, 0), 0, 3⟩ ⟨(0, 0), 1, 5⟩ 0 =
      .ok ((0 : ℚ) + 7 + 3) := rfl
  have h2 : ((0 : ℚ) + 7 + 3) = 10 := by norm_num
  rw [h2] at h1
  exact ⟨hnn, h1, detailed_itinerary_duration pairGraph ⟨(0, 0), 0, 3⟩
    ⟨(0, 0), 1, 5⟩ 0 hnn 10 h1⟩

/-! ### Engine pop optimality (claim C1) -/

theorem ratAsU32_eq (q : ℚ) : ratAsU32 q = ⌊q⌋.toNat := rfl

theorem ratAsU32_natCast (n : Nat) : ratAsU32 ((n : ℕ) : ℚ) = n := by
  rw [ratAsU32_eq, Int.floor_natCast]
  simp

/-- With whole-second edge costs, the clock of every reachable travel state
is the start time plus the accumulated score (truncation never loses
anything). -/
theorem times_eq {g : TransitGraph} (hic : IntegralCosts g)
    {start t0 v t : Nat} {c : ℚ} (hr : Reaches g start t0 v t c) :
    (t : ℚ) = (t0 : ℚ) + c := by
  induction hr with
  | base => simp
  | step v' e dt hr hmem hcd ih =>
    obtain ⟨n, rfl⟩ := hic _ (mem_out.mp hmem) _ _ hcd
    rw [ratAsU32_natCast]
    push_cast
    push_cast at ih
    linarith

theorem relaxList_visited (ns : ℚ) (ct : Nat) :
    ∀ (L : List (Nat × GraphEdge)) (st : DState),
      (L.foldl (relaxOne ns ct) st).visited = st.visited := by
  intro L
  induction L with
  | nil => intro st; rfl
  | cons e es ih =>
    intro st
    rw [List.foldl_cons, ih, relaxOne_visited]

theorem relaxList_scores_visited (ns : ℚ) (ct : Nat) :
    ∀ (L : List (Nat × GraphEdge)) (st : DState) (w : Nat),
      st.visited.contains w = true →
      (L.foldl (relaxOne ns ct) st).scores w = st.scores w := by
  intro L
  induction L with
  | nil => intro st w _; rfl
  | cons e es ih =>
    intro st w hw
    rw [List.foldl_cons]
    have hw' : (relaxOne ns ct st e).visited.contains w = true := by
      rw [relaxOne_visited]
      exact hw
    rw [ih _ w hw', relaxOne_scores_visited hw]

theorem relaxList_scores_mono (ns : ℚ) (ct : Nat) :
    ∀ (L : List (Nat × GraphEdge)) (st : DState) (w : Nat) (s0 : ℚ),
      st.scores w = some s0 →
      ∃ s' ≤ s0, (L.foldl (relaxOne ns ct) st).scores w = some s' := by
  intro L
  induction L with
  | nil =>
    intro st w s0 hs
    exact ⟨s0, le_refl _, hs⟩
  | cons e es ih =>
    intro st w s0 hs
    rw [List.foldl_cons]
    obtain ⟨s1, hs1, hsc1⟩ := @relaxOne_scores_mono ns ct st e w s0 hs
    obtain ⟨s2, hs2, hsc2⟩ := ih _ w s1 hsc1
    exact ⟨s2, le_trans hs2 hs1, hsc2⟩

theorem relaxOne_heap_mono {ns : ℚ} {ct : Nat} {st : DState}
    {e : Nat × GraphEdge} : ∀ y ∈ st.heap, y ∈ (relaxOne ns ct st e).heap := by
  intro y hy
  unfold relaxOne
  by_cases h : st.visited.contains e.1
  · rw [if_pos h]
    exact hy
  · rw [if_neg h]
    cases calculate_delay e.2 ct with
    | none => exact hy
    | some dt =>
      dsimp only
      cases st.scores e.1 with
      | some ent =>
        dsimp only
        by_cases hlt : ns + dt < ent
        · rw [if_pos hlt]
          exact List.mem_cons_of_mem _ hy
        · rw [if_neg hlt]
          exact hy
      | none =>
        exact List.mem_cons_of_mem _ hy

theorem relaxList_heap_mono (ns : ℚ) (ct : Nat) :
    ∀ (L : List (Nat × GraphEdge)) (st : DState),
      ∀ y ∈ st.heap, y ∈ (L.foldl (relaxOne ns ct) st).heap := by
  intro L
  induction L with
  | nil => intro st y hy; exact hy
  | cons e es ih =>
    intro st y hy
    rw [List.foldl_cons]
    exact ih _ y (relaxOne_heap_mono y hy)

/-- Each heap entry after one relaxation is an old entry or the push of the
relaxed edge at the relaxation clock. -/
theorem relaxOne_heap_new {ns : ℚ} {ct : Nat} {st : DState}
    {e : Nat × GraphEdge} :
    ∀ y ∈ (relaxOne ns ct st e).heap, y ∈ st.heap ∨
      ∃ dt, calculate_delay e.2 ct = some dt ∧
        y = (ns + dt, e.1, ct + ratAsU32 dt) := by
  intro y hy
  unfold relaxOne at hy
  by_cases h : st.visited.contains e.1
  · rw [if_pos h] at hy
    exact Or.inl hy
  · rw [if_neg h] at hy
    cases hcd : calculate_delay e.2 ct with
    | none =>
      simp only [hcd] at hy
      exact Or.inl hy
    | some dt =>
      simp only [hcd] at hy
      cases hsc : st.scores e.1 with
      | some ent =>
        simp only [hsc] at hy
        by_cases hlt : ns + dt < ent
        · rw [if_pos hlt] at hy
          rcases List.mem_cons.mp hy with h1 | h1
          · exact Or.inr ⟨dt, rfl, h1⟩
          · exact Or.inl h1
        · rw [if_neg hlt] at hy
          exact Or.inl hy
      | none =>
        simp only [hsc] at hy
        rcases List.mem_cons.mp hy with h1 | h1
        · exact Or.inr ⟨dt, rfl, h1⟩
        · exact Or.inl h1

theorem relaxList_heap_new (ns : ℚ) (ct : Nat) :
    ∀ (L : List (Nat × GraphEdge)) (st : DState),
      ∀ y ∈ (L.foldl (relaxOne ns ct) st).heap, y ∈ st.heap ∨
        ∃ w e dt, (w, e) ∈ L ∧ calculate_delay e ct = some dt ∧
          y = (ns + dt, w, ct + ratAsU32 dt) := by
  intro L
  induction L with
  | nil =>
    intro st y hy
    exact Or.inl hy
  | cons e es ih =>
    intro st y hy
    rw [List.foldl_cons] at hy
    rcases ih _ y hy with h1 | ⟨w, e', dt, hmem, hcd, hy'⟩
    · rcases relaxOne_heap_new y h1 with h2 | ⟨dt, hcd, hy'⟩
      · exact Or.inl h2
      · exact Or.inr ⟨e.1, e.2, dt, List.mem_cons_self _ _, hcd, hy'⟩
    · exact Or.inr ⟨w, e', dt, List.mem_cons_of_mem _ hmem, hcd, hy'⟩

/-- After the relaxation round, every relaxed edge head holds a score at
most the source score plus the edge delay at the round clock; finalized
heads are covered by the supplied semantic bound. -/
theorem relaxList_covers (ns : ℚ) (ct : Nat) :
    ∀ (L : List (Nat × GraphEdge)) (st : DState),
      (∀ w e dt, (w, e) ∈ L → st.visited.contains w = true →
        calculate_delay e ct = some dt →
        ∃ sw, st.scores w = some sw ∧ sw ≤ ns + dt) →
      ∀ w e, (w, e) ∈ L → ∀ dt, calculate_delay e ct = some dt →
        ∃ sw, (L.foldl (relaxOne ns ct) st).scores w = some sw ∧
          sw ≤ ns + dt := by
  intro L
  induction L with
  | nil =>
    intro st _ w e hmem
    cases hmem
  | cons e0 es ih =>
    intro st hVB w e hmem dt hcd
    rw [List.foldl_cons]
    rcases List.mem_cons.mp hmem with heq | hmem'
    · obtain ⟨w0, ed0⟩ := e0
      have hw : w = w0 := congrArg Prod.fst heq
      have he : e = ed0 := congrArg Prod.snd heq
      subst hw
      subst he
      have hpost : ∃ sw, (relaxOne ns ct st (w, e)).scores w = some sw ∧
          sw ≤ ns + dt := by
        unfold relaxOne
        dsimp only
        by_cases hv : st.visited.contains w
        · rw [if_pos hv]
          exact hVB w e dt (List.mem_cons_self _ _) hv hcd
        · rw [if_neg hv]
          rw [hcd]
          dsimp only
          cases hsc : st.scores w with
          | some ent =>
            dsimp only
            by_cases hlt : ns + dt < ent
            · rw [if_pos hlt]
              refine ⟨ns + dt, ?_, le_refl _⟩
              simp [scoresInsert]
            · rw [if_neg hlt]
              exact ⟨ent, hsc, not_lt.mp hlt⟩
          | none =>
            refine ⟨ns + dt, ?_, le_refl _⟩
            simp [scoresInsert]
      obtain ⟨sw, hsw, hle⟩ := hpost
      obtain ⟨sw2, hle2, hsc2⟩ := relaxList_scores_mono ns ct es _ w sw hsw
      exact ⟨sw2, hsc2, le_trans hle2 hle⟩
    · refine ih (relaxOne ns ct st e0) ?_ w e hmem' dt hcd
      intro w' e' dt' hmem'' hvis' hcd'
      have hvis0 : st.visited.contains w' = true := by
        rw [← relaxOne_visited ns ct st e0]
        exact hvis'
      obtain ⟨sw', hsw', hle'⟩ := hVB w' e' dt'
        (List.mem_cons_of_mem _ hmem'') hvis0 hcd'
      refine ⟨sw', ?_, hle'⟩
      rw [relaxOne_scores_visited hvis0]
      exact hsw'

/-- The Dijkstra frontier lemma: at a minimal pop, every reachable travel
state either already has a recorded score at most its cost, or its cost is
at least the popped score.  Needs FIFO edges and whole-second costs (so the
clocks of score-minimal and cost-minimal paths compare). -/
theorem frontier_min {g : TransitGraph} {start t0 : Nat}
    (hga : GraphAssumptions g) (hic : IntegralCosts g) {st : DState}
    (H : DInv g start t0 st) {s : ℚ} {v t : Nat} {rest : List HeapEntry}
    (hpop : popMin st.heap = some ((s, v, t), rest)) :
    ∀ w t' c, Reaches g start t0 w t' c →
      (∃ sw, st.scores w = some sw ∧ sw ≤ c) ∨ s ≤ c := by
  intro w t' c hr
  induction hr with
  | base =>
    by_cases hv : start ∈ st.visited
    · obtain ⟨s0, tu, hs0, hru, hmin, hrel⟩ := H.hD start hv
      exact Or.inl ⟨s0, hs0, hmin t0 0 Reaches.base⟩
    · have hfe := H.hF hv
      obtain ⟨s0, hs0, hle0⟩ := H.hG 0 start t0 hfe
      exact Or.inl ⟨s0, hs0, hle0⟩
  | @step u t1 c1 v' e dt hrp hmem hcd ih =>
    obtain ⟨hes, hed, henn, hef⟩ := hga _ (mem_out.mp hmem)
    have hdt0 : 0 ≤ dt := henn _ _ hcd
    rcases ih with ⟨su, hsu, hsule⟩ | hsle
    · by_cases hv : u ∈ st.visited
      · obtain ⟨s_u, t_u, hs_u, hru, hmin, hrel⟩ := H.hD u hv
        have hmin1 : s_u ≤ c1 := hmin t1 c1 hrp
        have ht_u : (t_u : ℚ) = (t0 : ℚ) + s_u := times_eq hic hru
        have ht1 : (t1 : ℚ) = (t0 : ℚ) + c1 := times_eq hic hrp
        have htle : t_u ≤ t1 := by
          have hq : (t_u : ℚ) ≤ (t1 : ℚ) := by
            rw [ht_u, ht1]
            linarith
          exact_mod_cast hq
        obtain ⟨dtu, hcdu, hfifo⟩ := hef t_u t1 htle dt hcd
        obtain ⟨sw, hsw, hswle⟩ := hrel v' e hmem dtu hcdu
        refine Or.inl ⟨sw, hsw, ?_⟩
        rw [ht_u, ht1] at hfifo
        linarith
      · obtain ⟨tu2, htu2⟩ := H.hC u su hv hsu
        have hsle2 : s ≤ su := popMin_le hpop (su, u, tu2) htu2
        exact Or.inr (by linarith)
    · exact Or.inr (by linarith)

/-- At a pop of an unfinalized node from an invariant state, the popped
score is settled in the score map, realized by an actual path at the popped
clock, and minimal among all reachable costs to the node. -/
theorem popped_score_optimal {g : TransitGraph} {start t0 : Nat}
    (hga : GraphAssumptions g) (hic : IntegralCosts g) {st : DState}
    (H : DInv g start t0 st) {s : ℚ} {v t : Nat} {rest : List HeapEntry}
    (hpop : popMin st.heap = some ((s, v, t), rest))
    (hnv : v ∉ st.visited) :
    st.scores v = some s ∧ Reaches g start t0 v t s ∧
      ∀ t' c, Reaches g start t0 v t' c → s ≤ c := by
  have hA := H.hA s v t (popMin_mem hpop)
  obtain ⟨s', hs', hle⟩ := H.hG s v t (popMin_mem hpop)
  obtain ⟨t2, ht2⟩ := H.hC v s' hnv hs'
  have hge : s ≤ s' := popMin_le hpop (s', v, t2) ht2
  have hseq : s' = s := le_antisymm hle hge
  rw [hseq] at hs'
  refine ⟨hs', hA, ?_⟩
  intro t' c hr
  rcases frontier_min hga hic H hpop v t' c hr with ⟨sw, hsw, hswle⟩ | hle2
  · rw [hs'] at hsw
    have hswe : s = sw := Option.some.inj hsw
    rw [hswe]
    exact hswle
  · exact hle2

/-- One engine iteration preserves the invariant. -/
theorem dijkstraStep_DInv {g : TransitGraph} {start t0 : Nat}
    (hga : GraphAssumptions g) (hic : IntegralCosts g)
    {target : Option Nat} {st : DState} (H : DInv g start t0 st) :
    ∀ st', dijkstraStep g target st = .step st' → DInv g start t0 st' := by
  intro st' hstep
  unfold dijkstraStep at hstep
  cases hpop : popMin st.heap with
  | none =>
    simp only [hpop] at hstep
    cases hstep
  | some pr =>
    obtain ⟨⟨s, v, t⟩, rest⟩ := pr
    simp only [hpop] at hstep
    have hrest : ∀ y ∈ rest, y ∈ st.heap := popMin_rest_subset hpop
    by_cases hv : st.visited.contains v
    · rw [if_pos hv] at hstep
      cases hstep
      refine ⟨?_, ?_, ?_, H.hD, ?_⟩
      · intro s' v' t' hm
        exact H.hA s' v' t' (hrest _ hm)
      · intro s' v' t' hm
        exact H.hG s' v' t' (hrest _ hm)
      · intro w sw hw hsw
        obtain ⟨tw, htw⟩ := H.hC w sw hw hsw
        refine ⟨tw, popMin_rest_of_ne hpop _ htw ?_⟩
        intro hh
        have hwv : w = v := congrArg (fun p : ℚ × Nat × Nat => p.2.1) hh
        rw [hwv] at hw
        exact hw (contains_iff_mem.mp hv)
      · intro hs
        have hf := H.hF hs
        refine popMin_rest_of_ne hpop _ hf ?_
        intro hh
        have hsv : start = v := congrArg (fun p : ℚ × Nat × Nat => p.2.1) hh
        rw [← hsv] at hv
        exact hs (contains_iff_mem.mp hv)
    · rw [if_neg hv] at hstep
      by_cases htgt : target = some v
      · rw [if_pos htgt] at hstep
        cases hstep
      · rw [if_neg htgt] at hstep
        cases hstep
        have hnv : v ∉ st.visited := fun hh => hv (contains_iff_mem.mpr hh)
        obtain ⟨hsv, hRv, hmin⟩ := popped_score_optimal hga hic H hpop hnv
        set st1 : DState := { st with heap := rest } with hst1
        have hsv1 : st1.scores v = some s := hsv
        have hpre : ∀ w sw, st1.scores w = some sw →
            st1.visited.contains w = false → w ≠ v →
            ∃ tw, (sw, w, tw) ∈ st1.heap := by
          intro w sw hw hvis hwv
          obtain ⟨tw, htw⟩ := H.hC w sw
            (fun hh => by rw [contains_iff_mem.mpr hh] at hvis; cases hvis)
            hw
          refine ⟨tw, popMin_rest_of_ne hpop _ htw ?_⟩
          intro hh
          exact hwv (congrArg (fun p : ℚ × Nat × Nat => p.2.1) hh)
        have hout_nonneg : ∀ e ∈ out g v, ∀ dt t',
            calculate_delay e.2 t' = some dt → 0 ≤ dt := by
          intro e he dt t' hcd
          exact (hga _ (mem_out.mp (by
            cases e with
            | mk w pe => exact he))).2.2.1 t' dt hcd
        have hstable : (relaxEdges g v s t st1).scores v = some s := by
          rw [relaxEdges_scores_stable hout_nonneg hsv1 (le_refl s)]
          exact hsv1
        have hunf : relaxEdges g v s t st1 =
            (out g v).foldl (relaxOne s t) st1 := rfl
        refine ⟨?_, ?_, ?_, ?_, ?_⟩
        · -- hA
          intro s'' w t'' hm
          rw [hunf] at hm
          rcases relaxList_heap_new s t (out g v) st1 _ hm with hold |
            ⟨w', e', dt, hmem, hcd, heq⟩
          · exact H.hA s'' w t'' (hrest _ hold)
          · have h1 : s'' = s + dt :=
              congrArg (fun p : ℚ × Nat × Nat => p.1) heq
            have h2 : w = w' :=
              congrArg (fun p : ℚ × Nat × Nat => p.2.1) heq
            have h3 : t'' = t + ratAsU32 dt :=
              congrArg (fun p : ℚ × Nat × Nat => p.2.2) heq
            rw [h1, h2, h3]
            exact Reaches.step w' e' dt hRv hmem hcd
        · -- hG
          have hG1 : GInv st1 := by
            intro s'' w t'' hm
            exact H.hG s'' w t'' (hrest _ hm)
          have hG2 : GInv (relaxEdges g v s t st1) := relaxEdges_GInv hG1
          intro s'' w t'' hm
          exact hG2 s'' w t'' hm
        · -- hC
          intro w sw hwmem hsw
          have hw1 : w ∉ (relaxEdges g v s t st1).visited := by
            intro hh
            exact hwmem (List.mem_append.mpr (Or.inl hh))
          have hw2 : w ≠ v := by
            intro hh
            exact hwmem (List.mem_append.mpr (Or.inr
              (List.mem_singleton.mpr hh)))
          have hwc : (relaxEdges g v s t st1).visited.contains w = false :=
            contains_eq_false_iff.mpr hw1
          exact @relaxEdges_keepC g v s t st1 v hpre w sw hsw hwc hw2
        · -- hD
          intro w hwmem
          rcases List.mem_append.mp hwmem with hwold | hwnew
          · -- previously finalized node
            have hwold' : w ∈ st.visited := by
              rw [relaxEdges_visited] at hwold
              exact hwold
            obtain ⟨s_w, t_w, hs_w, hrw, hminw, hrelw⟩ := H.hD w hwold'
            have hwc : st1.visited.contains w = true :=
              contains_iff_mem.mpr hwold'
            have hs_w' : (relaxEdges g v s t st1).scores w = some s_w := by
              rw [relaxEdges_scores_visited hwc]
              exact hs_w
            refine ⟨s_w, t_w, hs_w', hrw, hminw, ?_⟩
            intro w2 e2 hmem2 dt2 hcd2
            obtain ⟨sw2, hsw2, hle2⟩ := hrelw w2 e2 hmem2 dt2 hcd2
            rw [hunf]
            obtain ⟨sw2', hle2', hsc2'⟩ :=
              relaxList_scores_mono s t (out g v) st1 w2 sw2 hsw2
            exact ⟨sw2', hsc2', le_trans hle2' hle2⟩
          · -- the newly finalized popped node
            have hwv : w = v := List.mem_singleton.mp hwnew
            subst hwv
            refine ⟨s, t, hstable, hRv, hmin, ?_⟩
            intro w2 e2 hmem2 dt2 hcd2
            rw [hunf]
            refine relaxList_covers s t (out g w) st1 ?_ w2 e2 hmem2 dt2 hcd2
            intro w' e' dt' hmem' hvis' hcd'
            have hw'mem : w' ∈ st.visited := contains_iff_mem.mp hvis'
            obtain ⟨s_w', t_w', hs_w', hrw', hminw', _⟩ := H.hD w' hw'mem
            refine ⟨s_w', hs_w', ?_⟩
            exact hminw' _ _ (Reaches.step w' e' dt' hRv hmem' hcd')
        · -- hF
          intro hsx
          have hs1 : start ∉ st.visited := by
            intro hh
            refine hsx (List.mem_append.mpr (Or.inl ?_))
            rw [relaxEdges_visited]
            exact hh
          have hsnv : start ≠ v := by
            intro hh
            exact hsx (List.mem_append.mpr (Or.inr
              (List.mem_singleton.mpr hh)))
          have hf := H.hF hs1
          have hf1 : (0, start, t0) ∈ rest := by
            refine popMin_rest_of_ne hpop _ hf ?_
            intro hh
            exact hsnv (congrArg (fun p : ℚ × Nat × Nat => p.2.1) hh)
          rw [hunf]
          exact relaxList_heap_mono s t (out g v) st1 _ hf1

/-- The invariant holds at every state of the run. -/
theorem dstates_DInv (g : TransitGraph) (start t0 : Nat)
    (target : Option Nat) (hga : GraphAssumptions g)
    (hic : IntegralCosts g) :
    ∀ k, DInv g start t0 (dstates g target (initSt start t0) k) := by
  intro k
  induction k with
  | zero =>
    show DInv g start t0 (initSt start t0)
    refine ⟨?_, ?_, ?_, ?_, ?_⟩
    · intro s v t hm
      have h := List.mem_singleton.mp hm
      have hs : s = 0 := congrArg (fun p : ℚ × Nat × Nat => p.1) h
      have hv : v = start := congrArg (fun p : ℚ × Nat × Nat => p.2.1) h
      have ht : t = t0 := congrArg (fun p : ℚ × Nat × Nat => p.2.2) h
      subst hs
      subst hv
      subst ht
      exact Reaches.base
    · intro s v t hm
      have h := List.mem_singleton.mp hm
      have hs : s = 0 := congrArg (fun p : ℚ × Nat × Nat => p.1) h
      have hv : v = start := congrArg (fun p : ℚ × Nat × Nat => p.2.1) h
      subst hs
      subst hv
      refine ⟨0, ?_, le_refl _⟩
      simp [initSt]
    · intro w sw hw hsw
      by_cases hveq : w = start
      · subst hveq
        have hsw0 : sw = 0 := by
          simp only [initSt, if_pos rfl] at hsw
          exact (Option.some.inj hsw).symm
        subst hsw0
        exact ⟨t0, List.mem_singleton.mpr rfl⟩
      · simp only [initSt, if_neg hveq] at hsw
        cases hsw
    · intro w hwmem
      cases hwmem
    · intro _
      exact List.mem_singleton.mpr rfl
  | succ k ih =>
    have hrw : dstates g target (initSt start t0) (k + 1) =
        match dijkstraStep g target (dstates g target (initSt start t0) k)
          with
        | .halt _ => dstates g target (initSt start t0) k
        | .step st' => st' := rfl
    rw [hrw]
    cases hstep : dijkstraStep g target (dstates g target (initSt start t0) k)
      with
    | halt st' => exact ih
    | step st' => exact dijkstraStep_DInv hga hic ih st' hstep

/-- Claim C1 (amended): for a graph meeting the assembly invariants (sorted
trip lists, non-negative dwell, non-negative FIFO-monotone costs) whose edge
costs are additionally whole seconds, whenever the engine pops a
not-yet-finalized node, the popped score is realized by an actual path at
the popped clock and is minimal among the costs of all paths to that node
under the engine's truncated-clock semantics.  Without the whole-second
restriction the statement is false: `as u32` truncation makes the clock of
the score-minimal path diverge from its score, and a pop can miss an earlier
transit departure reachable at equal or worse score (see the
counterexample). -/
theorem time_dependent_dijkstra_pop_optimal (g : TransitGraph)
    (start t0 : Nat) (target : Option Nat)
    (hga : GraphAssumptions g) (hic : IntegralCosts g)
    (k : Nat) (s : ℚ) (v t : Nat) (rest : List HeapEntry)
    (hpop : popMin (dstates g target (initSt start t0) k).heap =
      some ((s, v, t), rest))
    (hnv : v ∉ (dstates g target (initSt start t0) k).visited) :
    Reaches g start t0 v t s ∧
      ∀ t' c, Reaches g start t0 v t' c → s ≤ c := by
  have H := dstates_DInv g start t0 target hga hic k
  have hres := popped_score_optimal hga hic H hpop hnv
  exact ⟨hres.2.1, hres.2.2⟩

/-- Witness for the amended C1 on the two-node walk graph at the very first
pop (the origin pops with score `0`, clock `0`). -/
theorem time_dependent_dijkstra_pop_optimal_witness :
    (GraphAssumptions pairGraph ∧ IntegralCosts pairGraph ∧
      popMin (dstates pairGraph none (initSt 0 0) 0).heap =
        some ((0, 0, 0), []) ∧
      (0 : Nat) ∉ (dstates pairGraph none (initSt 0 0) 0).visited) ∧
    (Reaches pairGraph 0 0 0 0 0 ∧
      ∀ t' c, Reaches pairGraph 0 0 0 t' c → 0 ≤ c) := by
  have hga : GraphAssumptions pairGraph := by
    intro ed hed
    rcases List.mem_singleton.mp hed with rfl
    refine ⟨?_, ?_, edgeNonNeg_walk (by norm_num), edgeFIFO_walk 7⟩
    · intro trips h
      cases h
    · intro trips h
      cases h
  have hic : IntegralCosts pairGraph := by
    intro ed hed
    rcases List.mem_singleton.mp hed with rfl
    intro t dt h
    cases h
    exact ⟨7, by norm_num⟩
  have hpop : popMin (dstates pairGraph none (initSt 0 0) 0).heap =
      some ((0, 0, 0), []) := by
    show popMin [((0 : ℚ), 0, 0)] = some ((0, 0, 0), [])
    unfold popMin minEntry
    simp
  have hnv : (0 : Nat) ∉ (dstates pairGraph none (initSt 0 0) 0).visited := by
    intro h
    cases h
  exact ⟨⟨hga, hic, hpop, hnv⟩,
    time_dependent_dijkstra_pop_optimal pairGraph 0 0 none hga hic 0 0 0 0 []
      hpop hnv⟩

/-- Counterexample to claim C1 as stated (without the whole-second cost
restriction): in `truncGraph` every assembly invariant of the claim holds
(sorted trips, non-negative dwell, non-negative FIFO-monotone costs), yet at
the fourth iteration the engine pops node `3` for the first time with score
`401/2`, although a path of cost `59/5 < 401/2` reaches node `3`: the
score-minimal walk to node `2` (cost `3/2`) has truncated clock `1` and
misses the transit departure at time `0`, which the fractional two-hop walk
(cost `9/5`, truncated clock `0`) still catches. -/
theorem time_dependent_dijkstra_pop_cex :
    GraphAssumptions truncGraph ∧
    (∃ rest, popMin (dstates truncGraph none (initSt 0 0) 3).heap =
      some ((401 / 2, 3, 200), rest)) ∧
    (3 : Nat) ∉ (dstates truncGraph none (initSt 0 0) 3).visited ∧
    Reaches truncGraph 0 0 3 10 (59 / 5) ∧
    (59 / 5 : ℚ) < 401 / 2 := by
  have hga : GraphAssumptions truncGraph := by
    intro ed hed
    simp only [truncGraph, List.mem_cons, List.not_mem_nil, or_false] at hed
    rcases hed with rfl | rfl | rfl | rfl
    · refine ⟨?_, ?_, edgeNonNeg_walk (by norm_num), edgeFIFO_walk _⟩
      · intro trips h
        cases h
      · intro trips h
        cases h
    · refine ⟨?_, ?_, edgeNonNeg_walk (by norm_num), edgeFIFO_walk _⟩
      · intro trips h
        cases h
      · intro trips h
        cases h
    · refine ⟨?_, ?_, edgeNonNeg_walk (by norm_num), edgeFIFO_walk _⟩
      · intro trips h
        cases h
      · intro trips h
        cases h
    · refine ⟨?_, ?_, edgeNonNeg_transit _, ?_⟩
      · intro trips h
        cases h
        decide
      · intro trips h
        cases h
        decide
      · exact edgeFIFO_transit _ (by decide) (by decide) (by decide)
          (by decide)
  set T : List Trip := [⟨0, 10, "r", false⟩, ⟨100, 200, "r", false⟩] with hT
  set f0 : Nat → Option ℚ := fun v => if v = 0 then some (0 : ℚ) else none
    with hf0
  set sc1 : Nat → Option ℚ :=
    scoresInsert (scoresInsert f0 2 (0 + 3 / 2)) 1 (0 + 9 / 10) with hsc1
  have e1 : dstates truncGraph none (initSt 0 0) 1 =
      (⟨[0], sc1, [(0 + 9 / 10, 1, 0 + ratAsU32 (9 / 10)),
        (0 + 3 / 2, 2, 0 + ratAsU32 (3 / 2))]⟩ : DState) := by
    rw [hsc1, hf0]
    rfl
  have h1 : dstates truncGraph none (initSt 0 0) 1 =
      (⟨[0], sc1, [(0 + 9 / 10, 1, 0), (0 + 3 / 2, 2, 1)]⟩ : DState) := by
    rw [e1]
    norm_num [ratAsU32_eq]
  have hstep2 : dijkstraStep truncGraph none
      (⟨[0], sc1, [(0 + 9 / 10, 1, 0), (0 + 3 / 2, 2, 1)]⟩ : DState) =
      .step (⟨[0, 1], sc1, [(0 + 3 / 2, 2, 1)]⟩ : DState) := by
    unfold dijkstraStep
    dsimp only
    have hmin : minEntry ((0 : ℚ) + 9 / 10, 1, 0) [((0 : ℚ) + 3 / 2, 2, 1)] =
        ((0 : ℚ) + 9 / 10, 1, 0) := by
      unfold minEntry
      rw [List.foldl_cons, List.foldl_nil, if_neg (by norm_num)]
    have hpop1 : popMin [((0 : ℚ) + 9 / 10, 1, 0), ((0 : ℚ) + 3 / 2, 2, 1)] =
        some (((0 : ℚ) + 9 / 10, 1, 0), [((0 : ℚ) + 3 / 2, 2, 1)]) := by
      unfold popMin
      dsimp only
      rw [hmin, List.erase_cons_head]
    rw [hpop1]
    dsimp only
    rw [if_neg (by decide)]
    rw [if_neg (by simp)]
    unfold relaxEdges
    have hout1 : out truncGraph 1 = [(2, GraphEdge.Walk (9 / 10))] := rfl
    rw [hout1, List.foldl_cons, List.foldl_nil]
    unfold relaxOne
    dsimp only
    rw [if_neg (by decide)]
    have hcd : calculate_delay (GraphEdge.Walk (9 / 10)) 0 =
        some ((9 : ℚ) / 10) := rfl
    rw [hcd]
    dsimp only
    have hsc2v : sc1 2 = some ((0 : ℚ) + 3 / 2) := by
      rw [hsc1]
      rfl
    rw [hsc2v]
    dsimp only
    rw [if_neg (by norm_num)]
    rfl
  have h2 : dstates truncGraph none (initSt 0 0) 2 =
      (⟨[0, 1], sc1, [(0 + 3 / 2, 2, 1)]⟩ : DState) := by
    have e2 : dstates truncGraph none (initSt 0 0) 2 =
        match dijkstraStep truncGraph none
          (dstates truncGraph none (initSt 0 0) 1) with
        | .halt _ => dstates truncGraph none (initSt 0 0) 1
        | .step st' => st' := rfl
    rw [e2, h1, hstep2]
  have hstep3 : dijkstraStep truncGraph none
      (⟨[0, 1], sc1, [(0 + 3 / 2, 2, 1)]⟩ : DState) =
      .step (⟨[0, 1, 2],
        scoresInsert sc1 3 (0 + 3 / 2 + ((u32_wrapping_sub 200 1 : ℕ) : ℚ)),
        [(0 + 3 / 2 + ((u32_wrapping_sub 200 1 : ℕ) : ℚ), 3, 200)]⟩ :
          DState) := by
    unfold dijkstraStep
    dsimp only
    have hpop2 : popMin [((0 : ℚ) + 3 / 2, 2, 1)] =
        some (((0 : ℚ) + 3 / 2, 2, 1), []) := by
      unfold popMin minEntry
      simp
    rw [hpop2]
    dsimp only
    rw [if_neg (by decide)]
    rw [if_neg (by simp)]
    unfold relaxEdges
    have hout2 : out truncGraph 2 = [(3, GraphEdge.Transit T)] := by
      rw [hT]
      rfl
    rw [hout2, List.foldl_cons, List.foldl_nil]
    unfold relaxOne
    dsimp only
    rw [if_neg (by decide)]
    have hcd2 : calculate_delay (GraphEdge.Transit T) 1 =
        some ((u32_wrapping_sub 200 1 : ℕ) : ℚ) := by
      rw [hT]
      rfl
    rw [hcd2]
    dsimp only
    have hsc3v : sc1 3 = none := by
      rw [hsc1, hf0]
      rfl
    rw [hsc3v]
    dsimp only
    have hclk : 1 + ratAsU32 ((u32_wrapping_sub 200 1 : ℕ) : ℚ) = 200 := by
      rw [ratAsU32_natCast]
      decide
    rw [hclk]
    rfl
  have h3 : dstates truncGraph none (initSt 0 0) 3 =
      (⟨[0, 1, 2],
        scoresInsert sc1 3 (0 + 3 / 2 + ((u32_wrapping_sub 200 1 : ℕ) : ℚ)),
        [(0 + 3 / 2 + ((u32_wrapping_sub 200 1 : ℕ) : ℚ), 3, 200)]⟩ :
          DState) := by
    have e3 : dstates truncGraph none (initSt 0 0) 3 =
        match dijkstraStep truncGraph none
          (dstates truncGraph none (initSt 0 0) 2) with
        | .halt _ => dstates truncGraph none (initSt 0 0) 2
        | .step st' => st' := rfl
    rw [e3, h2, hstep3]
  have hval : (0 : ℚ) + 3 / 2 + ((u32_wrapping_sub 200 1 : ℕ) : ℚ) =
      401 / 2 := by
    have hD : u32_wrapping_sub 200 1 = 199 := by decide
    rw [hD]
    norm_num
  refine ⟨hga, ?_, ?_, ?_, by norm_num⟩
  · rw [h3]
    dsimp only
    rw [hval]
    exact ⟨[((401 / 2 : ℚ), 3, 200)].erase ((401 / 2 : ℚ), 3, 200), rfl⟩
  · rw [h3]
    decide
  · have hout0 : out truncGraph 0 =
        [(2, GraphEdge.Walk (3 / 2)), (1, GraphEdge.Walk (9 / 10))] := rfl
    have hm01 : (1, GraphEdge.Walk (9 / 10)) ∈ out truncGraph 0 := by
      rw [hout0]
      exact List.mem_cons_of_mem _ (List.mem_cons_self _ _)
    have r1 : Reaches truncGraph 0 0 1 (0 + ratAsU32 (9 / 10))
        (0 + 9 / 10) :=
      Reaches.step 1 (GraphEdge.Walk (9 / 10)) (9 / 10) Reaches.base hm01 rfl
    have hc1 : (0 : ℕ) + ratAsU32 (9 / 10) = 0 := by
      norm_num [ratAsU32_eq]
    rw [hc1] at r1
    have hout1b : out truncGraph 1 = [(2, GraphEdge.Walk (9 / 10))] := rfl
    have hm12 : (2, GraphEdge.Walk (9 / 10)) ∈ out truncGraph 1 := by
      rw [hout1b]
      exact List.mem_cons_self _ _
    have r2 : Reaches truncGraph 0 0 2 (0 + ratAsU32 (9 / 10))
        (0 + 9 / 10 + 9 / 10) :=
      Reaches.step 2 (GraphEdge.Walk (9 / 10)) (9 / 10) r1 hm12 rfl
    rw [hc1] at r2
    have hm23 : (3, GraphEdge.Transit T) ∈ out truncGraph 2 := by
      have hout2 : out truncGraph 2 = [(3, GraphEdge.Transit T)] := by
        rw [hT]
        rfl
      rw [hout2]
      exact List.mem_cons_self _ _
    have hcd23 : calculate_delay (GraphEdge.Transit T) 0 =
        some ((u32_wrapping_sub 10 0 : ℕ) : ℚ) := by
      rw [hT]
      rfl
    have r3 : Reaches truncGraph 0 0 3
        (0 + ratAsU32 ((u32_wrapping_sub 10 0 : ℕ) : ℚ))
        (0 + 9 / 10 + 9 / 10 + ((u32_wrapping_sub 10 0 : ℕ) : ℚ)) :=
      Reaches.step 3 (GraphEdge.Transit T) _ r2 hm23 hcd23
    have h10 : u32_wrapping_sub 10 0 = 10 := by decide
    rw [h10, ratAsU32_natCast] at r3
    push_cast at r3
    norm_num at r3
    exact r3

end Cascade
